import Mathlib

/-!
# rsssplit: feed classification, filtering, metadata override and RSS re-encoding

A shallow embedding of `internal/server/handlers.go`, `internal/server/render.go`,
`internal/server/helpers.go` and `internal/cache/source_cache.go`.

Modelling conventions.

* A Go `string` is a Lean `String`.  Titles and names reach this code from an XML decoder, which
  only yields valid UTF-8; on valid UTF-8 the byte-wise `strings.Contains`, `strings.HasPrefix`,
  `==` and `<` agree with their code-point-wise counterparts used here.
* A Go `map[string]V` is an association list `List (String × V)` with pairwise distinct keys
  (`NodupKeys`).  The order of the list stands for the order in which `range` happens to visit
  the map; the language leaves that order unspecified, so two lists that are permutations of one
  another model the same map.  A nil map and an empty map are both `[]`: the code only ever
  reads their length, ranges over them or looks keys up, which cannot tell the two apart.
* A pointer that may be nil is an `Option`.
* The `xml.Encoder` is modelled by the sequence of tokens handed to `EncodeToken`.
-/

namespace RssSplit

/-! ## Go string helpers -/

/-- Go `strings.HasPrefix(s, p)`. -/
def hasPrefix (s p : String) : Bool := p.data.isPrefixOf s.data

/-- Scan of `strings.Contains`: does `sub` start at some position of the remaining input. -/
def containsAt : List Char → List Char → Bool
  | [], sub => sub.isPrefixOf []
  | c :: cs, sub => sub.isPrefixOf (c :: cs) || containsAt cs sub

/-- Go `strings.Contains(s, sub)`. -/
def contains (s sub : String) : Bool := containsAt s.data sub.data

/-- Go `unicode.IsSpace`: the Latin-1 cases listed in the function, then the `White_Space`
range table. -/
def isSpace (c : Char) : Bool :=
  let r := c.toNat
  if r ≤ 0xFF then
    r = 0x09 || r = 0x0A || r = 0x0B || r = 0x0C || r = 0x0D || r = 0x20 || r = 0x85 || r = 0xA0
  else
    r = 0x1680 || (0x2000 ≤ r && r ≤ 0x200A) || r = 0x2028 || r = 0x2029 || r = 0x202F
      || r = 0x205F || r = 0x3000

/-- Go `strings.TrimSpace`: leading and trailing white space removed. -/
def TrimSpace (s : String) : String :=
  ⟨((s.data.dropWhile isSpace).reverse.dropWhile isSpace).reverse⟩

/-- The test `strings.TrimSpace(s) != ""` used throughout the code. -/
def nonBlank (s : String) : Bool := decide (TrimSpace s ≠ "")

/-! ## Classification (`handlers.go`) -/

/-- Go `selectType`. -/
def selectType (title : String) : String :=
  if contains title "СДЗ" then
    "sdz"
  else if hasPrefix title "Кабинет Лора " ||
      decide (title = "Завтракаст Special - Про Warhammer 40k") then
    "kabinet_lora"
  else if contains title "Фотодушнила" then
    "photo"
  else
    "zavtracast"

/-! ## Request type selection (`HandleFeed`, lines 35-43) -/

/-- Go `url.Values`: query parameter name to the list of its values. -/
abbrev Values := List (String × List String)

/-- Go `url.Values.Get`: the first value of the key, or the empty string. -/
def Values.Get (v : Values) (key : String) : String :=
  match v.lookup key with
  | none => ""
  | some [] => ""
  | some (x :: _) => x

/-- Go `strings.TrimPrefix`. -/
def TrimPrefix (s p : String) : String :=
  if hasPrefix s p then ⟨s.data.drop p.data.length⟩ else s

/-- The feed type `typ` computed at the head of the `HandleFeed` closure from the request
path and query. -/
def HandleFeed_typ (path : String) (query : Values) : String :=
  let typ := query.Get "type"
  let typ :=
    if path = "/sdz" ∨ path = "/kabinet_lora" ∨ path = "/photo" ∨ path = "/zavtracast" then
      TrimPrefix path "/"
    else typ
  if typ = "" then "zavtracast" else typ

/-! ## Data model (`gofeed`, `gofeed/extensions`, `config`) -/

/-- Go `time.Time`, seen through what the code uses: the instant (seconds and nanoseconds
since the zero time, January 1, year 1, 00:00:00 UTC). -/
structure Time where
  sec : Int
  nsec : Nat
deriving DecidableEq

/-- Go `Time.IsZero`. -/
def Time.IsZero (t : Time) : Bool := decide (t.sec = 0) && decide (t.nsec = 0)

/-- Go `ext.Extension`: `Attrs` is a `map[string]string`, `Children` a
`map[string][]Extension`. -/
inductive Extension where
  | mk (Name : String) (Value : String) (Attrs : List (String × String))
      (Children : List (String × List Extension))

/-- Field `Name` of an extension element. -/
def Extension.Name : Extension → String
  | .mk n _ _ _ => n

/-- Field `Value` of an extension element. -/
def Extension.Value : Extension → String
  | .mk _ v _ _ => v

/-- Field `Attrs` of an extension element. -/
def Extension.Attrs : Extension → List (String × String)
  | .mk _ _ a _ => a

/-- Field `Children` of an extension element. -/
def Extension.Children : Extension → List (String × List Extension)
  | .mk _ _ _ c => c

/-- Go `ext.Extensions`, a `map[string]map[string][]Extension`: namespace prefix, then element
name, then the stored list of elements. -/
abbrev Extensions := List (String × List (String × List Extension))

/-- Go `gofeed.Image`. -/
structure Image where
  URL : String
  Title : String
deriving DecidableEq

/-- Go `gofeed.Person`. -/
structure Person where
  Name : String
  Email : String
deriving DecidableEq

/-- Go `gofeed.Enclosure`. -/
structure Enclosure where
  URL : String
  Length : String
  Type_ : String
deriving DecidableEq

/-- Go `gofeed.Item` (the fields this program reads, and the plain data next to them). -/
structure Item where
  Title : String
  Description : String
  Content : String
  Link : String
  Updated : String
  UpdatedParsed : Option Time
  Published : String
  PublishedParsed : Option Time
  Author : Option Person
  GUID : String
  Image : Option Image
  Categories : List String
  Enclosures : List (Option Enclosure)
  Extensions : Extensions

/-- Go `gofeed.Feed` (the fields this program reads, and the plain data next to them).
`Items` is a `[]*Item`. -/
structure Feed where
  Title : String
  Description : String
  Link : String
  FeedLink : String
  Updated : String
  UpdatedParsed : Option Time
  Published : String
  PublishedParsed : Option Time
  Author : Option Person
  Language : String
  Image : Option Image
  Copyright : String
  Generator : String
  Categories : List String
  Extensions : Extensions
  Items : List (Option Item)
  FeedType : String
  FeedVersion : String

/-- Go `config.TypeMeta`. -/
structure TypeMeta where
  Title : String
  Description : String
  ImageURL : String
deriving DecidableEq

/-- Go `config.Config`; durations are nanosecond counts. -/
structure Config where
  Source : String
  Format : String
  Addr : String
  Timeout : Int
  UserAgent : String
  Refresh : Int
  TypeMetas : List (String × TypeMeta)

/-! ## Go maps as association lists -/

/-- Keys of a map are pairwise distinct. -/
def NodupKeys {V : Type} (m : List (String × V)) : Prop := (m.map Prod.fst).Nodup

instance NodupKeys.decidable {V : Type} (m : List (String × V)) : Decidable (NodupKeys m) :=
  inferInstanceAs (Decidable (m.map Prod.fst).Nodup)

/-- Go `m[k] = v`: the value of an existing key is replaced, a new key is added. -/
def mapSet {V : Type} : List (String × V) → String → V → List (String × V)
  | [], k, v => [(k, v)]
  | (k0, v0) :: rest, k, v => if k0 = k then (k, v) :: rest else (k0, v0) :: mapSet rest k v

/-- Go `exts[p][n]` read as an optional value: the stored list when both keys are present. -/
def extGet (exts : Extensions) (p n : String) : Option (List Extension) :=
  (exts.lookup p).bind fun ns => ns.lookup n

/-! ## Filtering and metadata override (`handlers.go`) -/

/-- Variables of `filterFeedGF`: the feed behind the pointer `in` and the local copy `cp`. -/
structure FilterState where
  input : Feed
  cp : Feed

/-- Loop of `filterFeedGF` over the remaining items.  `none` is the nil-pointer panic of
`it.Title` on a nil item. -/
def filterFeedGF_loop (want : String) : List (Option Item) → FilterState → Option FilterState
  | [], st => some st
  | none :: _, _ => none
  | some it :: rest, st =>
    if selectType it.Title = want then
      filterFeedGF_loop want rest { st with cp := { st.cp with Items := st.cp.Items ++ [some it] } }
    else
      filterFeedGF_loop want rest st

/-- Body of `filterFeedGF`: `cp := *in; cp.Items = nil`, then the loop over `in.Items`. -/
def filterFeedGF_run (inp : Feed) (want : String) : Option FilterState :=
  filterFeedGF_loop want inp.Items { input := inp, cp := { inp with Items := [] } }

/-- Go `filterFeedGF`: the returned `&cp`. -/
def filterFeedGF (inp : Feed) (want : String) : Option Feed :=
  (filterFeedGF_run inp want).map fun st => st.cp

/-- Go `applyTypeMetaGF`, returning the feed behind `f` after the call. -/
def applyTypeMetaGF (f : Feed) (typ : String) (cfg : Config) : Feed :=
  match cfg.TypeMetas.lookup typ with
  | none => f
  | some m =>
    let f := if nonBlank m.Title then { f with Title := m.Title } else f
    let f := if nonBlank m.Description then { f with Description := m.Description } else f
    if nonBlank m.ImageURL then
      let img : Image := match f.Image with
        | none => { URL := "", Title := "" }
        | some i => i
      let f := { f with Image := some { img with URL := m.ImageURL } }
      let exts := f.Extensions
      let exts := if ((exts.lookup "itunes").getD []).isEmpty then mapSet exts "itunes" [] else exts
      let itunes := mapSet ((exts.lookup "itunes").getD []) "image"
        [Extension.mk "image" "" [("href", m.ImageURL)] []]
      { f with Extensions := mapSet exts "itunes" itunes }
    else f

/-! ## Helpers (`helpers.go`) -/

/-- Go `coalesce`: the first argument that is non-blank after `TrimSpace`, or `""`. -/
def coalesce : List String → String
  | [] => ""
  | s :: ss => if nonBlank s then s else coalesce ss

/-- Go `firstNonZeroTime`: the first non-nil, non-zero time, or the zero time. -/
def firstNonZeroTime : List (Option Time) → Time
  | [] => { sec := 0, nsec := 0 }
  | none :: ts => firstNonZeroTime ts
  | some t :: ts => if !t.IsZero then t else firstNonZeroTime ts

/-- The guard `t != nil && !t.IsZero()`: the time behind the pointer when the guard holds. -/
def nonZeroTime? : Option Time → Option Time
  | none => none
  | some t => if !t.IsZero then some t else none

/-! ## RSS encoder (`render.go`) -/

/-- Token handed to `xml.Encoder.EncodeToken`.  Names are the `Local` part of an `xml.Name`
(this code never sets `Space`); an attribute is its name and value. -/
inductive Token where
  | StartElement (name : String) (attr : List (String × String))
  | CharData (text : String)
  | EndElement (name : String)
deriving DecidableEq

/-- Library functions the encoder calls whose tables are not part of this repository. -/
structure Lib where
  /-- Go `Time.Format(time.RFC1123Z)`. -/
  formatRFC1123Z : Time → String
  /-- Go `unicode.ToLower` on runes above `unicode.MaxASCII`. -/
  toLowerTable : Char → Char

/-- Go `strings.ToLower`: ASCII letters are shifted, other runes go through the case tables. -/
def ToLower (lib : Lib) (s : String) : String :=
  ⟨s.data.map fun c =>
    if c.toNat < 0x80 then
      if 0x41 ≤ c.toNat ∧ c.toNat ≤ 0x5A then Char.ofNat (c.toNat + 0x20) else c
    else lib.toLowerTable c⟩

/-- Go `rssNS`: the known namespace prefixes and their URIs. -/
def rssNS : List (String × String) :=
  [ ("itunes", "http://www.itunes.com/dtds/podcast-1.0.dtd"),
    ("atom", "http://www.w3.org/2005/Atom"),
    ("content", "http://purl.org/rss/1.0/modules/content/"),
    ("googleplay", "http://www.google.com/schemas/play-podcasts/1.0"),
    ("media", "http://search.yahoo.com/mrss/") ]

/-- Go `<` on strings (lexicographic; code-point order is byte order on UTF-8). -/
def strLt : List Char → List Char → Bool
  | [], [] => false
  | [], _ :: _ => true
  | _ :: _, [] => false
  | a :: as, b :: bs =>
    decide (a.toNat < b.toNat) || (decide (a.toNat = b.toNat) && strLt as bs)

/-- Go `<=` on strings. -/
def strLe (a b : String) : Bool := !strLt b.data a.data

/-- Go `sort.Strings`: the ascending rearrangement of the slice. -/
def sortStrings (l : List String) : List String :=
  l.insertionSort fun a b => strLe a b = true

/-- Go `encodeEl`: nothing for a blank value, else start tag, text, end tag. -/
def encodeEl (name value : String) : List Token :=
  if nonBlank value then
    [Token.StartElement name [], Token.CharData value, Token.EndElement name]
  else []

mutual
/-- Go `writeExtension`.  The attributes are appended in the order `range e.Attrs` visits
them, which is the order of the association list. -/
def writeExtension (pfx : String) : Extension → List Token
  | .mk name value attrs children =>
    [Token.StartElement (pfx ++ ":" ++ name) attrs]
      ++ (if nonBlank value then [Token.CharData value] else [])
      ++ (if children.length > 0 then
            (sortStrings (children.map Prod.fst)).flatMap fun cn =>
              writeExtension_named pfx cn children
          else [])
      ++ [Token.EndElement (pfx ++ ":" ++ name)]
/-- Inner loop `for _, ce := range e.Children[cn]` of `writeExtension`: the list stored
under `cn` is looked up and each of its elements written. -/
def writeExtension_named (pfx cn : String) : List (String × List Extension) → List Token
  | [] => []
  | (k, ces) :: rest =>
    if k = cn then writeExtension_list pfx ces else writeExtension_named pfx cn rest
/-- Writing the elements of one stored list in order. -/
def writeExtension_list (pfx : String) : List Extension → List Token
  | [] => []
  | ce :: ces => writeExtension pfx ce ++ writeExtension_list pfx ces
end

/-- Go `writeExtensions`. -/
def writeExtensions (exts : Extensions) : List Token :=
  if exts.length = 0 then []
  else
    (sortStrings (exts.map Prod.fst)).flatMap fun p =>
      match exts.lookup p with
      | none => []
      | some ns =>
        if ns.isEmpty then []
        else
          (sortStrings (ns.map Prod.fst)).flatMap fun n =>
            ((ns.lookup n).getD []).flatMap fun e => writeExtension p e

/-- Inner function `add` of `collectPrefixes`: every key of `m` is marked in `seen`. -/
def collectPrefixes_add (seen : List (String × Bool)) (m : Extensions) : List (String × Bool) :=
  m.foldl (fun s kv => mapSet s kv.1 true) seen

/-- Go `collectPrefixes`. -/
def collectPrefixes (f : Feed) : List String :=
  let seen : List (String × Bool) := []
  let seen := collectPrefixes_add seen f.Extensions
  let seen := f.Items.foldl
    (fun s it => match it with
      | none => s
      | some it => collectPrefixes_add s it.Extensions) seen
  sortStrings ((seen.map Prod.fst).filter fun p => (rssNS.lookup p).isSome)

/-- Body of the item loop of `renderRSS2WithExtensions` for one entry of `f.Items`. -/
def renderRSS2WithExtensions_item (lib : Lib) : Option Item → List Token
  | none => []
  | some it =>
    [Token.StartElement "item" []]
      ++ encodeEl "title" it.Title
      ++ encodeEl "link" it.Link
      ++ encodeEl "description" (coalesce [it.Description, it.Content])
      ++ (match nonZeroTime? it.PublishedParsed, nonZeroTime? it.UpdatedParsed with
          | some t, _ => encodeEl "pubDate" (lib.formatRFC1123Z t)
          | none, some t => encodeEl "pubDate" (lib.formatRFC1123Z t)
          | none, none => [])
      ++ (if nonBlank it.GUID then
            [Token.StartElement "guid"
                (if !hasPrefix (ToLower lib it.GUID) "http://" &&
                    !hasPrefix (ToLower lib it.GUID) "https://" then
                  [("isPermaLink", "false")]
                else []),
              Token.CharData it.GUID,
              Token.EndElement "guid"]
          else [])
      ++ (match it.Enclosures with
          | some enc0 :: _ =>
            [Token.StartElement "enclosure"
                ([("url", enc0.URL)]
                  ++ (if enc0.Length ≠ "" then [("length", enc0.Length)] else [])
                  ++ (if enc0.Type_ ≠ "" then [("type", enc0.Type_)] else [])),
              Token.EndElement "enclosure"]
          | _ => [])
      ++ writeExtensions it.Extensions
      ++ [Token.EndElement "item"]

/-- Start element `<rss>` built by `renderRSS2WithExtensions`. -/
def renderRSS2WithExtensions_rssStart (f : Feed) : Token :=
  Token.StartElement "rss"
    ([("version", "2.0")] ++
      (collectPrefixes f).filterMap fun p =>
        (rssNS.lookup p).map fun uri => ("xmlns:" ++ p, uri))

/-- Tokens between `<channel>` and `</channel>` written by `renderRSS2WithExtensions`. -/
def renderRSS2WithExtensions_channel (lib : Lib) (f : Feed) : List Token :=
  encodeEl "title" f.Title
    ++ encodeEl "link" f.Link
    ++ encodeEl "description" (coalesce [f.Description, f.Title])
    ++ (if f.Language ≠ "" then encodeEl "language" f.Language else [])
    ++ (match nonZeroTime? f.PublishedParsed with
        | some t => encodeEl "pubDate" (lib.formatRFC1123Z t)
        | none => [])
    ++ (match nonZeroTime? f.UpdatedParsed with
        | some t => encodeEl "lastBuildDate" (lib.formatRFC1123Z t)
        | none => [])
    ++ (match f.Image with
        | some img =>
          if nonBlank img.URL then
            [Token.StartElement "image" []]
              ++ encodeEl "url" img.URL
              ++ encodeEl "title" (coalesce [img.Title, f.Title])
              ++ encodeEl "link" (coalesce [img.URL, f.Link])
              ++ [Token.EndElement "image"]
          else []
        | none => [])
    ++ writeExtensions f.Extensions
    ++ f.Items.flatMap (renderRSS2WithExtensions_item lib)

/-- Go `renderRSS2WithExtensions`: the tokens written to the encoder, in order. -/
def renderRSS2WithExtensions (lib : Lib) (f : Feed) : List Token :=
  [renderRSS2WithExtensions_rssStart f, Token.StartElement "channel" []]
    ++ renderRSS2WithExtensions_channel lib f
    ++ [Token.EndElement "channel", Token.EndElement "rss"]

/-! ## Sample values -/

/-- Zero value of `gofeed.Item`. -/
def Item.zero : Item :=
  { Title := "", Description := "", Content := "", Link := "", Updated := "",
    UpdatedParsed := none, Published := "", PublishedParsed := none, Author := none,
    GUID := "", Image := none, Categories := [], Enclosures := [], Extensions := [] }

/-- Zero value of `gofeed.Feed`. -/
def Feed.zero : Feed :=
  { Title := "", Description := "", Link := "", FeedLink := "", Updated := "",
    UpdatedParsed := none, Published := "", PublishedParsed := none, Author := none,
    Language := "", Image := none, Copyright := "", Generator := "", Categories := [],
    Extensions := [], Items := [], FeedType := "", FeedVersion := "" }

/-- A feed whose only item is titled "СДЗ: Episode 1". -/
def sdzFeed : Feed :=
  { Feed.zero with
    Title := "Podcast", Link := "https://example.org/",
    Items := [some { Item.zero with Title := "СДЗ: Episode 1", GUID := "ep-1" }] }

/-- Items kept by the filter for category `want`: non-nil items whose title classifies to it. -/
def keeps (want : String) : Option Item → Bool
  | none => false
  | some it => decide (selectType it.Title = want)

/-- A configuration with an image override for "sdz" and blank overrides elsewhere. -/
def sampleCfg : Config :=
  { Source := "feed.xml", Format := "rss", Addr := ":8080", Timeout := 20000000000,
    UserAgent := "rsssplit/1.5 (+https://example.com)", Refresh := 0,
    TypeMetas :=
      [ ("sdz", { Title := "СДЗ", Description := " ",
                  ImageURL := "https://example.org/sdz.png" }),
        ("kabinet_lora", { Title := "", Description := "", ImageURL := "" }),
        ("photo", { Title := "", Description := "", ImageURL := "" }),
        ("zavtracast", { Title := "", Description := "", ImageURL := "" }) ] }

/-- A stand-in for the library tables: times print as a fixed text, non-ASCII runes keep
their case. -/
def sampleLib : Lib :=
  { formatRFC1123Z := fun _ => "Mon, 02 Jan 2006 15:04:05 -0700", toLowerTable := fun c => c }

/-! ## Ordering of the written extension elements, as the specification words it -/

/-- The entries of a map arranged in ascending order of their key. -/
def sortEntries {V : Type} (m : List (String × V)) : List (String × V) :=
  m.insertionSort fun a b => strLe a.1 b.1 = true

mutual
/-- Number of elements of the tree rooted at an extension element, the element included. -/
def Extension.size : Extension → Nat
  | .mk _ _ _ children => 1 + Extension.sizeMap children
/-- Number of elements stored in a children map, at any depth. -/
def Extension.sizeMap : List (String × List Extension) → Nat
  | [] => 0
  | (_, es) :: rest => Extension.sizeList es + Extension.sizeMap rest
/-- Number of elements stored in a list of elements, at any depth. -/
def Extension.sizeList : List Extension → Nat
  | [] => 0
  | e :: es => Extension.size e + Extension.sizeList es
end

/-- Number of elements stored in an extension tree, at any depth. -/
def Extensions.size : Extensions → Nat
  | [] => 0
  | (_, ns) :: rest => Extension.sizeMap ns + Extensions.size rest

mutual
/-- Every children map below the element has pairwise distinct keys, as Go maps do. -/
def Extension.WF : Extension → Prop
  | .mk _ _ _ children => NodupKeys children ∧ Extension.WFMap children
/-- Well-formedness of the elements stored in a children map. -/
def Extension.WFMap : List (String × List Extension) → Prop
  | [] => True
  | (_, es) :: rest => Extension.WFList es ∧ Extension.WFMap rest
/-- Well-formedness of the elements of a list. -/
def Extension.WFList : List Extension → Prop
  | [] => True
  | e :: es => Extension.WF e ∧ Extension.WFList es
end

/-- An extension tree whose maps, at every depth, have pairwise distinct keys. -/
def Extensions.WF (exts : Extensions) : Prop :=
  NodupKeys exts ∧ ∀ pns ∈ exts, NodupKeys pns.2 ∧ Extension.WFMap pns.2

/-- Start tokens of a token sequence. -/
def Token.isStart : Token → Bool
  | .StartElement _ _ => true
  | _ => false

/-- A tree with two namespaces, two names under one of them, and nested children; the keys
are stored out of order. -/
def sampleExts : Extensions :=
  [ ("podcast", [ ("person", [Extension.mk "person" "Ann" [] [], Extension.mk "person" "Bob" [] []]),
                  ("funding", [Extension.mk "funding" "" []
                    [ ("z", [Extension.mk "z" "1" [] []]),
                      ("a", [Extension.mk "a" "2" [] [("n", [Extension.mk "n" "3" [] []])],
                             Extension.mk "a" "4" [] []]) ]]) ]),
    ("itunes", [ ("explicit", [Extension.mk "explicit" "no" [] []]) ]) ]

/-- One attribute map, in one order of visiting its two entries. -/
def attrsAB : List (String × String) := [("href", "https://example.org/a"), ("rel", "self")]

/-- The same attribute map, its two entries visited in the other order. -/
def attrsBA : List (String × String) := [("rel", "self"), ("href", "https://example.org/a")]

/-- A feed whose channel carries one `atom:link` element with the given attribute map. -/
def atomLinkFeed (attrs : List (String × String)) : Feed :=
  { Feed.zero with
    Title := "Podcast"
    Extensions := [("atom", [("link", [Extension.mk "link" "" attrs []])])] }

/-! ## Nesting of a token sequence -/

/-- Reading a token sequence with the stack of open element names: a start tag opens its
element, an end tag must close the innermost open element of the same name, text must lie
inside an element.  The result is the stack left at the end, `none` when a token is out of
place. -/
def balance : List String → List Token → Option (List String)
  | st, [] => some st
  | st, Token.StartElement n _ :: ts => balance (n :: st) ts
  | [], Token.CharData _ :: _ => none
  | m :: st, Token.CharData _ :: ts => balance (m :: st) ts
  | [], Token.EndElement _ :: _ => none
  | m :: st, Token.EndElement n :: ts => if m = n then balance st ts else none

/-- For every start tag named `n` in the sequence, the names of the elements open around it,
innermost first. -/
def openAt (n : String) : List String → List Token → List (List String)
  | _, [] => []
  | st, Token.StartElement m _ :: ts =>
    (if m = n then [st] else []) ++ openAt n (m :: st) ts
  | st, Token.CharData _ :: ts => openAt n st ts
  | st, Token.EndElement _ :: ts => openAt n st.tail ts

/-- Tokens other than start and end tags of a name without a colon: every tag written for an
extension element is named `prefix:name`. -/
def Token.hasColon : Token → Bool
  | .StartElement n _ => decide (':' ∈ n.data)
  | .CharData _ => true
  | .EndElement n => decide (':' ∈ n.data)

/-- Start tags of the element name `n`. -/
def Token.isStartOf (n : String) : Token → Bool
  | .StartElement m _ => decide (m = n)
  | _ => false

/-- Tokens that are text, or a tag whose name is in `ns` or has a colon. -/
def Token.nameIn (ns : List String) : Token → Bool
  | .StartElement n _ => decide (n ∈ ns) || decide (':' ∈ n.data)
  | .CharData _ => true
  | .EndElement n => decide (n ∈ ns) || decide (':' ∈ n.data)

/-- A feed whose only item has a title and a link but no GUID. -/
def noGuidFeed : Feed :=
  { Feed.zero with
    Title := "Podcast", Link := "https://example.org/",
    Items := [some { Item.zero with Title := "Выпуск 1", Link := "https://example.org/1" }] }

/-- The GUID step of the item loop (`render.go`, lines 96-108), as it stands in
`renderRSS2WithExtensions_item`. -/
def renderRSS2WithExtensions_guid (lib : Lib) (it : Item) : List Token :=
  if nonBlank it.GUID then
    [Token.StartElement "guid"
        (if !hasPrefix (ToLower lib it.GUID) "http://" &&
            !hasPrefix (ToLower lib it.GUID) "https://" then
          [("isPermaLink", "false")]
        else []),
      Token.CharData it.GUID,
      Token.EndElement "guid"]
  else []

/-- The enclosure step of the item loop (`render.go`, lines 110-126), as it stands in
`renderRSS2WithExtensions_item`. -/
def renderRSS2WithExtensions_enclosure (it : Item) : List Token :=
  match it.Enclosures with
  | some enc0 :: _ =>
    [Token.StartElement "enclosure"
        ([("url", enc0.URL)]
          ++ (if enc0.Length ≠ "" then [("length", enc0.Length)] else [])
          ++ (if enc0.Type_ ≠ "" then [("type", enc0.Type_)] else [])),
      Token.EndElement "enclosure"]
  | _ => []

/-- In the token sequence every start tag named by one of `names` is directly followed by
non-blank text and the end tag of the same name. -/
def FieldsFilled (names : List String) (l : List Token) : Prop :=
  ∀ (pre : List Token) (n : String) (as : List (String × String)) (post : List Token),
    l = pre ++ Token.StartElement n as :: post → n ∈ names →
    ∃ (v : String) (post2 : List Token),
      post = Token.CharData v :: Token.EndElement n :: post2 ∧ TrimSpace v ≠ ""

/-! ## Case-insensitive prefix, as the specification words it -/

/-- An ASCII capital letter is replaced by its small letter, any other rune is kept. -/
def foldASCII (c : Char) : Char :=
  if 0x41 ≤ c.toNat ∧ c.toNat ≤ 0x5A then Char.ofNat (c.toNat + 0x20) else c

/-- The string `s` starts with the lower-case ASCII text `p` when letters are compared
without regard to case. -/
def hasPrefixFold (s p : String) : Bool := p.data.isPrefixOf (s.data.map foldASCII)

/-- An item whose GUID is an upper-case URL. -/
def upperGuidItem : Item := { Item.zero with Title := "Episode", GUID := "HTTPS://x" }

/-- An item whose first enclosure has a whitespace-only length and type, and a second
enclosure. -/
def blankLengthItem : Item :=
  { Item.zero with
    Title := "Episode"
    Enclosures :=
      [ some { URL := "https://example.org/a.mp3", Length := " ", Type_ := "\t" },
        some { URL := "https://example.org/b.mp3", Length := "1", Type_ := "audio/mpeg" } ] }

/-! ## Conversion for the Atom output (`gorilla/feeds`, `render.go`) -/

/-- Go `feeds.Link`. -/
structure feeds.Link where
  Href : String
  Rel : String
  Type_ : String
  Length : String
deriving DecidableEq

/-- Go `feeds.Author`. -/
structure feeds.Author where
  Name : String
  Email : String
deriving DecidableEq

/-- Go `feeds.Image`. -/
structure feeds.Image where
  Url : String
  Title : String
  Link : String
  Width : Int
  Height : Int
deriving DecidableEq

/-- Go `feeds.Enclosure`. -/
structure feeds.Enclosure where
  Url : String
  Length : String
  Type_ : String
deriving DecidableEq

/-- Go `feeds.Item`. -/
structure feeds.Item where
  Title : String
  Link : Option feeds.Link
  Source : Option feeds.Link
  Author : Option feeds.Author
  Description : String
  Id : String
  IsPermaLink : String
  Updated : Time
  Created : Time
  Enclosure : Option feeds.Enclosure
  Content : String
deriving DecidableEq

/-- Go `feeds.Feed`; `Items` is a `[]*feeds.Item`. -/
structure feeds.Feed where
  Title : String
  Link : Option feeds.Link
  Description : String
  Author : Option feeds.Author
  Updated : Time
  Created : Time
  Id : String
  Subtitle : String
  Items : List (Option feeds.Item)
  Copyright : String
  Image : Option feeds.Image
deriving DecidableEq

/-- Body of the item loop of `toGorilla` for a non-nil item `it` of the feed `inp`. -/
def toGorilla_item (inp : Feed) (it : Item) : feeds.Item :=
  { Title := it.Title
    Link := some { Href := it.Link, Rel := "", Type_ := "", Length := "" }
    Source := none
    Author := match it.Author with
      | some a => some { Name := a.Name, Email := a.Email }
      | none => none
    Description := coalesce [it.Description, it.Content]
    Id := coalesce [it.GUID, it.Link]
    IsPermaLink := ""
    Updated := firstNonZeroTime [it.UpdatedParsed, it.PublishedParsed]
    Created := firstNonZeroTime [it.PublishedParsed, it.UpdatedParsed, inp.PublishedParsed]
    Enclosure := match it.Enclosures with
      | some enc :: _ => some { Url := enc.URL, Length := enc.Length, Type_ := enc.Type_ }
      | _ => none
    Content := it.Content }

/-- Item loop of `toGorilla`; `none` is the nil-pointer panic of `it.Title` on a nil
item. -/
def toGorilla_items (inp : Feed) : List (Option Item) → Option (List (Option feeds.Item))
  | [] => some []
  | none :: _ => none
  | some it :: rest =>
    match toGorilla_items inp rest with
    | none => none
    | some fis => some (some (toGorilla_item inp it) :: fis)

/-- Go `toGorilla`. -/
def toGorilla (inp : Feed) : Option feeds.Feed :=
  match toGorilla_items inp inp.Items with
  | none => none
  | some items =>
    some
      { Title := inp.Title
        Link := some { Href := inp.Link, Rel := "", Type_ := "", Length := "" }
        Description := coalesce [inp.Description, inp.Title]
        Author := match inp.Author with
          | some a => some { Name := a.Name, Email := a.Email }
          | none => none
        Updated := firstNonZeroTime [inp.UpdatedParsed, inp.PublishedParsed]
        Created := firstNonZeroTime [inp.PublishedParsed, inp.UpdatedParsed]
        Id := ""
        Subtitle := ""
        Items := items
        Copyright := ""
        Image := match inp.Image with
          | some img => some { Url := img.URL, Title := "", Link := "", Width := 0, Height := 0 }
          | none => none }

/-! ## Source cache (`internal/cache/source_cache.go`)

The cache is modelled sequentially as the state `(data, etag, lastMod)` behind the lock; one
call runs against a `World` that answers the request it makes.  Every call reports the
upstream requests and file reads it performed. -/

/-- Go `[]byte`. -/
abbrev Bytes := List UInt8

/-- Request built by `fetch`; a header that is not set is the empty string. -/
structure Request where
  URL : String
  UserAgent : String
  IfNoneMatch : String
  IfModifiedSince : String
deriving DecidableEq

/-- Go `http.Response` as `fetch` reads it: the status code, the values `Header.Get` gives
for "ETag" and "Last-Modified" (empty when the header is absent), and what `io.ReadAll`
makes of the body. -/
structure Response where
  StatusCode : Int
  ETag : String
  LastModified : String
  Body : Except String Bytes

/-- The environment of one call: the outcome of `http.NewRequestWithContext` for a URL (an
error message, or `none`), of `client.Do` for a request, and of `os.ReadFile` for a path. -/
structure World where
  newRequest : String → Option String
  roundTrip : Request → Except String Response
  readFile : String → Except String Bytes

/-- What a call did to the outside. -/
inductive Event where
  | httpRequest (req : Request)
  | readFile (path : String)
deriving DecidableEq

/-- Return values `([]byte, int, error)`; a nil slice and a nil error are `none`. -/
structure FetchResult where
  body : Option Bytes
  status : Int
  err : Option String
deriving DecidableEq

/-- Go `SourceCache` without its lock: the fields guarded by `mu`, the configuration and the
`started` flag. -/
structure SourceCache where
  cfg : Config
  data : Bytes
  etag : String
  lastMod : String
  started : Bool

/-- Go `NewSourceCache`. -/
def NewSourceCache (cfg : Config) : SourceCache :=
  { cfg := cfg, data := [], etag := "", lastMod := "", started := false }

/-- Go `append([]byte(nil), b...)`: a fresh copy, nil when `b` is empty. -/
def copyBytes (b : Bytes) : Option Bytes := if b.length = 0 then none else some b

/-- Go `SourceCache.fetch`: the return values, the cache after the call and the requests and
reads performed. -/
def SourceCache.fetch (w : World) (c : SourceCache) : FetchResult × SourceCache × List Event :=
  let src := c.cfg.Source
  if hasPrefix src "http://" || hasPrefix src "https://" then
    match w.newRequest src with
    | some err => ({ body := none, status := 400, err := some err }, c, [])
    | none =>
      let req : Request :=
        { URL := src, UserAgent := c.cfg.UserAgent, IfNoneMatch := c.etag,
          IfModifiedSince := c.lastMod }
      match w.roundTrip req with
      | .error err => ({ body := none, status := 502, err := some err }, c, [Event.httpRequest req])
      | .ok resp =>
        if resp.StatusCode = 304 then
          if c.data.length = 0 then
            ({ body := none, status := 502, err := some "304 but no cached body yet" }, c,
              [Event.httpRequest req])
          else
            ({ body := copyBytes c.data, status := 200, err := none }, c,
              [Event.httpRequest req])
        else if resp.StatusCode < 200 ∨ resp.StatusCode > 299 then
          ({ body := none, status := resp.StatusCode,
             err := some ("upstream HTTP " ++ toString resp.StatusCode) }, c,
            [Event.httpRequest req])
        else
          match resp.Body with
          | .error err =>
            ({ body := none, status := 502, err := some err }, c, [Event.httpRequest req])
          | .ok body =>
            ({ body := copyBytes body, status := 200, err := none },
              { c with data := body, etag := resp.ETag, lastMod := resp.LastModified },
              [Event.httpRequest req])
  else
    let path := TrimPrefix src "file://"
    match w.readFile path with
    | .error err => ({ body := none, status := 400, err := some err }, c, [Event.readFile path])
    | .ok b =>
      ({ body := copyBytes b, status := 200, err := none },
        { c with data := b, etag := "", lastMod := "" }, [Event.readFile path])

/-- Go `SourceCache.Get`. -/
def SourceCache.Get (w : World) (c : SourceCache) : FetchResult × SourceCache × List Event :=
  if c.cfg.Refresh ≤ 0 then c.fetch w
  else if c.data.length > 0 then
    ({ body := copyBytes c.data, status := 200, err := none }, c, [])
  else c.fetch w

/-- The cache after a sequence of `fetch` calls, one world per call. -/
def runFetches : List World → SourceCache → SourceCache
  | [], c => c
  | w :: ws, c => runFetches ws (c.fetch w).2.1

/-- A configuration with an HTTP source and a refresh interval of five minutes. -/
def httpCfg : Config :=
  { sampleCfg with Source := "https://example.org/feed.xml", Refresh := 300000000000 }

/-- A world whose upstream answers every request with 304 Not Modified. -/
def world304 : World :=
  { newRequest := fun _ => none
    roundTrip := fun _ =>
      .ok { StatusCode := 304, ETag := "", LastModified := "", Body := .ok [] }
    readFile := fun _ => .error "open: no such file or directory" }

/-- A world whose upstream answers every request with 200, an ETag and three bytes. -/
def world200 : World :=
  { newRequest := fun _ => none
    roundTrip := fun _ =>
      .ok { StatusCode := 200, ETag := "\"v1\"", LastModified := "", Body := .ok [60, 97, 62] }
    readFile := fun _ => .error "open: no such file or directory" }

/-- A cache of `httpCfg` holding three bytes and their ETag. -/
def warmCache : SourceCache :=
  { cfg := httpCfg, data := [60, 97, 62], etag := "\"v1\"", lastMod := "", started := true }

/-- Where the cached data came from: nothing fetched yet, the body of a 2xx response, or a
local file. -/
inductive Supplier where
  | initial
  | http (resp : Response) (body : Bytes)
  | file (b : Bytes)

/-- The cache holds exactly what the supplier gave: its bytes, and as validators the ETag and
Last-Modified values of the response, or empty strings for a file or before any fetch. -/
def Supplier.explains : Supplier → SourceCache → Prop
  | .initial, c => c.data = [] ∧ c.etag = "" ∧ c.lastMod = ""
  | .http resp body, c =>
    resp.Body = .ok body ∧ c.data = body ∧ c.etag = resp.ETag ∧ c.lastMod = resp.LastModified
  | .file b, c => c.data = b ∧ c.etag = "" ∧ c.lastMod = ""

/-- The supplier is an answer one of the worlds gave: a response with a 2xx status, or the
content of a file. -/
def Supplier.occursIn : Supplier → List World → Prop
  | .initial, _ => True
  | .http resp _, ws =>
    ∃ w ∈ ws, ∃ req, w.roundTrip req = .ok resp ∧ 200 ≤ resp.StatusCode ∧
      resp.StatusCode ≤ 299
  | .file b, ws => ∃ w ∈ ws, ∃ path, w.readFile path = .ok b

/-- A configuration with a local file as its source. -/
def fileCfg : Config := { sampleCfg with Source := "file:///var/feed.xml" }

/-- A world in which the feed file holds two bytes. -/
def worldFile : World :=
  { newRequest := fun _ => none
    roundTrip := fun _ => .error "dial tcp: connection refused"
    readFile := fun _ => .ok [60, 62] }

/-- A world whose upstream answers every request with 404 and an ETag header. -/
def world404 : World :=
  { newRequest := fun _ => none
    roundTrip := fun _ =>
      .ok { StatusCode := 404, ETag := "\"gone\"", LastModified := "", Body := .ok [110, 111] }
    readFile := fun _ => .error "open: no such file or directory" }

/-! ## Reading the output back -/

/-- Modelled from the spec: the feed parser is an external library and not part of this
repository.  This is the part of its reading that the round trip of the specification asks
for, on the token sequence: the text, as it was written, of the first child element named `n`
of the element whose content starts here (`d` counts the elements open inside it), and the
empty string when the element has no such child or the child has no text. -/
def fieldText (n : String) : Nat → List Token → String
  | _, [] => ""
  | 0, Token.StartElement m _ :: rest =>
    if m = n then
      match rest with
      | Token.CharData v :: _ => v
      | _ => ""
    else fieldText n 1 rest
  | d + 1, Token.StartElement _ _ :: rest => fieldText n (d + 2) rest
  | d, Token.CharData _ :: rest => fieldText n d rest
  | 0, Token.EndElement _ :: _ => ""
  | d + 1, Token.EndElement _ :: rest => fieldText n d rest

/-- Modelled from the spec: the feed parser is an external library and not part of this
repository.  Reading a document back gives, for every `<item>` element lying directly in
`<channel>` inside `<rss>`, in document order, the texts of its `<title>`, `<link>` and
`<guid>` children; `st` is the stack of open element names. -/
def readItems : List String → List Token → List (String × String × String)
  | _, [] => []
  | st, Token.StartElement m _ :: rest =>
    (if m = "item" ∧ st = ["channel", "rss"] then
        [(fieldText "title" 0 rest, fieldText "link" 0 rest, fieldText "guid" 0 rest)]
      else [])
      ++ readItems (m :: st) rest
  | st, Token.CharData _ :: rest => readItems st rest
  | st, Token.EndElement _ :: rest => readItems st.tail rest

/-- Titles, links and GUIDs of the items of a feed model, in order. -/
def itemFields (f : Feed) : List (String × String × String) :=
  f.Items.filterMap fun o => o.map fun it => (it.Title, it.Link, it.GUID)

/-- A feed whose only item has a GUID of one space. -/
def blankGuidFeed : Feed :=
  { Feed.zero with
    Title := "Podcast", Link := "https://example.org/",
    Items := [some { Item.zero with
      Title := "Выпуск 2", Link := "https://example.org/2", GUID := " " }] }

/-! ## String lemmas -/

theorem hasPrefix_iff (s p : String) : hasPrefix s p = true ↔ p.data <+: s.data := by
  unfold hasPrefix
  exact List.isPrefixOf_iff_prefix

theorem containsAt_iff (sub : List Char) : ∀ l : List Char, containsAt l sub = true ↔ sub <:+: l
  | [] => by
    simp only [containsAt, List.isPrefixOf_iff_prefix, List.prefix_nil, List.infix_nil]
  | c :: cs => by
    simp only [containsAt, Bool.or_eq_true, List.isPrefixOf_iff_prefix, containsAt_iff sub cs,
      List.infix_cons_iff]

theorem contains_iff (s sub : String) : contains s sub = true ↔ sub.data <:+: s.data :=
  containsAt_iff sub.data s.data

/-- The test `strings.TrimSpace(s) != ""` fails exactly on strings made of white space only. -/
theorem nonBlank_eq_false_iff (s : String) : nonBlank s = false ↔ ∀ c ∈ s.data, isSpace c = true := by
  have key : ∀ l : List Char, l.dropWhile isSpace = [] ↔ ∀ c ∈ l, isSpace c = true := by
    intro l
    induction l with
    | nil => simp
    | cons a t ih =>
      by_cases ha : isSpace a = true
      · simp [List.dropWhile, ha, ih]
      · simp [List.dropWhile, ha]
  have h2 : TrimSpace s = "" ↔ s.data.dropWhile isSpace = [] := by
    unfold TrimSpace
    rw [String.ext_iff]
    show ((s.data.dropWhile isSpace).reverse.dropWhile isSpace).reverse = [] ↔ _
    constructor
    · intro h
      have h3 : (s.data.dropWhile isSpace).reverse.dropWhile isSpace = [] := by
        simpa using h
      rw [key] at h3
      by_contra hne
      obtain ⟨a, t, hat⟩ := List.exists_cons_of_ne_nil hne
      have ha : isSpace a = true := h3 a (by simp [hat])
      have hd : ∀ l : List Char, l.dropWhile isSpace = a :: t → isSpace a = false := by
        intro l
        induction l with
        | nil => simp
        | cons b u ih =>
          by_cases hb : isSpace b = true
          · simpa [List.dropWhile, hb] using ih
          · intro h
            simp only [List.dropWhile, hb] at h
            injection h with h1 _
            subst h1
            simpa using hb
      rw [hd _ hat] at ha
      exact Bool.noConfusion ha
    · intro h
      simp [h]
  unfold nonBlank
  rw [decide_eq_false_iff_not, not_not, h2, key]

/-! ## Classification -/

theorem selectType_mem (t : String) :
    selectType t ∈ ["sdz", "kabinet_lora", "photo", "zavtracast"] := by
  unfold selectType
  split
  · simp
  · split
    · simp
    · split <;> simp

/-- C1. `selectType` returns the category of the first matching rule: "sdz" when the title
contains "СДЗ"; else "kabinet_lora" when it starts with "Кабинет Лора " or equals the
special-case title; else "photo" when it contains "Фотодушнила"; else "zavtracast".  In
particular a title containing "СДЗ" is "sdz" even with the "Кабинет Лора " prefix, the
special-case title is "kabinet_lora", and a proper extension of the special-case title that
matches no other rule is "zavtracast". -/
theorem selectType_first_match :
    (∀ t : String, "СДЗ".data <:+: t.data → selectType t = "sdz") ∧
    (∀ t : String, ¬ "СДЗ".data <:+: t.data →
      ("Кабинет Лора ".data <+: t.data ∨ t = "Завтракаст Special - Про Warhammer 40k") →
      selectType t = "kabinet_lora") ∧
    (∀ t : String, ¬ "СДЗ".data <:+: t.data →
      ¬ ("Кабинет Лора ".data <+: t.data ∨ t = "Завтракаст Special - Про Warhammer 40k") →
      "Фотодушнила".data <:+: t.data → selectType t = "photo") ∧
    (∀ t : String, ¬ "СДЗ".data <:+: t.data →
      ¬ ("Кабинет Лора ".data <+: t.data ∨ t = "Завтракаст Special - Про Warhammer 40k") →
      ¬ "Фотодушнила".data <:+: t.data → selectType t = "zavtracast") ∧
    (∀ t : String, "СДЗ".data <:+: t.data → "Кабинет Лора ".data <+: t.data →
      selectType t = "sdz") ∧
    selectType "Кабинет Лора СДЗ" = "sdz" ∧
    selectType "Завтракаст Special - Про Warhammer 40k" = "kabinet_lora" ∧
    (∀ ext : String, ext ≠ "" →
      ¬ "СДЗ".data <:+: ("Завтракаст Special - Про Warhammer 40k" ++ ext).data →
      ¬ "Фотодушнила".data <:+: ("Завтракаст Special - Про Warhammer 40k" ++ ext).data →
      selectType ("Завтракаст Special - Про Warhammer 40k" ++ ext) = "zavtracast") := by
  have rule4 : ∀ t : String, ¬ "СДЗ".data <:+: t.data →
      ¬ ("Кабинет Лора ".data <+: t.data ∨ t = "Завтракаст Special - Про Warhammer 40k") →
      ¬ "Фотодушнила".data <:+: t.data → selectType t = "zavtracast" := by
    intro t h1 h2 h3
    have c1 : contains t "СДЗ" = false := by
      rw [← Bool.not_eq_true, contains_iff]; exact h1
    have c2 : hasPrefix t "Кабинет Лора " = false := by
      rw [← Bool.not_eq_true, hasPrefix_iff]; exact fun h => h2 (Or.inl h)
    have c3 : ¬ t = "Завтракаст Special - Про Warhammer 40k" := fun h => h2 (Or.inr h)
    have c4 : contains t "Фотодушнила" = false := by
      rw [← Bool.not_eq_true, contains_iff]; exact h3
    simp [selectType, c1, c2, c3, c4]
  refine ⟨?_, ?_, ?_, rule4, ?_, by rfl, by rfl, ?_⟩
  · intro t h
    have c1 : contains t "СДЗ" = true := (contains_iff _ _).2 h
    simp [selectType, c1]
  · intro t h1 h2
    have c1 : contains t "СДЗ" = false := by
      rw [← Bool.not_eq_true, contains_iff]; exact h1
    have c2 : (hasPrefix t "Кабинет Лора " ||
        decide (t = "Завтракаст Special - Про Warhammer 40k")) = true := by
      rcases h2 with h | h
      · simp [(hasPrefix_iff _ _).2 h]
      · simp [h]
    simp only [selectType, c1, c2]
    simp
  · intro t h1 h2 h3
    have c1 : contains t "СДЗ" = false := by
      rw [← Bool.not_eq_true, contains_iff]; exact h1
    have c2 : hasPrefix t "Кабинет Лора " = false := by
      rw [← Bool.not_eq_true, hasPrefix_iff]; exact fun h => h2 (Or.inl h)
    have c3 : ¬ t = "Завтракаст Special - Про Warhammer 40k" := fun h => h2 (Or.inr h)
    have c4 : contains t "Фотодушнила" = true := (contains_iff _ _).2 h3
    simp [selectType, c1, c2, c3, c4]
  · intro t h _
    have c1 : contains t "СДЗ" = true := (contains_iff _ _).2 h
    simp [selectType, c1]
  · intro ext hext h1 h3
    apply rule4 _ h1 _ h3
    rintro (h | h)
    · obtain ⟨r, hr⟩ := h
      have hd : ("Завтракаст Special - Про Warhammer 40k" ++ ext).data
          = "Завтракаст Special - Про Warhammer 40k".data ++ ext.data := rfl
      rw [hd] at hr
      have e1 : ("Кабинет Лора ".data ++ r).head? = some 'К' := rfl
      have e2 : ("Завтракаст Special - Про Warhammer 40k".data ++ ext.data).head? = some 'З' :=
        rfl
      have e3 : some 'К' = some 'З' := by rw [← e1, ← e2, hr]
      exact absurd e3 (by decide)
    · have hl := congrArg String.length h
      rw [String.length_append] at hl
      have hpos : 0 < ext.length := by
        rcases ext with ⟨l⟩
        cases l with
        | nil => exact absurd rfl hext
        | cons a l => simp [String.length]
      omega

/-- C4 (as stated). The results of `selectType` do not form a set of five labels: no five
pairwise distinct strings are all results of `selectType`. -/
theorem selectType_not_five_labels :
    ¬ ∃ l : List String, l.length = 5 ∧ l.Nodup ∧ ∀ c ∈ l, ∃ t, selectType t = c := by
  rintro ⟨l, hlen, hnd, hall⟩
  have hsub : l ⊆ ["sdz", "kabinet_lora", "photo", "zavtracast"] := by
    intro c hc
    obtain ⟨t, ht⟩ := hall c hc
    rw [← ht]
    exact selectType_mem t
  have hle := (hnd.subperm hsub).length_le
  rw [hlen] at hle
  exact absurd hle (by decide)

/-- C4 (amended). `selectType` is a function of the title whose results form the closed set
of four labels, three named categories and the fallback "zavtracast": a string is a result
exactly when it is one of the four, and the four are pairwise distinct. -/
theorem selectType_four_labels :
    (∀ c : String, (∃ t, selectType t = c) ↔ c ∈ ["sdz", "kabinet_lora", "photo", "zavtracast"]) ∧
    ["sdz", "kabinet_lora", "photo", "zavtracast"].Nodup ∧
    ["sdz", "kabinet_lora", "photo", "zavtracast"].length = 4 := by
  refine ⟨?_, by decide, rfl⟩
  intro c
  constructor
  · rintro ⟨t, rfl⟩
    exact selectType_mem t
  · intro hc
    simp only [List.mem_cons, List.mem_singleton, List.not_mem_nil, or_false] at hc
    rcases hc with rfl | rfl | rfl | rfl
    · exact ⟨"СДЗ", by rfl⟩
    · exact ⟨"Кабинет Лора 1", by rfl⟩
    · exact ⟨"Фотодушнила", by rfl⟩
    · exact ⟨"", by rfl⟩

/-! ## Filtering -/

theorem filterFeedGF_loop_eq (want : String) :
    ∀ (items : List (Option Item)) (st : FilterState), (∀ it ∈ items, it ≠ none) →
      filterFeedGF_loop want items st
        = some { st with cp := { st.cp with Items := st.cp.Items ++ items.filter (keeps want) } }
  | [], st, _ => by simp [filterFeedGF_loop]
  | none :: rest, st, h => absurd rfl (h none (List.mem_cons_self _ _))
  | some it :: rest, st, h => by
    have hrest : ∀ x ∈ rest, x ≠ none := fun x hx => h x (List.mem_cons_of_mem _ hx)
    by_cases hk : selectType it.Title = want
    · simp [filterFeedGF_loop, hk, filterFeedGF_loop_eq want rest _ hrest, keeps,
        List.filter_cons]
    · simp [filterFeedGF_loop, hk, filterFeedGF_loop_eq want rest _ hrest, keeps,
        List.filter_cons]

theorem filterFeedGF_loop_items (want : String) :
    ∀ (items : List (Option Item)) (st st2 : FilterState),
      filterFeedGF_loop want items st = some st2 →
      ∃ extra, st2.cp.Items = st.cp.Items ++ extra ∧ ∀ x ∈ extra, keeps want x = true
  | [], st, st2, h => by
    simp only [filterFeedGF_loop, Option.some.injEq] at h
    subst h
    exact ⟨[], by simp, by simp⟩
  | none :: rest, st, st2, h => by simp [filterFeedGF_loop] at h
  | some it :: rest, st, st2, h => by
    by_cases hk : selectType it.Title = want
    · simp only [filterFeedGF_loop, hk, if_true] at h
      obtain ⟨extra, he, hx⟩ := filterFeedGF_loop_items want rest _ st2 h
      refine ⟨some it :: extra, by simpa using he, ?_⟩
      intro x hx2
      rcases List.mem_cons.1 hx2 with rfl | hx3
      · simp [keeps, hk]
      · exact hx x hx3
    · simp only [filterFeedGF_loop, hk, if_false] at h
      exact filterFeedGF_loop_items want rest _ st2 h

/-- C2. For a feed `F` without nil item pointers and any category `C`, `filterFeedGF` returns
a feed equal to `F` in every channel-level field whose items are exactly the items of `F`
whose title classifies to `C`, in their original order, and the feed behind `in` is `F`
after the call as before. -/
theorem filterFeedGF_spec (F : Feed) (C : String) (hF : ∀ it ∈ F.Items, it ≠ none) :
    ∃ st : FilterState,
      filterFeedGF_run F C = some st ∧
      st.input = F ∧
      filterFeedGF F C = some st.cp ∧
      st.cp = { F with Items := F.Items.filter (keeps C) } ∧
      (∀ it : Item, some it ∈ st.cp.Items ↔ some it ∈ F.Items ∧ selectType it.Title = C) ∧
      st.cp.Items.Sublist F.Items := by
  have hrun := filterFeedGF_loop_eq C F.Items { input := F, cp := { F with Items := [] } } hF
  refine ⟨_, hrun, rfl, ?_, ?_, ?_, ?_⟩
  · simp [filterFeedGF, filterFeedGF_run, hrun]
  · simp
  · intro it
    simp [List.mem_filter, keeps]
  · simp

/-- C2, the scenario: the feed with the single item "СДЗ: Episode 1" filtered for "sdz"
keeps exactly that item, and filtered for "zavtracast" keeps none. -/
theorem filterFeedGF_spec_witness :
    (∀ it ∈ sdzFeed.Items, it ≠ none) ∧
    filterFeedGF sdzFeed "sdz" = some sdzFeed ∧
    filterFeedGF sdzFeed "zavtracast" = some { sdzFeed with Items := [] } := by
  have hF : ∀ it ∈ sdzFeed.Items, it ≠ none := by
    intro it hit
    simp only [sdzFeed, List.mem_singleton] at hit
    subst hit
    exact Option.some_ne_none _
  refine ⟨hF, ?_, ?_⟩
  · obtain ⟨st, _, _, h3, h4, _⟩ := filterFeedGF_spec sdzFeed "sdz" hF
    rw [h3, h4]
    rfl
  · obtain ⟨st, _, _, h3, h4, _⟩ := filterFeedGF_spec sdzFeed "zavtracast" hF
    rw [h3, h4]
    rfl

/-! ## Request type selection -/

/-- C3 (as stated). The request `/feed?type=foo` does not select "zavtracast": the
unrecognized value is kept. -/
theorem HandleFeed_typ_foo :
    HandleFeed_typ "/feed" [("type", ["foo"])] = "foo" ∧
    HandleFeed_typ "/feed" [("type", ["foo"])] ≠ "zavtracast" := by
  constructor
  · rfl
  · decide

/-- C3 (amended). On the path `/feed` the selected category is the value of the `type`
parameter whenever that value is non-empty, hence the given value when it is one of the four
category names, and "zavtracast" when the parameter is missing or empty.  An unrecognized
non-empty value is kept as the category; no title classifies to it, so the filtered feed has
no items. -/
theorem HandleFeed_typ_feed :
    (∀ q : Values, q.Get "type" ≠ "" → HandleFeed_typ "/feed" q = q.Get "type") ∧
    (∀ q : Values, q.Get "type" ∈ ["sdz", "kabinet_lora", "photo", "zavtracast"] →
      HandleFeed_typ "/feed" q = q.Get "type") ∧
    (∀ q : Values, q.Get "type" = "" → HandleFeed_typ "/feed" q = "zavtracast") ∧
    (∀ q : Values, q.lookup "type" = none → HandleFeed_typ "/feed" q = "zavtracast") ∧
    (∀ (q : Values) (F out : Feed),
      q.Get "type" ≠ "" → q.Get "type" ∉ ["sdz", "kabinet_lora", "photo", "zavtracast"] →
      filterFeedGF F (HandleFeed_typ "/feed" q) = some out → out.Items = []) := by
  have hpath : ¬ (("/feed" : String) = "/sdz" ∨ ("/feed" : String) = "/kabinet_lora" ∨
      ("/feed" : String) = "/photo" ∨ ("/feed" : String) = "/zavtracast") := by decide
  have h1 : ∀ q : Values, q.Get "type" ≠ "" → HandleFeed_typ "/feed" q = q.Get "type" := by
    intro q hq
    simp only [HandleFeed_typ, hpath, if_false, hq]
  have h3 : ∀ q : Values, q.Get "type" = "" → HandleFeed_typ "/feed" q = "zavtracast" := by
    intro q hq
    simp only [HandleFeed_typ, hpath, if_false, hq, if_true]
  refine ⟨h1, ?_, h3, ?_, ?_⟩
  · intro q hq
    apply h1
    intro h0
    rw [h0] at hq
    revert hq
    decide
  · intro q hq
    apply h3
    simp [Values.Get, hq]
  · intro q F out hne hnot hout
    rw [h1 q hne] at hout
    unfold filterFeedGF at hout
    cases hrun : filterFeedGF_run F (q.Get "type") with
    | none => simp [hrun] at hout
    | some st =>
      simp only [hrun, Option.map_some', Option.some.injEq] at hout
      subst hout
      obtain ⟨extra, he, hx⟩ := filterFeedGF_loop_items _ _ _ _ hrun
      cases extra with
      | nil => simpa using he
      | cons x xs =>
        exfalso
        have hk := hx x (List.mem_cons_self _ _)
        cases x with
        | none => simp [keeps] at hk
        | some it =>
          simp only [keeps, decide_eq_true_eq] at hk
          exact hnot (hk ▸ selectType_mem it.Title)

/-! ## Map lemmas -/

theorem lookup_mapSet_self {V : Type} (k : String) (v : V) :
    ∀ m : List (String × V), (mapSet m k v).lookup k = some v
  | [] => by simp [mapSet, List.lookup]
  | (k0, v0) :: rest => by
    by_cases h : k0 = k
    · simp [mapSet, h, List.lookup]
    · have h2 : (k == k0) = false := by simpa using fun e : k = k0 => h e.symm
      simp [mapSet, h, List.lookup, h2, lookup_mapSet_self k v rest]

theorem lookup_mapSet_ne {V : Type} (k : String) (v : V) (k2 : String) (hne : k2 ≠ k) :
    ∀ m : List (String × V), (mapSet m k v).lookup k2 = m.lookup k2
  | [] => by
    have h2 : (k2 == k) = false := by simpa using hne
    simp [mapSet, List.lookup, h2]
  | (k0, v0) :: rest => by
    by_cases h : k0 = k
    · subst h
      have h2 : (k2 == k0) = false := by simpa using hne
      simp [mapSet, List.lookup, h2]
    · by_cases h3 : k2 = k0
      · subst h3
        simp [mapSet, h, List.lookup]
      · have h4 : (k2 == k0) = false := by simpa using h3
        simp [mapSet, h, List.lookup, h4, lookup_mapSet_ne k v k2 hne rest]

theorem keys_mapSet {V : Type} (k : String) (v : V) :
    ∀ m : List (String × V), ∀ x, x ∈ (mapSet m k v).map Prod.fst ↔ x = k ∨ x ∈ m.map Prod.fst
  | [], x => by simp [mapSet]
  | (k0, v0) :: rest, x => by
    by_cases h : k0 = k
    · subst h
      simp [mapSet]
    · have ih := keys_mapSet k v rest x
      simp only [List.map_cons, List.mem_cons, mapSet, h, if_false] at ih ⊢
      rw [ih]
      tauto

theorem nodupKeys_mapSet {V : Type} (k : String) (v : V) :
    ∀ m : List (String × V), NodupKeys m → NodupKeys (mapSet m k v)
  | [], _ => by simp [mapSet, NodupKeys]
  | (k0, v0) :: rest, h => by
    unfold NodupKeys at h ⊢
    rw [List.map_cons, List.nodup_cons] at h
    by_cases hk : k0 = k
    · subst hk
      simpa [mapSet] using h
    · simp only [mapSet, hk, if_false, List.map_cons, List.nodup_cons]
      refine ⟨?_, nodupKeys_mapSet k v rest h.2⟩
      intro hmem
      rcases (keys_mapSet k v rest k0).1 hmem with h1 | h1
      · exact hk h1
      · exact h.1 h1

/-! ## Metadata override -/

theorem nonBlank_eq_true_iff (s : String) : nonBlank s = true ↔ TrimSpace s ≠ "" := by
  simp [nonBlank]

theorem nonBlank_eq_false_iff_trim (s : String) : nonBlank s = false ↔ TrimSpace s = "" := by
  simp [nonBlank]

/-- Closed form of `applyTypeMetaGF` when the category has an entry in `cfg.TypeMetas`. -/
theorem applyTypeMetaGF_eq (f : Feed) (typ : String) (cfg : Config) (m : TypeMeta)
    (hm : cfg.TypeMetas.lookup typ = some m) :
    applyTypeMetaGF f typ cfg =
      { f with
        Title := if nonBlank m.Title then m.Title else f.Title
        Description := if nonBlank m.Description then m.Description else f.Description
        Image :=
          if nonBlank m.ImageURL then
            some { URL := m.ImageURL,
                   Title := match f.Image with
                     | some i => i.Title
                     | none => "" }
          else f.Image
        Extensions :=
          if nonBlank m.ImageURL then
            mapSet
              (if ((f.Extensions.lookup "itunes").getD []).isEmpty
                then mapSet f.Extensions "itunes" [] else f.Extensions)
              "itunes"
              (mapSet
                (((if ((f.Extensions.lookup "itunes").getD []).isEmpty
                    then mapSet f.Extensions "itunes" [] else f.Extensions).lookup
                      "itunes").getD [])
                "image" [Extension.mk "image" "" [("href", m.ImageURL)] []])
          else f.Extensions } := by
  simp only [applyTypeMetaGF, hm]
  rcases f with ⟨t, d, l, fl, u, up, pb, pp, au, la, im, co, ge, ca, ex, it, ft, fv⟩
  cases nonBlank m.Title <;> cases nonBlank m.Description <;> cases nonBlank m.ImageURL <;>
    cases im <;> rfl

/-- C5. After `applyTypeMetaGF` the channel title is the configured override when that is
non-blank after trimming and the original title otherwise; independently the same holds for
the description; the item list is unchanged; and without an entry for the category the whole
feed is unchanged. -/
theorem applyTypeMetaGF_title_description (f : Feed) (typ : String) (cfg : Config) :
    (∀ m : TypeMeta, cfg.TypeMetas.lookup typ = some m →
      (TrimSpace m.Title ≠ "" → (applyTypeMetaGF f typ cfg).Title = m.Title) ∧
      (TrimSpace m.Title = "" → (applyTypeMetaGF f typ cfg).Title = f.Title) ∧
      (TrimSpace m.Description ≠ "" → (applyTypeMetaGF f typ cfg).Description = m.Description) ∧
      (TrimSpace m.Description = "" → (applyTypeMetaGF f typ cfg).Description = f.Description) ∧
      (applyTypeMetaGF f typ cfg).Items = f.Items) ∧
    (cfg.TypeMetas.lookup typ = none → applyTypeMetaGF f typ cfg = f) := by
  constructor
  · intro m hm
    rw [applyTypeMetaGF_eq f typ cfg m hm]
    refine ⟨?_, ?_, ?_, ?_, rfl⟩
    · intro h
      simp [(nonBlank_eq_true_iff _).2 h]
    · intro h
      simp [(nonBlank_eq_false_iff_trim _).2 h]
    · intro h
      simp [(nonBlank_eq_true_iff _).2 h]
    · intro h
      simp [(nonBlank_eq_false_iff_trim _).2 h]
  · intro hm
    simp [applyTypeMetaGF, hm]

/-- C6. When the configured image URL `U` of the category is non-blank, after
`applyTypeMetaGF` the channel image exists with URL `U` (keeping the title of an existing
image), the extension tree holds under "itunes" / "image" exactly one element, named "image",
with the single attribute `href = U`, no value and no children, every other (prefix, name)
entry and every namespace other than "itunes" is as before, and the items with their
extensions are unchanged.  When the configured URL is blank, or the category has no entry,
the image and the extension tree are unchanged. -/
theorem applyTypeMetaGF_image (f : Feed) (typ : String) (cfg : Config) :
    (∀ m : TypeMeta, cfg.TypeMetas.lookup typ = some m → TrimSpace m.ImageURL ≠ "" →
      (applyTypeMetaGF f typ cfg).Image
        = some { URL := m.ImageURL,
                 Title := match f.Image with
                   | some i => i.Title
                   | none => "" } ∧
      extGet (applyTypeMetaGF f typ cfg).Extensions "itunes" "image"
        = some [Extension.mk "image" "" [("href", m.ImageURL)] []] ∧
      (∀ p n : String, ¬ (p = "itunes" ∧ n = "image") →
        extGet (applyTypeMetaGF f typ cfg).Extensions p n = extGet f.Extensions p n) ∧
      (∀ p : String, p ≠ "itunes" →
        (applyTypeMetaGF f typ cfg).Extensions.lookup p = f.Extensions.lookup p) ∧
      (applyTypeMetaGF f typ cfg).Items = f.Items) ∧
    (∀ m : TypeMeta, cfg.TypeMetas.lookup typ = some m → TrimSpace m.ImageURL = "" →
      (applyTypeMetaGF f typ cfg).Image = f.Image ∧
      (applyTypeMetaGF f typ cfg).Extensions = f.Extensions ∧
      (applyTypeMetaGF f typ cfg).Items = f.Items) ∧
    (cfg.TypeMetas.lookup typ = none →
      (applyTypeMetaGF f typ cfg).Image = f.Image ∧
      (applyTypeMetaGF f typ cfg).Extensions = f.Extensions) := by
  refine ⟨?_, ?_, ?_⟩
  · intro m hm hi0
    have hi : nonBlank m.ImageURL = true := (nonBlank_eq_true_iff _).2 hi0
    rw [applyTypeMetaGF_eq f typ cfg m hm]
    simp only [hi, if_true]
    have hother : ∀ p : String, p ≠ "itunes" →
        (mapSet
            (if ((f.Extensions.lookup "itunes").getD []).isEmpty
              then mapSet f.Extensions "itunes" [] else f.Extensions)
            "itunes"
            (mapSet
              (((if ((f.Extensions.lookup "itunes").getD []).isEmpty
                  then mapSet f.Extensions "itunes" [] else f.Extensions).lookup "itunes").getD [])
              "image" [Extension.mk "image" "" [("href", m.ImageURL)] []])).lookup p
          = f.Extensions.lookup p := by
      intro p hp
      rw [lookup_mapSet_ne _ _ _ hp]
      split
      · exact lookup_mapSet_ne _ _ _ hp _
      · rfl
    refine ⟨trivial, ?_, ?_, hother, ?_⟩
    · simp only [extGet, lookup_mapSet_self, Option.some_bind]
    · intro p n hpn
      by_cases hp : p = "itunes"
      · subst hp
        have hn : n ≠ "image" := fun h => hpn ⟨rfl, h⟩
        simp only [extGet, lookup_mapSet_self, Option.some_bind]
        rw [lookup_mapSet_ne _ _ _ hn]
        by_cases he : ((f.Extensions.lookup "itunes").getD []).isEmpty = true
        · simp only [he, if_true, lookup_mapSet_self, Option.getD_some]
          cases hl : f.Extensions.lookup "itunes" with
          | none => simp [List.lookup]
          | some ns =>
            rw [hl] at he
            have hns : ns = [] := by simpa using he
            subst hns
            simp [List.lookup]
        · simp only [he]
          cases hl : f.Extensions.lookup "itunes" with
          | none => simp [hl] at he
          | some ns => simp [hl]
      · unfold extGet
        rw [hother p hp]
    · trivial
  · intro m hm hi0
    have hi : nonBlank m.ImageURL = false := (nonBlank_eq_false_iff_trim _).2 hi0
    rw [applyTypeMetaGF_eq f typ cfg m hm]
    simp [hi]
  · intro hm
    simp [applyTypeMetaGF, hm]



/-! ## Ordering of strings and `sort.Strings` -/

theorem char_eq_of_toNat_eq {a b : Char} (h : a.toNat = b.toNat) : a = b := by
  apply Char.ext
  apply UInt32.ext
  exact h

theorem strLt_irrefl : ∀ l : List Char, strLt l l = false
  | [] => rfl
  | a :: as => by simp [strLt, strLt_irrefl as]

theorem strLt_asymm : ∀ a b : List Char, strLt a b = true → strLt b a = false
  | [], [], h => by simp [strLt] at h
  | [], _ :: _, _ => by simp [strLt]
  | _ :: _, [], h => by simp [strLt] at h
  | a :: as, b :: bs, h => by
    simp only [strLt, Bool.or_eq_true, decide_eq_true_eq, Bool.and_eq_true] at h
    rcases h with h | ⟨h1, h2⟩
    · have h3 : ¬ b.toNat < a.toNat := by omega
      have h4 : ¬ b.toNat = a.toNat := by omega
      simp [strLt, h3, h4]
    · have h3 : ¬ b.toNat < a.toNat := by omega
      simp [strLt, h3, h1, strLt_asymm as bs h2]

theorem strLt_trans : ∀ a b c : List Char, strLt a b = true → strLt b c = true → strLt a c = true
  | [], [], _, h, _ => by simp [strLt] at h
  | [], _ :: _, [], _, h => by simp [strLt] at h
  | [], _ :: _, _ :: _, _, _ => by simp [strLt]
  | _ :: _, [], _, h, _ => by simp [strLt] at h
  | _ :: _, _ :: _, [], _, h => by simp [strLt] at h
  | a :: as, b :: bs, c :: cs, h1, h2 => by
    simp only [strLt, Bool.or_eq_true, decide_eq_true_eq, Bool.and_eq_true] at h1 h2 ⊢
    rcases h1 with h1 | ⟨e1, t1⟩ <;> rcases h2 with h2 | ⟨e2, t2⟩
    · left; omega
    · left; omega
    · left; omega
    · right; exact ⟨by omega, strLt_trans as bs cs t1 t2⟩

theorem strLt_connex : ∀ a b : List Char, strLt a b = false → strLt b a = false → a = b
  | [], [], _, _ => rfl
  | [], _ :: _, h, _ => by simp [strLt] at h
  | _ :: _, [], _, h => by simp [strLt] at h
  | a :: as, b :: bs, h1, h2 => by
    simp only [strLt, Bool.or_eq_false_iff, decide_eq_false_iff_not, Bool.and_eq_false_imp,
      decide_eq_true_eq] at h1 h2
    have e : a.toNat = b.toNat := by omega
    have := strLt_connex as bs (h1.2 e) (h2.2 e.symm)
    rw [char_eq_of_toNat_eq e, this]

theorem strLe_total : IsTotal String (fun a b => strLe a b = true) := by
  constructor
  intro a b
  unfold strLe
  cases h : strLt b.data a.data
  · left; rfl
  · right; simp [strLt_asymm _ _ h]

theorem strLe_trans : IsTrans String (fun a b => strLe a b = true) := by
  constructor
  intro a b c
  unfold strLe
  simp only [Bool.not_eq_true']
  intro h1 h2
  cases h3 : strLt c.data a.data with
  | false => rfl
  | true =>
    cases h4 : strLt a.data b.data with
    | false =>
      have := strLt_connex _ _ h4 h1
      rw [this] at h3
      rw [h3] at h2
      exact h2
    | true =>
      have := strLt_trans _ _ _ h3 h4
      rw [this] at h2
      exact h2

theorem strLe_antisymm : IsAntisymm String (fun a b => strLe a b = true) := by
  constructor
  intro a b
  unfold strLe
  simp only [Bool.not_eq_true']
  intro h1 h2
  exact String.ext (strLt_connex _ _ h2 h1)

theorem sortStrings_perm (l : List String) : (sortStrings l).Perm l :=
  List.perm_insertionSort _ l

theorem mem_sortStrings {l : List String} {x : String} : x ∈ sortStrings l ↔ x ∈ l :=
  (sortStrings_perm l).mem_iff

theorem sortStrings_sorted (l : List String) :
    (sortStrings l).Pairwise (fun a b => strLe a b = true) :=
  @List.sorted_insertionSort _ _ _ strLe_total strLe_trans l

/-- Sorting a duplicate-free list yields a strictly ascending list. -/
theorem sortStrings_strict (l : List String) (h : l.Nodup) :
    (sortStrings l).Pairwise (fun a b => strLt a.data b.data = true) := by
  have hnd : (sortStrings l).Nodup := (sortStrings_perm l).nodup_iff.2 h
  have := (sortStrings_sorted l).and hnd
  refine this.imp ?_
  intro a b hab
  rcases hab with ⟨h1, h2⟩
  unfold strLe at h1
  cases h3 : strLt a.data b.data with
  | true => rfl
  | false =>
    exfalso
    apply h2
    apply String.ext
    exact strLt_connex _ _ h3 (by simpa using h1)

/-- The result of `sort.Strings` depends only on which strings are in the slice, not on their
order. -/
theorem sortStrings_eq_of_perm {l1 l2 : List String} (h : l1.Perm l2) :
    sortStrings l1 = sortStrings l2 :=
  @List.eq_of_perm_of_sorted _ _ strLe_antisymm _ _
    ((sortStrings_perm l1).trans (h.trans (sortStrings_perm l2).symm))
    (sortStrings_sorted l1) (sortStrings_sorted l2)



/-! ## Extension writer -/

theorem infix_flatMap_of_mem_gen {α β : Type} (f : α → List β) :
    ∀ (l : List α) (a : α), a ∈ l → f a <:+: l.flatMap f
  | x :: xs, a, h => by
    rw [List.flatMap_cons]
    rcases List.mem_cons.1 h with rfl | h2
    · exact List.infix_append' [] (f a) (xs.flatMap f)
    · exact (infix_flatMap_of_mem_gen f xs a h2).trans (List.suffix_append _ _).isInfix

theorem writeExtension_list_eq (pfx : String) :
    ∀ es : List Extension, writeExtension_list pfx es = es.flatMap (writeExtension pfx)
  | [] => by simp [writeExtension_list]
  | e :: es => by simp [writeExtension_list, writeExtension_list_eq pfx es]

theorem writeExtension_named_eq (pfx cn : String) :
    ∀ m : List (String × List Extension),
      writeExtension_named pfx cn m = ((m.lookup cn).getD []).flatMap (writeExtension pfx)
  | [] => by simp [writeExtension_named, List.lookup]
  | (k, ces) :: rest => by
    by_cases h : k = cn
    · subst h
      simp [writeExtension_named, List.lookup, writeExtension_list_eq]
    · have h2 : (cn == k) = false := by simpa using fun e : cn = k => h e.symm
      simp [writeExtension_named, List.lookup, h, h2, writeExtension_named_eq pfx cn rest]

/-- One-step unfolding of `writeExtension` with the inner loops as list operations. -/
theorem writeExtension_eq (pfx name value : String) (attrs : List (String × String))
    (children : List (String × List Extension)) :
    writeExtension pfx (Extension.mk name value attrs children) =
      [Token.StartElement (pfx ++ ":" ++ name) attrs]
        ++ (if nonBlank value then [Token.CharData value] else [])
        ++ ((sortStrings (children.map Prod.fst)).flatMap fun cn =>
              ((children.lookup cn).getD []).flatMap (writeExtension pfx))
        ++ [Token.EndElement (pfx ++ ":" ++ name)] := by
  rw [writeExtension]
  cases children with
  | nil => simp [sortStrings]
  | cons c cs =>
    simp only [List.length_cons, gt_iff_lt, Nat.zero_lt_succ, if_true, writeExtension_named_eq]

/-- One-step unfolding of `writeExtensions` without the emptiness shortcuts. -/
theorem writeExtensions_eq (exts : Extensions) :
    writeExtensions exts =
      (sortStrings (exts.map Prod.fst)).flatMap fun p =>
        (sortStrings (((exts.lookup p).getD []).map Prod.fst)).flatMap fun n =>
          ((((exts.lookup p).getD []).lookup n).getD []).flatMap fun e => writeExtension p e := by
  unfold writeExtensions
  cases exts with
  | nil => simp [sortStrings]
  | cons c cs =>
    simp only [List.length_cons, Nat.succ_ne_zero, if_false]
    apply List.flatMap_congr
    intro p _
    cases hl : List.lookup p (c :: cs) with
    | none => simp [sortStrings]
    | some ns =>
      cases ns with
      | nil => simp [sortStrings]
      | cons a as => simp

theorem lookup_some_mem_keys {V : Type} {k : String} {v : V} :
    ∀ {m : List (String × V)}, m.lookup k = some v → k ∈ m.map Prod.fst
  | [], h => by simp [List.lookup] at h
  | (k0, v0) :: rest, h => by
    by_cases hk : k = k0
    · simp [hk]
    · have h2 : (k == k0) = false := by simpa using hk
      simp only [List.lookup, h2] at h
      simp [lookup_some_mem_keys h]

/-- Every element stored in an extension tree is written by `writeExtensions`, whatever its
namespace prefix. -/
theorem writeExtension_infix_writeExtensions (exts : Extensions) (p n : String)
    (ns : List (String × List Extension)) (es : List Extension) (e : Extension)
    (hp : exts.lookup p = some ns) (hn : ns.lookup n = some es) (he : e ∈ es) :
    writeExtension p e <:+: writeExtensions exts := by
  rw [writeExtensions_eq]
  have h1 : p ∈ sortStrings (exts.map Prod.fst) := mem_sortStrings.2 (lookup_some_mem_keys hp)
  refine List.IsInfix.trans ?_ (infix_flatMap_of_mem_gen _ _ p h1)
  simp only [hp, Option.getD_some]
  have h2 : n ∈ sortStrings (ns.map Prod.fst) := mem_sortStrings.2 (lookup_some_mem_keys hn)
  refine List.IsInfix.trans ?_ (infix_flatMap_of_mem_gen _ _ n h2)
  simp only [hn, Option.getD_some]
  exact infix_flatMap_of_mem_gen _ _ e he



/-! ## Namespace declarations on `<rss>` -/

theorem keys_collectPrefixes_add :
    ∀ (m : Extensions) (seen : List (String × Bool)) (x : String),
      x ∈ (collectPrefixes_add seen m).map Prod.fst ↔
        x ∈ seen.map Prod.fst ∨ x ∈ m.map Prod.fst
  | [], seen, x => by simp [collectPrefixes_add]
  | kv :: rest, seen, x => by
    have ih := keys_collectPrefixes_add rest (mapSet seen kv.1 true) x
    unfold collectPrefixes_add at ih ⊢
    rw [List.foldl_cons, ih, keys_mapSet]
    simp only [List.map_cons, List.mem_cons]
    tauto

theorem nodupKeys_collectPrefixes_add :
    ∀ (m : Extensions) (seen : List (String × Bool)), NodupKeys seen →
      NodupKeys (collectPrefixes_add seen m)
  | [], seen, h => by simpa [collectPrefixes_add] using h
  | kv :: rest, seen, h => by
    have ih := nodupKeys_collectPrefixes_add rest (mapSet seen kv.1 true)
      (nodupKeys_mapSet _ _ _ h)
    unfold collectPrefixes_add at ih ⊢
    rw [List.foldl_cons]
    exact ih

theorem collectPrefixes_items_fold :
    ∀ (items : List (Option Item)) (seen : List (String × Bool)), NodupKeys seen →
      NodupKeys (items.foldl
        (fun s it => match it with
          | none => s
          | some it => collectPrefixes_add s it.Extensions) seen) ∧
      ∀ x, x ∈ (items.foldl
        (fun s it => match it with
          | none => s
          | some it => collectPrefixes_add s it.Extensions) seen).map Prod.fst ↔
          x ∈ seen.map Prod.fst ∨ ∃ it, some it ∈ items ∧ x ∈ it.Extensions.map Prod.fst
  | [], seen, h => by simpa using h
  | none :: rest, seen, h => by
    have ih := collectPrefixes_items_fold rest seen h
    rw [List.foldl_cons]
    refine ⟨ih.1, fun x => ?_⟩
    rw [ih.2 x]
    simp
  | some it :: rest, seen, h => by
    have ih := collectPrefixes_items_fold rest (collectPrefixes_add seen it.Extensions)
      (nodupKeys_collectPrefixes_add _ _ h)
    rw [List.foldl_cons]
    refine ⟨ih.1, fun x => ?_⟩
    rw [ih.2 x, keys_collectPrefixes_add]
    simp only [List.mem_cons, Option.some.injEq]
    constructor
    · rintro ((h1 | h1) | ⟨j, hj, hx⟩)
      · exact Or.inl h1
      · exact Or.inr ⟨it, Or.inl rfl, h1⟩
      · exact Or.inr ⟨j, Or.inr hj, hx⟩
    · rintro (h1 | ⟨j, hj | hj, hx⟩)
      · exact Or.inl (Or.inl h1)
      · subst hj
        exact Or.inl (Or.inr hx)
      · exact Or.inr ⟨j, hj, hx⟩

theorem rssNS_isSome_iff (p : String) :
    (rssNS.lookup p).isSome = true ↔ p ∈ ["itunes", "atom", "content", "googleplay", "media"] := by
  by_cases h1 : p = "itunes"
  · subst h1; decide
  by_cases h2 : p = "atom"
  · subst h2; decide
  by_cases h3 : p = "content"
  · subst h3; decide
  by_cases h4 : p = "googleplay"
  · subst h4; decide
  by_cases h5 : p = "media"
  · subst h5; decide
  have e1 : (p == "itunes") = false := by simpa using h1
  have e2 : (p == "atom") = false := by simpa using h2
  have e3 : (p == "content") = false := by simpa using h3
  have e4 : (p == "googleplay") = false := by simpa using h4
  have e5 : (p == "media") = false := by simpa using h5
  simp [rssNS, List.lookup, e1, e2, e3, e4, e5, h1, h2, h3, h4, h5]

/-- Prefixes collected by `collectPrefixes`: strictly ascending, and exactly the known
prefixes that are a key of the channel tree or of the tree of some non-nil item. -/
theorem collectPrefixes_spec (f : Feed) :
    (collectPrefixes f).Pairwise (fun a b => strLt a.data b.data = true) ∧
    ∀ p, p ∈ collectPrefixes f ↔
      p ∈ ["itunes", "atom", "content", "googleplay", "media"] ∧
      (p ∈ f.Extensions.map Prod.fst ∨
        ∃ it, some it ∈ f.Items ∧ p ∈ it.Extensions.map Prod.fst) := by
  have h0 : NodupKeys (collectPrefixes_add [] f.Extensions) :=
    nodupKeys_collectPrefixes_add _ _ (by simp [NodupKeys])
  obtain ⟨hnd, hmem⟩ := collectPrefixes_items_fold f.Items _ h0
  constructor
  · unfold collectPrefixes
    apply sortStrings_strict
    exact List.Nodup.filter _ hnd
  · intro p
    unfold collectPrefixes
    rw [mem_sortStrings, List.mem_filter, hmem p, keys_collectPrefixes_add, rssNS_isSome_iff]
    simp only [List.map_nil, List.not_mem_nil, false_or]
    tauto



theorem lookup_some_mem {V : Type} {k : String} {v : V} :
    ∀ {m : List (String × V)}, m.lookup k = some v → (k, v) ∈ m
  | [], h => by simp [List.lookup] at h
  | (k0, v0) :: rest, h => by
    by_cases hk : k = k0
    · subst hk
      simp only [List.lookup, beq_self_eq_true, Option.some.injEq] at h
      subst h
      exact List.mem_cons_self _ _
    · have h2 : (k == k0) = false := by simpa using hk
      simp only [List.lookup, h2] at h
      exact List.mem_cons_of_mem _ (lookup_some_mem h)

theorem filterMap_rssNS_eq_map :
    ∀ l : List String, (∀ p ∈ l, (rssNS.lookup p).isSome = true) →
      (l.filterMap fun p => (rssNS.lookup p).map fun uri => ("xmlns:" ++ p, uri))
        = l.map fun p => ("xmlns:" ++ p, (rssNS.lookup p).getD "")
  | [], _ => rfl
  | p :: ps, h => by
    have hp := h p (List.mem_cons_self _ _)
    have ih := filterMap_rssNS_eq_map ps fun q hq => h q (List.mem_cons_of_mem _ hq)
    cases hl : rssNS.lookup p with
    | none => simp [hl] at hp
    | some uri => simp [List.filterMap_cons, hl, ih]

theorem xmlns_append_inj {p q : String} (h : "xmlns:" ++ p = "xmlns:" ++ q) : p = q := by
  have h2 := congrArg String.data h
  simp only [String.data_append] at h2
  exact String.ext (List.append_cancel_left h2)

theorem writeExtensions_infix_channel (lib : Lib) (f : Feed) :
    writeExtensions f.Extensions <:+: renderRSS2WithExtensions_channel lib f := by
  unfold renderRSS2WithExtensions_channel
  exact ⟨_, _, rfl⟩

theorem item_infix_channel (lib : Lib) (f : Feed) (it : Option Item) (h : it ∈ f.Items) :
    renderRSS2WithExtensions_item lib it <:+: renderRSS2WithExtensions_channel lib f := by
  unfold renderRSS2WithExtensions_channel
  exact (infix_flatMap_of_mem_gen _ _ it h).trans (List.suffix_append _ _).isInfix

theorem writeExtensions_infix_item (lib : Lib) (it : Item) :
    writeExtensions it.Extensions <:+: renderRSS2WithExtensions_item lib (some it) := by
  unfold renderRSS2WithExtensions_item
  exact ⟨_, _, rfl⟩

theorem channel_infix_tail (lib : Lib) (f : Feed) :
    renderRSS2WithExtensions_channel lib f <:+:
      Token.StartElement "channel" [] :: (renderRSS2WithExtensions_channel lib f
        ++ [Token.EndElement "channel", Token.EndElement "rss"]) :=
  ⟨[Token.StartElement "channel" []], [Token.EndElement "channel", Token.EndElement "rss"],
    by simp⟩

/-- C8. The attributes of the `<rss>` start element are `version="2.0"` followed by one
`xmlns:<prefix>` attribute per prefix of a strictly ascending (hence duplicate-free) list that
consists exactly of the known prefixes occurring as a key of the channel extension tree or of
some item's extension tree, each with the URI fixed by `rssNS`; a prefix outside the known set
gets no `xmlns` attribute; and every stored extension element, of a known prefix or not, at
channel or item level, is written. -/
theorem rss_xmlns_attributes (lib : Lib) (f : Feed) :
    ∃ (ps : List String) (rest : List Token),
      renderRSS2WithExtensions lib f =
        Token.StartElement "rss"
          (("version", "2.0") :: ps.map fun p => ("xmlns:" ++ p, (rssNS.lookup p).getD ""))
          :: rest ∧
      ps.Pairwise (fun a b => strLt a.data b.data = true) ∧
      (∀ p, p ∈ ps ↔
        p ∈ ["itunes", "atom", "content", "googleplay", "media"] ∧
        (p ∈ f.Extensions.map Prod.fst ∨
          ∃ it, some it ∈ f.Items ∧ p ∈ it.Extensions.map Prod.fst)) ∧
      (∀ p ∈ ps, (p, (rssNS.lookup p).getD "") ∈ rssNS) ∧
      (∀ p u, p ∉ ["itunes", "atom", "content", "googleplay", "media"] →
        ("xmlns:" ++ p, u) ∉
          ("version", "2.0") :: ps.map fun p => ("xmlns:" ++ p, (rssNS.lookup p).getD "")) ∧
      (∀ p ns n es e, f.Extensions.lookup p = some ns → ns.lookup n = some es → e ∈ es →
        writeExtension p e <:+: writeExtensions f.Extensions ∧
        writeExtension p e <:+: rest) ∧
      (∀ it p ns n es e, some it ∈ f.Items →
        it.Extensions.lookup p = some ns → ns.lookup n = some es → e ∈ es →
        writeExtension p e <:+: writeExtensions it.Extensions ∧
        writeExtension p e <:+: rest) := by
  obtain ⟨hsorted, hmem⟩ := collectPrefixes_spec f
  have hknown : ∀ p ∈ collectPrefixes f, (rssNS.lookup p).isSome = true := fun p hp =>
    (rssNS_isSome_iff p).2 ((hmem p).1 hp).1
  refine ⟨collectPrefixes f, Token.StartElement "channel" [] ::
    (renderRSS2WithExtensions_channel lib f
      ++ [Token.EndElement "channel", Token.EndElement "rss"]), ?_, hsorted, hmem, ?_, ?_, ?_, ?_⟩
  · simp [renderRSS2WithExtensions, renderRSS2WithExtensions_rssStart,
      filterMap_rssNS_eq_map _ hknown]
  · intro p hp
    have := hknown p hp
    cases hl : rssNS.lookup p with
    | none => simp [hl] at this
    | some uri =>
      simp only [Option.getD_some]
      exact lookup_some_mem hl
  · intro p u hp hmem2
    rcases List.mem_cons.1 hmem2 with h | h
    · have h2 := congrArg (fun x => (Prod.fst x).data.head?) h
      simp at h2
    · obtain ⟨q, hq, he⟩ := List.mem_map.1 h
      have := xmlns_append_inj (congrArg Prod.fst he)
      subst this
      exact hp ((hmem q).1 hq).1
  · intro p ns n es e h1 h2 h3
    have h := writeExtension_infix_writeExtensions _ p n ns es e h1 h2 h3
    exact ⟨h, h.trans ((writeExtensions_infix_channel lib f).trans (channel_infix_tail lib f))⟩
  · intro it p ns n es e hit h1 h2 h3
    have h := writeExtension_infix_writeExtensions _ p n ns es e h1 h2 h3
    exact ⟨h, h.trans ((writeExtensions_infix_item lib it).trans
      ((item_infix_channel lib f _ hit).trans (channel_infix_tail lib f)))⟩



/-! ## Image override in the RSS output -/

/-- After the image branch of `applyTypeMetaGF` the tree maps "itunes" / "image" to the
single `href` element. -/
theorem applyTypeMetaGF_itunes_lookup (f : Feed) (typ : String) (cfg : Config) (m : TypeMeta)
    (hm : cfg.TypeMetas.lookup typ = some m) (hi : nonBlank m.ImageURL = true) :
    ∃ ns, (applyTypeMetaGF f typ cfg).Extensions.lookup "itunes" = some ns ∧
      ns.lookup "image" = some [Extension.mk "image" "" [("href", m.ImageURL)] []] := by
  rw [applyTypeMetaGF_eq f typ cfg m hm]
  simp only [hi, if_true]
  exact ⟨_, lookup_mapSet_self _ _ _, lookup_mapSet_self _ _ _⟩

theorem applyTypeMetaGF_image_some (f : Feed) (typ : String) (cfg : Config) (m : TypeMeta)
    (hm : cfg.TypeMetas.lookup typ = some m) (hi : nonBlank m.ImageURL = true) :
    ∃ t, (applyTypeMetaGF f typ cfg).Image = some { URL := m.ImageURL, Title := t } := by
  rw [applyTypeMetaGF_eq f typ cfg m hm]
  simp only [hi, if_true]
  exact ⟨_, rfl⟩

theorem infix_mid4 {α : Type} (A B C D : List α) : B <:+: A ++ B ++ C ++ D :=
  ⟨A, C ++ D, by simp⟩

theorem image_block_infix_channel (lib : Lib) (g : Feed) (img : Image)
    (hI : g.Image = some img) (hU : nonBlank img.URL = true) :
    ([Token.StartElement "image" [], Token.StartElement "url" [], Token.CharData img.URL,
        Token.EndElement "url"]
      ++ encodeEl "title" (coalesce [img.Title, g.Title])
      ++ [Token.StartElement "link" [], Token.CharData img.URL, Token.EndElement "link",
        Token.EndElement "image"])
      <:+: renderRSS2WithExtensions_channel lib g := by
  have hb : ([Token.StartElement "image" []] ++ encodeEl "url" img.URL
        ++ encodeEl "title" (coalesce [img.Title, g.Title])
        ++ encodeEl "link" (coalesce [img.URL, g.Link]) ++ [Token.EndElement "image"])
      = [Token.StartElement "image" [], Token.StartElement "url" [], Token.CharData img.URL,
          Token.EndElement "url"]
        ++ encodeEl "title" (coalesce [img.Title, g.Title])
        ++ [Token.StartElement "link" [], Token.CharData img.URL, Token.EndElement "link",
          Token.EndElement "image"] := by
    simp [encodeEl, coalesce, hU]
  unfold renderRSS2WithExtensions_channel
  simp only [hI, hU, if_true]
  rw [hb]
  exact infix_mid4 _ _ _ _

/-- C7. With a non-blank image override `U` configured for the category, the RSS output for
the feed after `applyTypeMetaGF` has, between `<channel>` and `</channel>`, a plain `<image>`
block whose `<url>` text is `U` and an element `itunes:image` whose only attribute is
`href = U`, and its `<rss>` start element declares `xmlns:itunes` with the iTunes URI. -/
theorem render_image_override (lib : Lib) (f : Feed) (typ : String) (cfg : Config)
    (m : TypeMeta) (hm : cfg.TypeMetas.lookup typ = some m)
    (hU : TrimSpace m.ImageURL ≠ "") :
    ∃ (attrs : List (String × String)) (body titlePart : List Token),
      renderRSS2WithExtensions lib (applyTypeMetaGF f typ cfg) =
        [Token.StartElement "rss" attrs, Token.StartElement "channel" []] ++ body
          ++ [Token.EndElement "channel", Token.EndElement "rss"] ∧
      ("xmlns:itunes", "http://www.itunes.com/dtds/podcast-1.0.dtd") ∈ attrs ∧
      (titlePart = [] ∨ ∃ t, titlePart =
        [Token.StartElement "title" [], Token.CharData t, Token.EndElement "title"]) ∧
      ([Token.StartElement "image" [], Token.StartElement "url" [], Token.CharData m.ImageURL,
          Token.EndElement "url"]
        ++ titlePart
        ++ [Token.StartElement "link" [], Token.CharData m.ImageURL, Token.EndElement "link",
          Token.EndElement "image"]) <:+: body ∧
      [Token.StartElement "itunes:image" [("href", m.ImageURL)],
        Token.EndElement "itunes:image"] <:+: body := by
  have hi : nonBlank m.ImageURL = true := (nonBlank_eq_true_iff _).2 hU
  obtain ⟨ns, hns, himg⟩ := applyTypeMetaGF_itunes_lookup f typ cfg m hm hi
  obtain ⟨t, hI⟩ := applyTypeMetaGF_image_some f typ cfg m hm hi
  refine ⟨_, renderRSS2WithExtensions_channel lib (applyTypeMetaGF f typ cfg),
    encodeEl "title" (coalesce [t, (applyTypeMetaGF f typ cfg).Title]), rfl, ?_, ?_, ?_, ?_⟩
  · have hmem : "itunes" ∈ collectPrefixes (applyTypeMetaGF f typ cfg) :=
      ((collectPrefixes_spec _).2 "itunes").2
        ⟨by decide, Or.inl (lookup_some_mem_keys hns)⟩
    exact List.mem_cons_of_mem _ (List.mem_filterMap.2 ⟨"itunes", hmem, rfl⟩)
  · unfold encodeEl
    split
    · exact Or.inr ⟨_, rfl⟩
    · exact Or.inl rfl
  · exact image_block_infix_channel lib _ _ hI hi
  · have h := writeExtension_infix_writeExtensions _ "itunes" "image" ns _ _ hns himg
      (List.mem_singleton.2 rfl)
    have he : writeExtension "itunes" (Extension.mk "image" "" [("href", m.ImageURL)] [])
        = [Token.StartElement "itunes:image" [("href", m.ImageURL)],
            Token.EndElement "itunes:image"] := by
      rw [writeExtension_eq]
      rfl
    rw [he] at h
    exact h.trans (writeExtensions_infix_channel lib _)

/-- C7 at the sample configuration: the "sdz" override of `sampleCfg` applied to `sdzFeed`. -/
theorem render_image_override_witness :
    sampleCfg.TypeMetas.lookup "sdz"
      = some { Title := "СДЗ", Description := " ", ImageURL := "https://example.org/sdz.png" } ∧
    TrimSpace "https://example.org/sdz.png" ≠ "" ∧
    ∃ (attrs : List (String × String)) (body titlePart : List Token),
      renderRSS2WithExtensions sampleLib (applyTypeMetaGF sdzFeed "sdz" sampleCfg) =
        [Token.StartElement "rss" attrs, Token.StartElement "channel" []] ++ body
          ++ [Token.EndElement "channel", Token.EndElement "rss"] ∧
      ("xmlns:itunes", "http://www.itunes.com/dtds/podcast-1.0.dtd") ∈ attrs ∧
      (titlePart = [] ∨ ∃ t, titlePart =
        [Token.StartElement "title" [], Token.CharData t, Token.EndElement "title"]) ∧
      ([Token.StartElement "image" [], Token.StartElement "url" [],
          Token.CharData "https://example.org/sdz.png", Token.EndElement "url"]
        ++ titlePart
        ++ [Token.StartElement "link" [], Token.CharData "https://example.org/sdz.png",
          Token.EndElement "link", Token.EndElement "image"]) <:+: body ∧
      [Token.StartElement "itunes:image" [("href", "https://example.org/sdz.png")],
        Token.EndElement "itunes:image"] <:+: body :=
  ⟨rfl, by decide,
    render_image_override sampleLib sdzFeed "sdz" sampleCfg
      { Title := "СДЗ", Description := " ", ImageURL := "https://example.org/sdz.png" }
      rfl (by decide)⟩



/-! ## Order of attributes -/

/-- C9, at the failing input. One `atom:link` element whose attribute map has the two keys
`href` and `rel`: the two orders in which `range` may visit that map hold the same entries
under the same keys, yet `writeExtension`, and with it `renderRSS2WithExtensions`, emits
different token sequences for them. -/
theorem writeExtension_attr_order :
    attrsAB.Perm attrsBA ∧
    NodupKeys attrsAB ∧ NodupKeys attrsBA ∧
    (∀ k, attrsAB.lookup k = attrsBA.lookup k) ∧
    writeExtension "atom" (Extension.mk "link" "" attrsAB []) =
      [Token.StartElement "atom:link" [("href", "https://example.org/a"), ("rel", "self")],
        Token.EndElement "atom:link"] ∧
    writeExtension "atom" (Extension.mk "link" "" attrsBA []) =
      [Token.StartElement "atom:link" [("rel", "self"), ("href", "https://example.org/a")],
        Token.EndElement "atom:link"] ∧
    renderRSS2WithExtensions sampleLib (atomLinkFeed attrsAB)
      ≠ renderRSS2WithExtensions sampleLib (atomLinkFeed attrsBA) := by
  refine ⟨List.Perm.swap _ _ _, by decide, by decide, ?_, rfl, rfl, by decide⟩
  intro k
  by_cases h1 : k = "href"
  · subst h1; rfl
  · by_cases h2 : k = "rel"
    · subst h2; rfl
    · have e1 : (k == "href") = false := by simpa using h1
      have e2 : (k == "rel") = false := by simpa using h2
      simp [attrsAB, attrsBA, List.lookup, e1, e2]



/-! ## Order of the written extension elements -/

theorem strLe_fst_total {V : Type} :
    IsTotal (String × V) (fun a b => strLe a.1 b.1 = true) :=
  ⟨fun a b => strLe_total.total a.1 b.1⟩

theorem strLe_fst_trans {V : Type} :
    IsTrans (String × V) (fun a b => strLe a.1 b.1 = true) :=
  ⟨fun a b c => strLe_trans.trans a.1 b.1 c.1⟩

theorem sortEntries_perm {V : Type} (m : List (String × V)) : (sortEntries m).Perm m :=
  List.perm_insertionSort _ m

theorem sortEntries_sorted {V : Type} (m : List (String × V)) :
    (sortEntries m).Pairwise (fun a b => strLe a.1 b.1 = true) :=
  @List.sorted_insertionSort _ _ _ strLe_fst_total strLe_fst_trans m

theorem sortEntries_keys {V : Type} (m : List (String × V)) :
    (sortEntries m).map Prod.fst = sortStrings (m.map Prod.fst) := by
  apply @List.eq_of_perm_of_sorted _ (fun a b => strLe a b = true) strLe_antisymm
  · exact ((sortEntries_perm m).map _).trans (sortStrings_perm _).symm
  · exact List.pairwise_map.2 (sortEntries_sorted m)
  · exact sortStrings_sorted _

theorem lookup_of_mem_nodupKeys {V : Type} {k : String} {v : V} :
    ∀ {m : List (String × V)}, NodupKeys m → (k, v) ∈ m → m.lookup k = some v
  | [], _, h => by simp at h
  | (k0, v0) :: rest, hnd, h => by
    unfold NodupKeys at hnd
    rw [List.map_cons, List.nodup_cons] at hnd
    rcases List.mem_cons.1 h with h1 | h1
    · injection h1 with e1 e2
      subst e1 e2
      simp [List.lookup]
    · have hk : k ≠ k0 := by
        rintro rfl
        exact hnd.1 (List.mem_map.2 ⟨(k, v), h1, rfl⟩)
      have h2 : (k == k0) = false := by simpa using hk
      simp only [List.lookup, h2]
      exact lookup_of_mem_nodupKeys hnd.2 h1

/-- Ranging over the sorted keys and looking each one up visits the entries in ascending key
order. -/
theorem flatMap_sorted_keys {V β : Type} (m : List (String × V)) (hnd : NodupKeys m)
    (d : V) (g : String → V → List β) :
    ((sortStrings (m.map Prod.fst)).flatMap fun k => g k ((m.lookup k).getD d))
      = (sortEntries m).flatMap fun kv => g kv.1 kv.2 := by
  rw [← sortEntries_keys, List.flatMap_map]
  apply List.flatMap_congr
  intro kv hkv
  have hmem : (kv.1, kv.2) ∈ m := (sortEntries_perm m).mem_iff.1 hkv
  simp only [Function.comp, lookup_of_mem_nodupKeys hnd hmem, Option.getD_some]

theorem countP_flatMap_perm {α β : Type} (q : β → Bool) (g : α → List β) {l1 l2 : List α}
    (h : l1.Perm l2) : (l1.flatMap g).countP q = (l2.flatMap g).countP q :=
  (h.flatMap_right g).countP_eq q

theorem writeExtension_sorted (pfx name value : String) (attrs : List (String × String))
    (children : List (String × List Extension)) (hnd : NodupKeys children) :
    writeExtension pfx (Extension.mk name value attrs children) =
      [Token.StartElement (pfx ++ ":" ++ name) attrs]
        ++ (if TrimSpace value ≠ "" then [Token.CharData value] else [])
        ++ ((sortEntries children).flatMap fun ces => ces.2.flatMap (writeExtension pfx))
        ++ [Token.EndElement (pfx ++ ":" ++ name)] := by
  rw [writeExtension_eq, flatMap_sorted_keys children hnd [] fun _ ces =>
    ces.flatMap (writeExtension pfx)]
  simp [nonBlank]

theorem writeExtensions_sorted (exts : Extensions) (hnd : NodupKeys exts)
    (hns : ∀ pns ∈ exts, NodupKeys pns.2) :
    writeExtensions exts =
      (sortEntries exts).flatMap fun pns =>
        (sortEntries pns.2).flatMap fun nes => nes.2.flatMap (writeExtension pns.1) := by
  rw [writeExtensions_eq, flatMap_sorted_keys exts hnd [] fun p ns =>
    (sortStrings (ns.map Prod.fst)).flatMap fun n =>
      ((ns.lookup n).getD []).flatMap fun e => writeExtension p e]
  apply List.flatMap_congr
  intro pns hpns
  have h := hns pns ((sortEntries_perm exts).mem_iff.1 hpns)
  exact flatMap_sorted_keys pns.2 h [] fun _ es => es.flatMap (writeExtension pns.1)

mutual
theorem count_writeExtension (pfx : String) :
    ∀ e : Extension, e.WF → (writeExtension pfx e).countP Token.isStart = e.size
  | .mk name value attrs children, h => by
    have h1 : NodupKeys children ∧ Extension.WFMap children := by
      simpa [Extension.WF] using h
    rw [writeExtension_sorted pfx name value attrs children h1.1]
    simp only [List.countP_append, List.countP_cons, List.countP_nil, Token.isStart]
    rw [countP_flatMap_perm _ _ (sortEntries_perm children),
      count_writeExtension_map pfx children h1.2]
    have h2 : (if TrimSpace value ≠ "" then [Token.CharData value] else []).countP Token.isStart
        = 0 := by
      split <;> simp [Token.isStart]
    rw [h2, Extension.size]
    simp
theorem count_writeExtension_map (pfx : String) :
    ∀ m : List (String × List Extension), Extension.WFMap m →
      (m.flatMap fun ces => ces.2.flatMap (writeExtension pfx)).countP Token.isStart
        = Extension.sizeMap m
  | [], _ => by simp [Extension.sizeMap]
  | (k, es) :: rest, h => by
    have h1 : Extension.WFList es ∧ Extension.WFMap rest := by
      simpa [Extension.WFMap] using h
    rw [List.flatMap_cons, List.countP_append, count_writeExtension_list pfx es h1.1,
      count_writeExtension_map pfx rest h1.2, Extension.sizeMap]
theorem count_writeExtension_list (pfx : String) :
    ∀ es : List Extension, Extension.WFList es →
      (es.flatMap (writeExtension pfx)).countP Token.isStart = Extension.sizeList es
  | [], _ => by simp [Extension.sizeList]
  | e :: es, h => by
    have h1 : e.WF ∧ Extension.WFList es := by
      simpa [Extension.WFList] using h
    rw [List.flatMap_cons, List.countP_append, count_writeExtension pfx e h1.1,
      count_writeExtension_list pfx es h1.2, Extension.sizeList]
end

theorem sortEntries_strict {V : Type} (m : List (String × V)) (hnd : NodupKeys m) :
    (sortEntries m).Pairwise (fun a b => strLt a.1.data b.1.data = true) := by
  have h := sortStrings_strict (m.map Prod.fst) hnd
  rw [← sortEntries_keys] at h
  exact List.pairwise_map.1 h

theorem count_writeExtensions_aux :
    ∀ exts : Extensions, (∀ pns ∈ exts, Extension.WFMap pns.2) →
      (exts.flatMap fun pns =>
        (sortEntries pns.2).flatMap fun nes => nes.2.flatMap (writeExtension pns.1)).countP
          Token.isStart = Extensions.size exts
  | [], _ => by simp [Extensions.size]
  | (p, ns) :: rest, h => by
    have h1 := h (p, ns) (List.mem_cons_self _ _)
    have h2 := count_writeExtensions_aux rest fun x hx => h x (List.mem_cons_of_mem _ hx)
    rw [List.flatMap_cons, List.countP_append, h2, Extensions.size,
      countP_flatMap_perm _ _ (sortEntries_perm ns), count_writeExtension_map p ns h1]

/-- C10. For an extension tree whose maps have distinct keys at every depth, `writeExtensions`
writes the stored elements namespace by namespace in ascending prefix order, within one
namespace name by name in ascending order, within one name in stored list order; each element
is written as its start tag, its text when non-blank, its children (child name by child name
in ascending order, each list in stored order, every child written by the same rule) and then
its end tag; the sorted entry lists are rearrangements of the stored ones, so no entry is lost
or repeated, and the number of start tags written equals the number of elements of the
tree. -/
theorem writeExtensions_order (exts : Extensions) (hWF : exts.WF) :
    writeExtensions exts =
      ((sortEntries exts).flatMap fun pns =>
        (sortEntries pns.2).flatMap fun nes => nes.2.flatMap (writeExtension pns.1)) ∧
    (sortEntries exts).Perm exts ∧
    (sortEntries exts).Pairwise (fun a b => strLt a.1.data b.1.data = true) ∧
    (∀ pns ∈ exts, (sortEntries pns.2).Perm pns.2 ∧
      (sortEntries pns.2).Pairwise (fun a b => strLt a.1.data b.1.data = true)) ∧
    (writeExtensions exts).countP Token.isStart = Extensions.size exts ∧
    (∀ (pfx name value : String) (attrs : List (String × String))
        (children : List (String × List Extension)),
      (Extension.mk name value attrs children).WF →
      writeExtension pfx (Extension.mk name value attrs children) =
        [Token.StartElement (pfx ++ ":" ++ name) attrs]
          ++ (if TrimSpace value ≠ "" then [Token.CharData value] else [])
          ++ ((sortEntries children).flatMap fun ces => ces.2.flatMap (writeExtension pfx))
          ++ [Token.EndElement (pfx ++ ":" ++ name)] ∧
      (sortEntries children).Perm children ∧
      (sortEntries children).Pairwise (fun a b => strLt a.1.data b.1.data = true) ∧
      (writeExtension pfx (Extension.mk name value attrs children)).countP Token.isStart
        = (Extension.mk name value attrs children).size) := by
  obtain ⟨hnd, hin⟩ := hWF
  have hsorted := writeExtensions_sorted exts hnd fun pns h => (hin pns h).1
  refine ⟨hsorted, sortEntries_perm _, sortEntries_strict _ hnd, ?_, ?_, ?_⟩
  · intro pns h
    exact ⟨sortEntries_perm _, sortEntries_strict _ (hin pns h).1⟩
  · rw [hsorted, countP_flatMap_perm _ _ (sortEntries_perm exts)]
    exact count_writeExtensions_aux exts fun pns h => (hin pns h).2
  · intro pfx name value attrs children he
    have h1 : NodupKeys children ∧ Extension.WFMap children := by
      simpa [Extension.WF] using he
    exact ⟨writeExtension_sorted pfx name value attrs children h1.1, sortEntries_perm _,
      sortEntries_strict _ h1.1, count_writeExtension pfx _ he⟩

theorem sampleExts_WF : sampleExts.WF := by
  refine ⟨by decide, ?_⟩
  intro pns h
  simp only [sampleExts, List.mem_cons, List.mem_singleton, List.not_mem_nil, or_false] at h
  rcases h with rfl | rfl
  · refine ⟨by decide, ?_⟩
    simp [Extension.WFMap, Extension.WFList, Extension.WF, NodupKeys]
  · refine ⟨by decide, ?_⟩
    simp [Extension.WFMap, Extension.WFList, Extension.WF, NodupKeys]

/-- C10 on `sampleExts`, whose keys are stored out of order: "itunes" is written before
"podcast", "funding" before "person", the children "a" before "z", nested inside their
parent, the two "person" elements in stored order, and all eight elements once. -/
theorem writeExtensions_order_witness :
    sampleExts.WF ∧
    writeExtensions sampleExts =
      ((sortEntries sampleExts).flatMap fun pns =>
        (sortEntries pns.2).flatMap fun nes => nes.2.flatMap (writeExtension pns.1)) ∧
    (writeExtensions sampleExts).countP Token.isStart = Extensions.size sampleExts ∧
    Extensions.size sampleExts = 8 ∧
    writeExtensions sampleExts =
      [ Token.StartElement "itunes:explicit" [], Token.CharData "no",
        Token.EndElement "itunes:explicit",
        Token.StartElement "podcast:funding" [],
        Token.StartElement "podcast:a" [], Token.CharData "2",
        Token.StartElement "podcast:n" [], Token.CharData "3", Token.EndElement "podcast:n",
        Token.EndElement "podcast:a",
        Token.StartElement "podcast:a" [], Token.CharData "4", Token.EndElement "podcast:a",
        Token.StartElement "podcast:z" [], Token.CharData "1", Token.EndElement "podcast:z",
        Token.EndElement "podcast:funding",
        Token.StartElement "podcast:person" [], Token.CharData "Ann",
        Token.EndElement "podcast:person",
        Token.StartElement "podcast:person" [], Token.CharData "Bob",
        Token.EndElement "podcast:person" ] :=
  ⟨sampleExts_WF, (writeExtensions_order sampleExts sampleExts_WF).1,
    (writeExtensions_order sampleExts sampleExts_WF).2.2.2.2.1, rfl, rfl⟩

/-! ## Nesting lemmas -/

theorem balance_append : ∀ (a : List Token) (st : List String) (b : List Token),
    balance st (a ++ b) = (balance st a).bind fun s => balance s b
  | [], st, b => by simp [balance]
  | Token.StartElement n _ :: ts, st, b => by
    simp only [List.cons_append, balance]
    exact balance_append ts (n :: st) b
  | Token.CharData _ :: ts, [], b => by simp [balance]
  | Token.CharData _ :: ts, m :: st, b => by
    simp only [List.cons_append, balance]
    exact balance_append ts (m :: st) b
  | Token.EndElement _ :: ts, [], b => by simp [balance]
  | Token.EndElement n :: ts, m :: st, b => by
    simp only [List.cons_append, balance]
    by_cases h : m = n
    · simp only [h, if_true]
      exact balance_append ts st b
    · simp [h]

theorem balance_frame : ∀ (s : List Token) (a b c : List String),
    balance a s = some b → balance (a ++ c) s = some (b ++ c)
  | [], a, b, c, h => by
    simp only [balance, Option.some.injEq] at h
    simp [balance, h]
  | Token.StartElement n _ :: ts, a, b, c, h => by
    simp only [balance] at h ⊢
    exact balance_frame ts (n :: a) b c h
  | Token.CharData _ :: ts, [], b, c, h => by simp [balance] at h
  | Token.CharData _ :: ts, m :: a, b, c, h => by
    simp only [balance, List.cons_append] at h ⊢
    exact balance_frame ts (m :: a) b c h
  | Token.EndElement _ :: ts, [], b, c, h => by simp [balance] at h
  | Token.EndElement n :: ts, m :: a, b, c, h => by
    simp only [balance, List.cons_append] at h ⊢
    by_cases hm : m = n
    · simp only [hm, if_true] at h ⊢
      exact balance_frame ts a b c h
    · simp [hm] at h

/-- A sequence of whole elements leaves any stack of open elements as it found it. -/
theorem balance_of_closed {s : List Token} (h : balance [] s = some []) (st : List String) :
    balance st s = some st := by
  simpa using balance_frame s [] [] st h

theorem balance_closed_append {a b : List Token} (ha : balance [] a = some [])
    (hb : balance [] b = some []) : balance [] (a ++ b) = some [] := by
  rw [balance_append, ha]
  exact hb

theorem balance_closed_flatMap {α : Type} (f : α → List Token) :
    ∀ l : List α, (∀ x ∈ l, balance [] (f x) = some []) → balance [] (l.flatMap f) = some []
  | [], _ => rfl
  | x :: xs, h => by
    rw [List.flatMap_cons]
    exact balance_closed_append (h x (List.mem_cons_self _ _))
      (balance_closed_flatMap f xs fun y hy => h y (List.mem_cons_of_mem _ hy))

/-- An element wrapped around whole elements, with optional text first, is a whole element. -/
theorem balance_closed_element (n : String) (attrs : List (String × String))
    (text inner : List Token) (ht : text = [] ∨ ∃ v, text = [Token.CharData v])
    (hi : balance [] inner = some []) :
    balance [] ([Token.StartElement n attrs] ++ text ++ inner ++ [Token.EndElement n])
      = some [] := by
  have h2 : balance [n] (inner ++ [Token.EndElement n]) = some [] := by
    rw [balance_append, balance_of_closed hi [n]]
    simp [balance]
  rcases ht with rfl | ⟨v, rfl⟩
  · simpa [balance, List.append_assoc] using h2
  · simpa [balance, List.append_assoc] using h2

theorem balance_encodeEl (name value : String) : balance [] (encodeEl name value) = some [] := by
  unfold encodeEl
  split <;> simp [balance]

theorem openAt_append (n : String) : ∀ (a : List Token) (st st2 : List String) (b : List Token),
    balance st a = some st2 → openAt n st (a ++ b) = openAt n st a ++ openAt n st2 b
  | [], st, st2, b, h => by
    simp only [balance, Option.some.injEq] at h
    simp [openAt, h]
  | Token.StartElement m _ :: ts, st, st2, b, h => by
    simp only [balance] at h
    simp only [List.cons_append, openAt, List.append_assoc]
    exact congrArg _ (openAt_append n ts (m :: st) st2 b h)
  | Token.CharData _ :: ts, [], st2, b, h => by simp [balance] at h
  | Token.CharData _ :: ts, m :: st, st2, b, h => by
    simp only [balance] at h
    simp only [List.cons_append, openAt]
    exact openAt_append n ts (m :: st) st2 b h
  | Token.EndElement _ :: ts, [], st2, b, h => by simp [balance] at h
  | Token.EndElement k :: ts, m :: st, st2, b, h => by
    simp only [balance] at h
    by_cases hm : m = k
    · simp only [hm, if_true] at h
      simp only [List.cons_append, openAt, List.tail_cons]
      exact openAt_append n ts st st2 b h
    · simp [hm] at h

/-- No start tag named `n` in the sequence: nothing to report. -/
theorem openAt_eq_nil (n : String) : ∀ (s : List Token) (st : List String),
    (∀ t ∈ s, Token.isStartOf n t = false) → openAt n st s = []
  | [], _, _ => rfl
  | Token.StartElement m a :: ts, st, h => by
    have h1 : m ≠ n := by
      simpa [Token.isStartOf] using h (Token.StartElement m a) (List.mem_cons_self _ _)
    simp only [openAt, h1, if_false, List.nil_append]
    exact openAt_eq_nil n ts _ fun t ht => h t (List.mem_cons_of_mem _ ht)
  | Token.CharData _ :: ts, st, h => by
    simp only [openAt]
    exact openAt_eq_nil n ts _ fun t ht => h t (List.mem_cons_of_mem _ ht)
  | Token.EndElement _ :: ts, st, h => by
    simp only [openAt]
    exact openAt_eq_nil n ts _ fun t ht => h t (List.mem_cons_of_mem _ ht)

/-! ## Induction over extension elements -/

mutual
theorem Extension.induct_aux (P : Extension → Prop)
    (step : ∀ name value attrs children,
      (∀ kes ∈ children, ∀ e ∈ kes.2, P e) → P (Extension.mk name value attrs children)) :
    ∀ e : Extension, P e
  | .mk name value attrs children =>
    step name value attrs children (Extension.induct_map P step children)
theorem Extension.induct_map (P : Extension → Prop)
    (step : ∀ name value attrs children,
      (∀ kes ∈ children, ∀ e ∈ kes.2, P e) → P (Extension.mk name value attrs children)) :
    ∀ m : List (String × List Extension), ∀ kes ∈ m, ∀ e ∈ kes.2, P e
  | [], _, h, _, _ => absurd h (List.not_mem_nil _)
  | (k, es) :: rest, kes, h, e, he => by
    rcases List.mem_cons.1 h with h1 | h1
    · subst h1
      exact Extension.induct_list P step es e he
    · exact Extension.induct_map P step rest kes h1 e he
theorem Extension.induct_list (P : Extension → Prop)
    (step : ∀ name value attrs children,
      (∀ kes ∈ children, ∀ e ∈ kes.2, P e) → P (Extension.mk name value attrs children)) :
    ∀ es : List Extension, ∀ e ∈ es, P e
  | [], _, h => absurd h (List.not_mem_nil _)
  | x :: xs, e, h => by
    rcases List.mem_cons.1 h with h1 | h1
    · subst h1
      exact Extension.induct_aux P step e
    · exact Extension.induct_list P step xs e h1
end

/-- The children visited by `writeExtension`, key by key, are elements stored in the map. -/
theorem mem_children_of_lookup {children : List (String × List Extension)} {cn : String}
    {e : Extension} (h : e ∈ (children.lookup cn).getD []) :
    ∃ kes ∈ children, e ∈ kes.2 := by
  cases hl : children.lookup cn with
  | none => simp [hl] at h
  | some es =>
    rw [hl] at h
    exact ⟨(cn, es), lookup_some_mem hl, h⟩

theorem writeExtension_balanced (pfx : String) :
    ∀ e : Extension, balance [] (writeExtension pfx e) = some [] := by
  apply Extension.induct_aux
  intro name value attrs children ih
  rw [writeExtension_eq]
  apply balance_closed_element
  · split
    · exact Or.inr ⟨_, rfl⟩
    · exact Or.inl rfl
  · apply balance_closed_flatMap
    intro cn _
    apply balance_closed_flatMap
    intro e he
    obtain ⟨kes, hk, hek⟩ := mem_children_of_lookup he
    exact ih kes hk e hek

theorem writeExtensions_balanced (exts : Extensions) :
    balance [] (writeExtensions exts) = some [] := by
  rw [writeExtensions_eq]
  apply balance_closed_flatMap
  intro p _
  apply balance_closed_flatMap
  intro n _
  apply balance_closed_flatMap
  intro e _
  exact writeExtension_balanced p e

theorem colon_mem_name (pfx name : String) : ':' ∈ (pfx ++ ":" ++ name).data := by
  simp [String.data_append]

theorem writeExtension_hasColon (pfx : String) :
    ∀ e : Extension, ∀ t ∈ writeExtension pfx e, Token.hasColon t = true := by
  apply Extension.induct_aux
  intro name value attrs children ih t ht
  rw [writeExtension_eq] at ht
  simp only [List.mem_append, List.mem_singleton, List.mem_flatMap] at ht
  rcases ht with ((h | h) | ⟨cn, _, e, he, hte⟩) | h
  · subst h
    simp [Token.hasColon]
  · split at h
    · rw [List.mem_singleton.1 h]
      rfl
    · exact absurd h (List.not_mem_nil _)
  · obtain ⟨kes, hk, hek⟩ := mem_children_of_lookup he
    exact ih kes hk e hek t hte
  · subst h
    simp [Token.hasColon]

theorem writeExtensions_hasColon (exts : Extensions) :
    ∀ t ∈ writeExtensions exts, Token.hasColon t = true := by
  intro t ht
  rw [writeExtensions_eq] at ht
  simp only [List.mem_flatMap] at ht
  obtain ⟨p, _, n, _, e, _, hte⟩ := ht
  exact writeExtension_hasColon p e t hte

/-- A tag with a colon in its name is no start tag of a name without one. -/
theorem isStartOf_of_hasColon {n : String} (hn : ':' ∉ n.data) {t : Token}
    (ht : Token.hasColon t = true) : Token.isStartOf n t = false := by
  cases t with
  | StartElement m a =>
    simp only [Token.hasColon, decide_eq_true_eq] at ht
    simp only [Token.isStartOf, decide_eq_false_iff_not]
    rintro rfl
    exact hn ht
  | CharData _ => rfl
  | EndElement _ => rfl

/-! ## Shape of the item and channel blocks -/

theorem nameIn_of_hasColon (ns : List String) {t : Token} (h : Token.hasColon t = true) :
    Token.nameIn ns t = true := by
  cases t <;> simp_all [Token.hasColon, Token.nameIn]

theorem isStartOf_of_nameIn {ns : List String} {n : String} (hn : n ∉ ns)
    (hc : ':' ∉ n.data) {t : Token} (ht : Token.nameIn ns t = true) :
    Token.isStartOf n t = false := by
  cases t with
  | StartElement m a =>
    simp only [Token.nameIn, Bool.or_eq_true, decide_eq_true_eq] at ht
    simp only [Token.isStartOf, decide_eq_false_iff_not]
    rintro rfl
    rcases ht with h | h
    · exact hn h
    · exact hc h
  | CharData _ => rfl
  | EndElement _ => rfl

theorem encodeEl_nameIn {ns : List String} {name : String} (h : name ∈ ns) (value : String) :
    ∀ t ∈ encodeEl name value, Token.nameIn ns t = true := by
  intro t ht
  unfold encodeEl at ht
  split at ht
  · simp only [List.mem_cons, List.mem_singleton, List.not_mem_nil, or_false] at ht
    rcases ht with rfl | rfl | rfl <;> simp [Token.nameIn, h]
  · exact absurd ht (List.not_mem_nil _)

theorem balance_image_block (u t l : String) :
    balance [] ([Token.StartElement "image" []] ++ encodeEl "url" u ++ encodeEl "title" t
      ++ encodeEl "link" l ++ [Token.EndElement "image"]) = some [] := by
  have h := balance_closed_element "image" [] []
    (encodeEl "url" u ++ encodeEl "title" t ++ encodeEl "link" l) (Or.inl rfl)
    (balance_closed_append (balance_closed_append (balance_encodeEl _ _)
      (balance_encodeEl _ _)) (balance_encodeEl _ _))
  simpa [List.append_assoc] using h

/-- Tokens of an item block between `<item>` and `</item>`. -/
theorem item_block_shape (lib : Lib) (it : Item) :
    ∃ inner : List Token,
      renderRSS2WithExtensions_item lib (some it)
        = [Token.StartElement "item" []] ++ inner ++ [Token.EndElement "item"] ∧
      balance [] inner = some [] ∧
      ∀ t ∈ inner, Token.nameIn
        ["title", "link", "description", "pubDate", "guid", "enclosure"] t = true := by
  refine ⟨encodeEl "title" it.Title
      ++ encodeEl "link" it.Link
      ++ encodeEl "description" (coalesce [it.Description, it.Content])
      ++ (match nonZeroTime? it.PublishedParsed, nonZeroTime? it.UpdatedParsed with
          | some t, _ => encodeEl "pubDate" (lib.formatRFC1123Z t)
          | none, some t => encodeEl "pubDate" (lib.formatRFC1123Z t)
          | none, none => [])
      ++ (if nonBlank it.GUID then
            [Token.StartElement "guid"
                (if !hasPrefix (ToLower lib it.GUID) "http://" &&
                    !hasPrefix (ToLower lib it.GUID) "https://" then
                  [("isPermaLink", "false")]
                else []),
              Token.CharData it.GUID,
              Token.EndElement "guid"]
          else [])
      ++ (match it.Enclosures with
          | some enc0 :: _ =>
            [Token.StartElement "enclosure"
                ([("url", enc0.URL)]
                  ++ (if enc0.Length ≠ "" then [("length", enc0.Length)] else [])
                  ++ (if enc0.Type_ ≠ "" then [("type", enc0.Type_)] else [])),
              Token.EndElement "enclosure"]
          | _ => [])
      ++ writeExtensions it.Extensions, ?_, ?_, ?_⟩
  · simp [renderRSS2WithExtensions_item, List.append_assoc]
  · refine balance_closed_append (balance_closed_append (balance_closed_append
      (balance_closed_append (balance_closed_append (balance_closed_append
        (balance_encodeEl _ _) (balance_encodeEl _ _)) (balance_encodeEl _ _)) ?_) ?_) ?_)
      (writeExtensions_balanced _)
    · split <;> first | exact balance_encodeEl _ _ | rfl
    · split <;> simp [balance]
    · split <;> simp [balance]
  · intro t ht
    simp only [List.mem_append] at ht
    rcases ht with (((((h | h) | h) | h) | h) | h) | h
    · exact encodeEl_nameIn (by simp) _ t h
    · exact encodeEl_nameIn (by simp) _ t h
    · exact encodeEl_nameIn (by simp) _ t h
    · split at h
      · exact encodeEl_nameIn (by simp) _ t h
      · exact encodeEl_nameIn (by simp) _ t h
      · exact absurd h (List.not_mem_nil _)
    · split at h
      · simp only [List.mem_cons, List.mem_singleton, List.not_mem_nil, or_false] at h
        rcases h with rfl | rfl | rfl <;> simp [Token.nameIn]
      · exact absurd h (List.not_mem_nil _)
    · split at h
      · simp only [List.mem_cons, List.mem_singleton, List.not_mem_nil, or_false] at h
        rcases h with rfl | rfl <;> simp [Token.nameIn]
      · exact absurd h (List.not_mem_nil _)
    · exact nameIn_of_hasColon _ (writeExtensions_hasColon _ t h)

/-- Tokens of the channel block before the items. -/
theorem channel_head_shape (lib : Lib) (f : Feed) :
    ∃ head : List Token,
      renderRSS2WithExtensions_channel lib f
        = head ++ f.Items.flatMap (renderRSS2WithExtensions_item lib) ∧
      balance [] head = some [] ∧
      ∀ t ∈ head, Token.nameIn
        ["title", "link", "description", "language", "pubDate", "lastBuildDate", "image",
          "url"] t = true := by
  refine ⟨_, rfl, ?_, ?_⟩
  · refine balance_closed_append (balance_closed_append (balance_closed_append
      (balance_closed_append (balance_closed_append (balance_closed_append
        (balance_closed_append (balance_encodeEl _ _) (balance_encodeEl _ _))
        (balance_encodeEl _ _)) ?_) ?_) ?_) ?_) (writeExtensions_balanced _)
    · split <;> first | exact balance_encodeEl _ _ | rfl
    · split <;> first | exact balance_encodeEl _ _ | rfl
    · split <;> first | exact balance_encodeEl _ _ | rfl
    · split
      · split
        · exact balance_image_block _ _ _
        · rfl
      · rfl
  · intro t ht
    simp only [List.mem_append] at ht
    rcases ht with ((((((h | h) | h) | h) | h) | h) | h) | h
    · exact encodeEl_nameIn (by simp) _ t h
    · exact encodeEl_nameIn (by simp) _ t h
    · exact encodeEl_nameIn (by simp) _ t h
    · split at h
      · exact encodeEl_nameIn (by simp) _ t h
      · exact absurd h (List.not_mem_nil _)
    · split at h
      · exact encodeEl_nameIn (by simp) _ t h
      · exact absurd h (List.not_mem_nil _)
    · split at h
      · exact encodeEl_nameIn (by simp) _ t h
      · exact absurd h (List.not_mem_nil _)
    · split at h
      · split at h
        · simp only [List.mem_append, List.mem_singleton] at h
          rcases h with (((h | h) | h) | h) | h
          · subst h; simp [Token.nameIn]
          · exact encodeEl_nameIn (by simp) _ t h
          · exact encodeEl_nameIn (by simp) _ t h
          · exact encodeEl_nameIn (by simp) _ t h
          · subst h; simp [Token.nameIn]
        · exact absurd h (List.not_mem_nil _)
      · exact absurd h (List.not_mem_nil _)
    · exact nameIn_of_hasColon _ (writeExtensions_hasColon _ t h)

/-! ## Well-formedness of the output -/

theorem openAt_start (n m : String) (a : List (String × String)) (st : List String)
    (ts : List Token) :
    openAt n st (Token.StartElement m a :: ts)
      = (if m = n then [st] else []) ++ openAt n (m :: st) ts := rfl

theorem balance_start (m : String) (a : List (String × String)) (st : List String)
    (ts : List Token) :
    balance st (Token.StartElement m a :: ts) = balance (m :: st) ts := by
  rw [balance]

theorem item_block_balanced (lib : Lib) (it : Option Item) :
    balance [] (renderRSS2WithExtensions_item lib it) = some [] := by
  cases it with
  | none => rfl
  | some it =>
    obtain ⟨inner, hb, hbal, _⟩ := item_block_shape lib it
    rw [hb]
    have h := balance_closed_element "item" [] [] inner (Or.inl rfl) hbal
    simpa using h

theorem item_block_openAt (lib : Lib) (it : Item) (st : List String) :
    openAt "item" st (renderRSS2WithExtensions_item lib (some it)) = [st] := by
  obtain ⟨inner, hb, hbal, hn⟩ := item_block_shape lib it
  rw [hb]
  have h1 : openAt "item" ("item" :: st) inner = [] :=
    openAt_eq_nil _ _ _ fun t ht => isStartOf_of_nameIn (by decide) (by decide) (hn t ht)
  have hb2 : [Token.StartElement "item" []] ++ inner ++ [Token.EndElement "item"]
      = Token.StartElement "item" [] :: (inner ++ [Token.EndElement "item"]) := by simp
  rw [hb2, openAt_start, openAt_append "item" inner _ _ _ (balance_of_closed hbal _), h1]
  simp [openAt]

theorem items_openAt (lib : Lib) (st : List String) :
    ∀ items : List (Option Item),
      openAt "item" st (items.flatMap (renderRSS2WithExtensions_item lib))
        = List.replicate (items.filter Option.isSome).length st
  | [] => rfl
  | none :: rest => by
    have ih := items_openAt lib st rest
    simpa [List.flatMap_cons, renderRSS2WithExtensions_item] using ih
  | some it :: rest => by
    have ih := items_openAt lib st rest
    rw [List.flatMap_cons, openAt_append "item" _ st st _
      (balance_of_closed (item_block_balanced lib (some it)) st), item_block_openAt, ih]
    simp [List.replicate_succ]

/-- Every token between `<channel>` and `</channel>` is text or a tag named by one of the
plain element names of the encoder or with a colon. -/
theorem channel_tokens_nameIn (lib : Lib) (f : Feed) :
    ∀ t ∈ renderRSS2WithExtensions_channel lib f, Token.nameIn
      ["title", "link", "description", "language", "pubDate", "lastBuildDate", "image", "url",
        "item", "guid", "enclosure"] t = true := by
  have mono : ∀ (ns : List String) (t : Token),
      (∀ n ∈ ns, n ∈ ["title", "link", "description", "language", "pubDate", "lastBuildDate",
        "image", "url", "item", "guid", "enclosure"]) →
      Token.nameIn ns t = true →
      Token.nameIn ["title", "link", "description", "language", "pubDate", "lastBuildDate",
        "image", "url", "item", "guid", "enclosure"] t = true := by
    intro ns t hsub ht
    cases t with
    | StartElement m a =>
      simp only [Token.nameIn, Bool.or_eq_true, decide_eq_true_eq] at ht ⊢
      exact ht.imp (hsub m) id
    | CharData _ => rfl
    | EndElement m =>
      simp only [Token.nameIn, Bool.or_eq_true, decide_eq_true_eq] at ht ⊢
      exact ht.imp (hsub m) id
  obtain ⟨head, hb, _, hn⟩ := channel_head_shape lib f
  intro t ht
  rw [hb, List.mem_append, List.mem_flatMap] at ht
  rcases ht with h | ⟨it, _, h⟩
  · exact mono _ t (by decide) (hn t h)
  · cases it with
    | none => exact absurd h (List.not_mem_nil _)
    | some it =>
      obtain ⟨inner, hb2, _, hn2⟩ := item_block_shape lib it
      rw [hb2] at h
      simp only [List.mem_append, List.mem_singleton] at h
      rcases h with (h | h) | h
      · subst h; rfl
      · exact mono _ t (by decide) (hn2 t h)
      · subst h; rfl

theorem channel_balanced (lib : Lib) (f : Feed) :
    balance [] (renderRSS2WithExtensions_channel lib f) = some [] := by
  obtain ⟨head, hb, hbal, _⟩ := channel_head_shape lib f
  rw [hb]
  exact balance_closed_append hbal
    (balance_closed_flatMap _ _ fun it _ => item_block_balanced lib it)

/-- C20. The token sequence of `renderRSS2WithExtensions` is a well-formed document: it is
`<rss>`, `<channel>`, a sequence of whole elements, `</channel>`, `</rss>`; read with a stack
every end tag closes the innermost open element of the same name and nothing stays open; the
only `rss` start tag is the root, the only `channel` start tag lies directly in `rss`, and
every `item` start tag, one per non-nil item, lies directly in `channel`; every extension
element is its start tag, optional text, the whole elements of its children, and its end tag.
`writeExtension` is a total function, defined by structural recursion on the tree. -/
theorem render_well_formed (lib : Lib) (f : Feed) :
    ∃ (attrs : List (String × String)) (body : List Token),
      renderRSS2WithExtensions lib f =
        [Token.StartElement "rss" attrs, Token.StartElement "channel" []] ++ body
          ++ [Token.EndElement "channel", Token.EndElement "rss"] ∧
      balance [] body = some [] ∧
      balance [] (renderRSS2WithExtensions lib f) = some [] ∧
      openAt "rss" [] (renderRSS2WithExtensions lib f) = [[]] ∧
      openAt "channel" [] (renderRSS2WithExtensions lib f) = [["rss"]] ∧
      openAt "item" [] (renderRSS2WithExtensions lib f)
        = List.replicate (f.Items.filter Option.isSome).length ["channel", "rss"] ∧
      (∀ (pfx name value : String) (as : List (String × String))
          (children : List (String × List Extension)),
        ∃ text kids : List Token,
          writeExtension pfx (Extension.mk name value as children) =
            [Token.StartElement (pfx ++ ":" ++ name) as] ++ text ++ kids
              ++ [Token.EndElement (pfx ++ ":" ++ name)] ∧
          (text = [] ∨ text = [Token.CharData value]) ∧
          kids = ((sortStrings (children.map Prod.fst)).flatMap fun cn =>
            ((children.lookup cn).getD []).flatMap (writeExtension pfx)) ∧
          balance [] kids = some [] ∧
          balance [] (writeExtension pfx (Extension.mk name value as children)) = some []) := by
  have hbody := channel_balanced lib f
  have hnames := channel_tokens_nameIn lib f
  have hshape : renderRSS2WithExtensions lib f =
      [renderRSS2WithExtensions_rssStart f, Token.StartElement "channel" []]
        ++ renderRSS2WithExtensions_channel lib f
        ++ [Token.EndElement "channel", Token.EndElement "rss"] := rfl
  have hshape2 : renderRSS2WithExtensions lib f =
      renderRSS2WithExtensions_rssStart f :: Token.StartElement "channel" [] ::
        (renderRSS2WithExtensions_channel lib f
          ++ [Token.EndElement "channel", Token.EndElement "rss"]) := by
    rw [hshape]; simp
  have hopen : ∀ n : String,
      openAt n [] (renderRSS2WithExtensions lib f) =
        (if "rss" = n then [[]] else []) ++ ((if "channel" = n then [["rss"]] else [])
          ++ (openAt n ["channel", "rss"] (renderRSS2WithExtensions_channel lib f))) := by
    intro n
    rw [hshape2, renderRSS2WithExtensions_rssStart, openAt_start, openAt_start,
      openAt_append n _ _ _ _ (balance_of_closed hbody _)]
    simp [openAt]
  refine ⟨_, renderRSS2WithExtensions_channel lib f, rfl, hbody, ?_, ?_, ?_, ?_, ?_⟩
  · rw [hshape2, renderRSS2WithExtensions_rssStart, balance_start, balance_start,
      balance_append, balance_of_closed hbody _]
    simp [balance]
  · rw [hopen, openAt_eq_nil "rss" _ _ fun t ht =>
      isStartOf_of_nameIn (by decide) (by decide) (hnames t ht)]
    simp
  · rw [hopen, openAt_eq_nil "channel" _ _ fun t ht =>
      isStartOf_of_nameIn (by decide) (by decide) (hnames t ht)]
    simp
  · rw [hopen]
    obtain ⟨head, hb, hbal, hn⟩ := channel_head_shape lib f
    rw [hb, openAt_append "item" head _ _ _ (balance_of_closed hbal _),
      openAt_eq_nil "item" head _ fun t ht =>
        isStartOf_of_nameIn (by decide) (by decide) (hn t ht), items_openAt]
    simp
  · intro pfx name value as children
    refine ⟨if nonBlank value then [Token.CharData value] else [], _,
      writeExtension_eq pfx name value as children, ?_, rfl, ?_, writeExtension_balanced pfx _⟩
    · split
      · exact Or.inr rfl
      · exact Or.inl rfl
    · apply balance_closed_flatMap
      intro cn _
      apply balance_closed_flatMap
      intro e _
      exact writeExtension_balanced pfx e

/-! ## Item title, link and GUID in the output -/

theorem nameIn_mono {ns ns2 : List String} (hsub : ∀ n ∈ ns, n ∈ ns2) {t : Token}
    (ht : Token.nameIn ns t = true) : Token.nameIn ns2 t = true := by
  cases t with
  | StartElement m a =>
    simp only [Token.nameIn, Bool.or_eq_true, decide_eq_true_eq] at ht ⊢
    exact ht.imp (hsub m) id
  | CharData _ => rfl
  | EndElement m =>
    simp only [Token.nameIn, Bool.or_eq_true, decide_eq_true_eq] at ht ⊢
    exact ht.imp (hsub m) id

theorem encodeEl_of_nonBlank (name value : String) (h : TrimSpace value ≠ "") :
    encodeEl name value
      = [Token.StartElement name [], Token.CharData value, Token.EndElement name] := by
  simp [encodeEl, (nonBlank_eq_true_iff value).2 h]

theorem encodeEl_of_blank (name value : String) (h : TrimSpace value = "") :
    encodeEl name value = [] := by
  simp [encodeEl, (nonBlank_eq_false_iff_trim value).2 h]

/-- The item block cut at its title, link, GUID and enclosure parts. -/
theorem item_block_parts (lib : Lib) (it : Item) :
    ∃ mid : List Token,
      renderRSS2WithExtensions_item lib (some it) =
        [Token.StartElement "item" []]
          ++ encodeEl "title" it.Title
          ++ encodeEl "link" it.Link
          ++ mid
          ++ renderRSS2WithExtensions_guid lib it
          ++ renderRSS2WithExtensions_enclosure it
          ++ writeExtensions it.Extensions
          ++ [Token.EndElement "item"] ∧
      ∀ t ∈ mid, Token.nameIn ["description", "pubDate"] t = true := by
  refine ⟨encodeEl "description" (coalesce [it.Description, it.Content])
      ++ (match nonZeroTime? it.PublishedParsed, nonZeroTime? it.UpdatedParsed with
          | some t, _ => encodeEl "pubDate" (lib.formatRFC1123Z t)
          | none, some t => encodeEl "pubDate" (lib.formatRFC1123Z t)
          | none, none => []), ?_, ?_⟩
  · simp [renderRSS2WithExtensions_item, renderRSS2WithExtensions_guid,
      renderRSS2WithExtensions_enclosure, List.append_assoc]
  · intro t ht
    rcases List.mem_append.1 ht with h | h
    · exact encodeEl_nameIn (by simp) _ t h
    · split at h
      · exact encodeEl_nameIn (by simp) _ t h
      · exact encodeEl_nameIn (by simp) _ t h
      · exact absurd h (List.not_mem_nil _)

theorem enclosure_part_nameIn (it : Item) :
    ∀ t ∈ renderRSS2WithExtensions_enclosure it, Token.nameIn ["enclosure"] t = true := by
  intro t h
  unfold renderRSS2WithExtensions_enclosure at h
  split at h
  · simp only [List.mem_cons, List.mem_singleton, List.not_mem_nil, or_false] at h
    rcases h with rfl | rfl <;> simp [Token.nameIn]
  · exact absurd h (List.not_mem_nil _)

theorem guid_part_nameIn (lib : Lib) (it : Item) :
    ∀ t ∈ renderRSS2WithExtensions_guid lib it, Token.nameIn ["guid"] t = true := by
  intro t h
  unfold renderRSS2WithExtensions_guid at h
  split at h
  · simp only [List.mem_cons, List.mem_singleton, List.not_mem_nil, or_false] at h
    rcases h with rfl | rfl | rfl <;> simp [Token.nameIn]
  · exact absurd h (List.not_mem_nil _)

theorem filterFeedGF_items_some (F : Feed) (C : String) (G : Feed)
    (hG : filterFeedGF F C = some G) : ∀ x ∈ G.Items, x ≠ none := by
  unfold filterFeedGF at hG
  cases hrun : filterFeedGF_run F C with
  | none => simp [hrun] at hG
  | some st =>
    simp only [hrun, Option.map_some', Option.some.injEq] at hG
    subst hG
    obtain ⟨extra, he, hx⟩ := filterFeedGF_loop_items _ _ _ _ hrun
    intro x hxm
    rw [he] at hxm
    simp only [List.nil_append] at hxm
    have hk := hx x hxm
    cases x with
    | none => simp [keeps] at hk
    | some it => exact Option.some_ne_none _

theorem eq_map_some_of_ne_none {α : Type} :
    ∀ l : List (Option α), (∀ x ∈ l, x ≠ none) → l = (l.filterMap id).map some
  | [], _ => rfl
  | none :: _, h => absurd rfl (h none (List.mem_cons_self _ _))
  | some a :: rest, h => by
    have ih := eq_map_some_of_ne_none rest fun x hx => h x (List.mem_cons_of_mem _ hx)
    simp only [List.filterMap_cons, id, List.map_cons]
    rw [← ih]

/-! ## Reading the item fields back -/

theorem fieldText_start_ne (n m : String) (a : List (String × String)) (d : Nat)
    (rest : List Token) (h : m ≠ n) :
    fieldText n d (Token.StartElement m a :: rest) = fieldText n (d + 1) rest := by
  cases d with
  | zero => simp [fieldText, h]
  | succ k => simp [fieldText]

/-- Whole elements without a start tag named `n` are passed over by the search for `n`. -/
theorem fieldText_skip (n : String) :
    ∀ (s : List Token) (st st2 : List String) (d0 : Nat) (r : List Token),
      balance st s = some st2 → (∀ t ∈ s, Token.isStartOf n t = false) →
      fieldText n (d0 + st.length) (s ++ r) = fieldText n (d0 + st2.length) r
  | [], st, st2, d0, r, h, _ => by
    simp only [balance, Option.some.injEq] at h
    simp [h]
  | Token.StartElement m a :: ts, st, st2, d0, r, h, hn => by
    have hm : m ≠ n := by
      simpa [Token.isStartOf] using hn (Token.StartElement m a) (List.mem_cons_self _ _)
    rw [balance] at h
    rw [List.cons_append, fieldText_start_ne n m a _ _ hm]
    exact fieldText_skip n ts (m :: st) st2 d0 r h fun t ht => hn t (List.mem_cons_of_mem _ ht)
  | Token.CharData _ :: ts, [], st2, d0, r, h, _ => by simp [balance] at h
  | Token.CharData _ :: ts, m :: st, st2, d0, r, h, hn => by
    rw [balance] at h
    rw [List.cons_append, fieldText]
    exact fieldText_skip n ts (m :: st) st2 d0 r h fun t ht => hn t (List.mem_cons_of_mem _ ht)
  | Token.EndElement _ :: ts, [], st2, d0, r, h, _ => by simp [balance] at h
  | Token.EndElement k :: ts, m :: st, st2, d0, r, h, hn => by
    rw [balance] at h
    by_cases hk : m = k
    · rw [if_pos hk] at h
      have hd : d0 + (m :: st).length = (d0 + st.length) + 1 := by simp [Nat.add_assoc]
      rw [List.cons_append, hd, fieldText]
      exact fieldText_skip n ts st st2 d0 r h fun t ht => hn t (List.mem_cons_of_mem _ ht)
    · rw [if_neg hk] at h
      exact absurd h (by simp)

/-- A child named `n` after whole elements of other names: its text is what is read. -/
theorem fieldText_found (n v : String) (as : List (String × String)) (pre r : List Token)
    (hb : balance [] pre = some []) (hn : ∀ t ∈ pre, Token.isStartOf n t = false) :
    fieldText n 0 (pre ++ (Token.StartElement n as :: Token.CharData v :: r)) = v := by
  have h := fieldText_skip n pre [] [] 0 (Token.StartElement n as :: Token.CharData v :: r) hb hn
  simp only [List.length_nil, Nat.add_zero] at h
  rw [h]
  simp [fieldText]

/-- No child named `n` before the end tag of the element: the empty string is read. -/
theorem fieldText_absent (n k : String) (s r : List Token)
    (hb : balance [] s = some []) (hn : ∀ t ∈ s, Token.isStartOf n t = false) :
    fieldText n 0 (s ++ (Token.EndElement k :: r)) = "" := by
  have h := fieldText_skip n s [] [] 0 (Token.EndElement k :: r) hb hn
  simp only [List.length_nil, Nat.add_zero] at h
  rw [h]
  simp [fieldText]

/-- Whole elements without an `item` start tag hold no item to read. -/
theorem readItems_skip :
    ∀ (a : List Token) (st st2 : List String) (b : List Token),
      balance st a = some st2 → (∀ t ∈ a, Token.isStartOf "item" t = false) →
      readItems st (a ++ b) = readItems st2 b
  | [], st, st2, b, h, _ => by
    simp only [balance, Option.some.injEq] at h
    simp [h]
  | Token.StartElement m as :: ts, st, st2, b, h, hn => by
    have hm : m ≠ "item" := by
      simpa [Token.isStartOf] using hn (Token.StartElement m as) (List.mem_cons_self _ _)
    rw [balance] at h
    rw [List.cons_append, readItems]
    simp only [hm, false_and, if_false, List.nil_append]
    exact readItems_skip ts (m :: st) st2 b h fun t ht => hn t (List.mem_cons_of_mem _ ht)
  | Token.CharData _ :: ts, [], st2, b, h, _ => by simp [balance] at h
  | Token.CharData _ :: ts, m :: st, st2, b, h, hn => by
    rw [balance] at h
    rw [List.cons_append, readItems]
    exact readItems_skip ts (m :: st) st2 b h fun t ht => hn t (List.mem_cons_of_mem _ ht)
  | Token.EndElement _ :: ts, [], st2, b, h, _ => by simp [balance] at h
  | Token.EndElement k :: ts, m :: st, st2, b, h, hn => by
    rw [balance] at h
    by_cases hk : m = k
    · rw [if_pos hk] at h
      rw [List.cons_append, readItems, List.tail_cons]
      exact readItems_skip ts st st2 b h fun t ht => hn t (List.mem_cons_of_mem _ ht)
    · rw [if_neg hk] at h
      exact absurd h (by simp)

theorem guid_part_balanced (lib : Lib) (it : Item) :
    balance [] (renderRSS2WithExtensions_guid lib it) = some [] := by
  unfold renderRSS2WithExtensions_guid
  split <;> simp [balance]

theorem enclosure_part_balanced (it : Item) :
    balance [] (renderRSS2WithExtensions_enclosure it) = some [] := by
  unfold renderRSS2WithExtensions_enclosure
  split <;> simp [balance]

/-- The item block cut at its title, link and GUID parts, every part a sequence of whole
elements. -/
theorem item_block_parts_balanced (lib : Lib) (it : Item) :
    ∃ mid tail : List Token,
      renderRSS2WithExtensions_item lib (some it) =
        Token.StartElement "item" [] ::
          (encodeEl "title" it.Title ++ (encodeEl "link" it.Link ++ (mid
            ++ (renderRSS2WithExtensions_guid lib it ++ (tail ++ [Token.EndElement "item"]))))) ∧
      balance [] mid = some [] ∧ balance [] tail = some [] ∧
      (∀ t ∈ mid, Token.nameIn ["description", "pubDate"] t = true) ∧
      (∀ t ∈ tail, Token.nameIn ["enclosure"] t = true) := by
  refine ⟨encodeEl "description" (coalesce [it.Description, it.Content])
      ++ (match nonZeroTime? it.PublishedParsed, nonZeroTime? it.UpdatedParsed with
          | some t, _ => encodeEl "pubDate" (lib.formatRFC1123Z t)
          | none, some t => encodeEl "pubDate" (lib.formatRFC1123Z t)
          | none, none => []),
    renderRSS2WithExtensions_enclosure it ++ writeExtensions it.Extensions, ?_, ?_, ?_, ?_, ?_⟩
  · simp [renderRSS2WithExtensions_item, renderRSS2WithExtensions_guid,
      renderRSS2WithExtensions_enclosure, List.append_assoc]
  · refine balance_closed_append (balance_encodeEl _ _) ?_
    split <;> first | exact balance_encodeEl _ _ | rfl
  · exact balance_closed_append (enclosure_part_balanced it) (writeExtensions_balanced _)
  · intro t ht
    rcases List.mem_append.1 ht with h | h
    · exact encodeEl_nameIn (by simp) _ t h
    · split at h
      · exact encodeEl_nameIn (by simp) _ t h
      · exact encodeEl_nameIn (by simp) _ t h
      · exact absurd h (List.not_mem_nil _)
  · intro t ht
    rcases List.mem_append.1 ht with h | h
    · exact enclosure_part_nameIn it t h
    · exact nameIn_of_hasColon _ (writeExtensions_hasColon _ t h)

/-- The value read for the field of an item block: the text of its element when the element
is there, after whole elements of other names. -/
theorem fieldText_part_found (n v k : String) (as : List (String × String))
    (A B R : List Token) (hA : balance [] A = some [])
    (hnA : ∀ t ∈ A, Token.isStartOf n t = false) :
    fieldText n 0
      (A ++ ([Token.StartElement n as, Token.CharData v, Token.EndElement n]
        ++ (B ++ Token.EndElement k :: R))) = v := by
  have h := fieldText_found n v as A (Token.EndElement n :: (B ++ Token.EndElement k :: R)) hA hnA
  simpa using h

/-- The value read for the field of an item block that holds no element of that name. -/
theorem fieldText_part_absent (n k : String) (A B R : List Token)
    (hA : balance [] A = some []) (hnA : ∀ t ∈ A, Token.isStartOf n t = false)
    (hB : balance [] B = some []) (hnB : ∀ t ∈ B, Token.isStartOf n t = false) :
    fieldText n 0 (A ++ ([] ++ (B ++ Token.EndElement k :: R))) = "" := by
  have h := fieldText_absent n k (A ++ B) R (balance_closed_append hA hB) (by
    intro t ht
    rcases List.mem_append.1 ht with h | h
    · exact hnA t h
    · exact hnB t h)
  simpa [List.append_assoc] using h

/-- Reading one item block back: each of title, link and GUID is read as the field itself
when the field is not blank, and as the empty string when it is. -/
theorem item_block_read (lib : Lib) (it : Item) :
    ∃ inner : List Token,
      renderRSS2WithExtensions_item lib (some it)
        = Token.StartElement "item" [] :: (inner ++ [Token.EndElement "item"]) ∧
      balance [] inner = some [] ∧
      (∀ t ∈ inner, Token.isStartOf "item" t = false) ∧
      ∀ R : List Token,
        fieldText "title" 0 (inner ++ Token.EndElement "item" :: R)
          = (if TrimSpace it.Title = "" then "" else it.Title) ∧
        fieldText "link" 0 (inner ++ Token.EndElement "item" :: R)
          = (if TrimSpace it.Link = "" then "" else it.Link) ∧
        fieldText "guid" 0 (inner ++ Token.EndElement "item" :: R)
          = (if TrimSpace it.GUID = "" then "" else it.GUID) := by
  obtain ⟨mid, tail, hparts, hbm, hbt, hnm, hnt⟩ := item_block_parts_balanced lib it
  have hbT := balance_encodeEl "title" it.Title
  have hbL := balance_encodeEl "link" it.Link
  have hbG := guid_part_balanced lib it
  have hnT : ∀ t ∈ encodeEl "title" it.Title, Token.nameIn ["title"] t = true :=
    encodeEl_nameIn (by simp) _
  have hnL : ∀ t ∈ encodeEl "link" it.Link, Token.nameIn ["link"] t = true :=
    encodeEl_nameIn (by simp) _
  have hnG := guid_part_nameIn lib it
  refine ⟨encodeEl "title" it.Title ++ (encodeEl "link" it.Link ++ (mid
      ++ (renderRSS2WithExtensions_guid lib it ++ tail))), ?_, ?_, ?_, ?_⟩
  · rw [hparts]
    simp only [List.append_assoc]
  · exact balance_closed_append hbT (balance_closed_append hbL (balance_closed_append hbm
      (balance_closed_append hbG hbt)))
  · intro t ht
    have hin : Token.nameIn
        ["title", "link", "description", "pubDate", "guid", "enclosure"] t = true := by
      rcases List.mem_append.1 ht with h | h
      · exact nameIn_mono (by decide) (hnT t h)
      rcases List.mem_append.1 h with h | h
      · exact nameIn_mono (by decide) (hnL t h)
      rcases List.mem_append.1 h with h | h
      · exact nameIn_mono (by decide) (hnm t h)
      rcases List.mem_append.1 h with h | h
      · exact nameIn_mono (by decide) (hnG t h)
      · exact nameIn_mono (by decide) (hnt t h)
    exact isStartOf_of_nameIn (by decide) (by decide) hin
  · intro R
    refine ⟨?_, ?_, ?_⟩
    · -- title
      have hrest : ∀ t ∈ encodeEl "link" it.Link ++ (mid
          ++ (renderRSS2WithExtensions_guid lib it ++ tail)),
          Token.isStartOf "title" t = false := by
        intro t ht
        have hin : Token.nameIn
            ["link", "description", "pubDate", "guid", "enclosure"] t = true := by
          rcases List.mem_append.1 ht with h | h
          · exact nameIn_mono (by decide) (hnL t h)
          rcases List.mem_append.1 h with h | h
          · exact nameIn_mono (by decide) (hnm t h)
          rcases List.mem_append.1 h with h | h
          · exact nameIn_mono (by decide) (hnG t h)
          · exact nameIn_mono (by decide) (hnt t h)
        exact isStartOf_of_nameIn (by decide) (by decide) hin
      have hbrest := balance_closed_append hbL (balance_closed_append hbm
        (balance_closed_append hbG hbt))
      by_cases hT : TrimSpace it.Title = ""
      · rw [if_pos hT, encodeEl_of_blank _ _ hT]
        have h := fieldText_part_absent "title" "item" [] _ R rfl
          (fun t ht => absurd ht (List.not_mem_nil _)) hbrest hrest
        simpa [List.append_assoc] using h
      · rw [if_neg hT, encodeEl_of_nonBlank _ _ hT]
        have h := fieldText_part_found "title" it.Title "item" [] []
          (encodeEl "link" it.Link ++ (mid
            ++ (renderRSS2WithExtensions_guid lib it ++ tail))) R rfl
          (fun t ht => absurd ht (List.not_mem_nil _))
        simpa [List.append_assoc] using h
    · -- link
      have hpre : ∀ t ∈ encodeEl "title" it.Title, Token.isStartOf "link" t = false :=
        fun t ht => isStartOf_of_nameIn (by decide) (by decide) (hnT t ht)
      have hrest : ∀ t ∈ mid ++ (renderRSS2WithExtensions_guid lib it ++ tail),
          Token.isStartOf "link" t = false := by
        intro t ht
        have hin : Token.nameIn ["description", "pubDate", "guid", "enclosure"] t = true := by
          rcases List.mem_append.1 ht with h | h
          · exact nameIn_mono (by decide) (hnm t h)
          rcases List.mem_append.1 h with h | h
          · exact nameIn_mono (by decide) (hnG t h)
          · exact nameIn_mono (by decide) (hnt t h)
        exact isStartOf_of_nameIn (by decide) (by decide) hin
      have hbrest := balance_closed_append hbm (balance_closed_append hbG hbt)
      by_cases hL : TrimSpace it.Link = ""
      · rw [if_pos hL, encodeEl_of_blank _ _ hL]
        have h := fieldText_part_absent "link" "item" (encodeEl "title" it.Title) _ R hbT hpre
          hbrest hrest
        simpa [List.append_assoc] using h
      · rw [if_neg hL, encodeEl_of_nonBlank _ _ hL]
        have h := fieldText_part_found "link" it.Link "item" [] (encodeEl "title" it.Title)
          (mid ++ (renderRSS2WithExtensions_guid lib it ++ tail)) R hbT hpre
        simpa [List.append_assoc] using h
    · -- guid
      have hpre : ∀ t ∈ encodeEl "title" it.Title ++ (encodeEl "link" it.Link ++ mid),
          Token.isStartOf "guid" t = false := by
        intro t ht
        have hin : Token.nameIn ["title", "link", "description", "pubDate"] t = true := by
          rcases List.mem_append.1 ht with h | h
          · exact nameIn_mono (by decide) (hnT t h)
          rcases List.mem_append.1 h with h | h
          · exact nameIn_mono (by decide) (hnL t h)
          · exact nameIn_mono (by decide) (hnm t h)
        exact isStartOf_of_nameIn (by decide) (by decide) hin
      have hrest : ∀ t ∈ tail, Token.isStartOf "guid" t = false :=
        fun t ht => isStartOf_of_nameIn (by decide) (by decide) (hnt t ht)
      have hbpre := balance_closed_append hbT (balance_closed_append hbL hbm)
      by_cases hGd : TrimSpace it.GUID = ""
      · have hg : renderRSS2WithExtensions_guid lib it = [] := by
          rw [renderRSS2WithExtensions_guid, if_neg]
          rw [(nonBlank_eq_false_iff_trim _).2 hGd]
          exact Bool.false_ne_true
        rw [if_pos hGd, hg]
        have h := fieldText_part_absent "guid" "item" _ tail R hbpre hpre hbt hrest
        simpa [List.append_assoc] using h
      · have hg : ∃ as, renderRSS2WithExtensions_guid lib it =
            [Token.StartElement "guid" as, Token.CharData it.GUID, Token.EndElement "guid"] := by
          rw [renderRSS2WithExtensions_guid, if_pos ((nonBlank_eq_true_iff _).2 hGd)]
          exact ⟨_, rfl⟩
        obtain ⟨as, hg⟩ := hg
        rw [if_neg hGd, hg]
        have h := fieldText_part_found "guid" it.GUID "item" as _ tail R hbpre hpre
        simpa [List.append_assoc] using h

/-- Reading the item blocks of a list of items, one after the other. -/
theorem readItems_blocks (lib : Lib) (R : List Token) :
    ∀ items : List Item,
      readItems ["channel", "rss"]
          ((items.flatMap fun it => renderRSS2WithExtensions_item lib (some it)) ++ R)
        = (items.map fun it =>
            ((if TrimSpace it.Title = "" then "" else it.Title),
              (if TrimSpace it.Link = "" then "" else it.Link),
              (if TrimSpace it.GUID = "" then "" else it.GUID)))
          ++ readItems ["channel", "rss"] R
  | [] => by simp
  | it :: rest => by
    obtain ⟨inner, hblock, hb, hn, hread⟩ := item_block_read lib it
    obtain ⟨h1, h2, h3⟩ := hread
      ((rest.flatMap fun it => renderRSS2WithExtensions_item lib (some it)) ++ R)
    have ih := readItems_blocks lib R rest
    have hskip := readItems_skip inner ("item" :: ["channel", "rss"]) ("item" :: ["channel", "rss"])
      (Token.EndElement "item" ::
        ((rest.flatMap fun it => renderRSS2WithExtensions_item lib (some it)) ++ R))
      (balance_of_closed hb _) hn
    rw [List.flatMap_cons, hblock]
    simp only [List.cons_append, List.append_assoc, List.singleton_append, List.nil_append]
    rw [readItems, hskip, readItems, List.tail_cons, ih, h1, h2, h3]
    simp

/-- Reading a whole document back: the channel fields before the items hold no item, and
every item block gives its three fields. -/
theorem readItems_document (lib : Lib) (attrs : List (String × String)) (head : List Token)
    (items : List Item) (hb : balance [] head = some [])
    (hn : ∀ t ∈ head, Token.isStartOf "item" t = false) :
    readItems []
        ([Token.StartElement "rss" attrs, Token.StartElement "channel" []]
          ++ (head ++ items.flatMap fun it => renderRSS2WithExtensions_item lib (some it))
          ++ [Token.EndElement "channel", Token.EndElement "rss"])
      = items.map fun it =>
          ((if TrimSpace it.Title = "" then "" else it.Title),
            (if TrimSpace it.Link = "" then "" else it.Link),
            (if TrimSpace it.GUID = "" then "" else it.GUID)) := by
  have hskip := readItems_skip head ["channel", "rss"] ["channel", "rss"]
    ((items.flatMap fun it => renderRSS2WithExtensions_item lib (some it))
      ++ [Token.EndElement "channel", Token.EndElement "rss"])
    (balance_of_closed hb _) hn
  have hblocks := readItems_blocks lib [Token.EndElement "channel", Token.EndElement "rss"] items
  simp only [List.cons_append, List.append_assoc, List.nil_append]
  rw [readItems, readItems, hskip, hblocks]
  simp [readItems]

/-- The document written for a feed whose items are all present, cut into its parts. -/
theorem render_document_shape (lib : Lib) (G : Feed) (hsome : ∀ x ∈ G.Items, x ≠ none) :
    ∃ head : List Token,
      renderRSS2WithExtensions lib G =
        [Token.StartElement "rss"
            ([("version", "2.0")] ++ (collectPrefixes G).filterMap fun p =>
              (rssNS.lookup p).map fun uri => ("xmlns:" ++ p, uri)),
          Token.StartElement "channel" []]
          ++ (head ++ (G.Items.filterMap id).flatMap fun it =>
            renderRSS2WithExtensions_item lib (some it))
          ++ [Token.EndElement "channel", Token.EndElement "rss"] ∧
      balance [] head = some [] ∧
      ∀ t ∈ head, Token.isStartOf "item" t = false := by
  have hitems := eq_map_some_of_ne_none G.Items hsome
  obtain ⟨head, hb, hbal, hn⟩ := channel_head_shape lib G
  refine ⟨head, ?_, hbal, ?_⟩
  · have hfm : G.Items.flatMap (renderRSS2WithExtensions_item lib)
        = (G.Items.filterMap id).flatMap fun it =>
            renderRSS2WithExtensions_item lib (some it) := by
      conv_lhs => rw [hitems]
      rw [List.flatMap_map]
    rw [← hfm, ← hb]
    rfl
  · intro t ht
    exact isStartOf_of_nameIn (by decide) (by decide) (hn t ht)

theorem itemFields_of_map_some (G : Feed) (items : List Item) (h : G.Items = items.map some) :
    itemFields G = items.map fun it => (it.Title, it.Link, it.GUID) := by
  unfold itemFields
  rw [h, List.filterMap_map]
  clear h
  induction items with
  | nil => rfl
  | cons a rest ih =>
    simp only [List.filterMap_cons, Function.comp, Option.map_some', List.map_cons]
    rw [← ih]

/-- C11 (as stated). The item of `blankGuidFeed` has a GUID of one space.  The feed passes the
filter unchanged, its output holds no `<guid>` start tag, and reading the output back gives
the empty string for the GUID: the titles, links and GUIDs read back are not those of the
model. -/
theorem render_blank_guid_lost :
    filterFeedGF blankGuidFeed "zavtracast" = some blankGuidFeed ∧
    itemFields blankGuidFeed = [("Выпуск 2", "https://example.org/2", " ")] ∧
    (renderRSS2WithExtensions sampleLib blankGuidFeed).any (Token.isStartOf "guid") = false ∧
    readItems [] (renderRSS2WithExtensions sampleLib blankGuidFeed)
      = [("Выпуск 2", "https://example.org/2", "")] ∧
    readItems [] (renderRSS2WithExtensions sampleLib blankGuidFeed)
      ≠ itemFields blankGuidFeed := by
  refine ⟨rfl, rfl, rfl, rfl, ?_⟩
  decide

/-- C11 (amended). For a filtered feed `G` the output is `<rss>`, `<channel>`, the channel
fields, then one `<item>` block per item of `G` in the order of `G.Items`, then the two end
tags.  In the block of an item, each of Title, Link and GUID that is non-blank is written as
one `<title>`, `<link>` or `<guid>` element whose text is exactly the field, a blank field is
written as no element, and the block has no other start tag of these names.  Reading the
output back gives, item by item in the same order, each field itself when it is non-blank and
the empty string when it is blank.  So when no Title, Link or GUID of `G` is whitespace-only,
that is blank without being empty, the titles, links and GUIDs read back are exactly those of
the model. -/
theorem render_item_fields (lib : Lib) (F : Feed) (C : String) (G : Feed)
    (hG : filterFeedGF F C = some G) :
    (∃ (items : List Item) (attrs : List (String × String)) (head : List Token),
      G.Items = items.map some ∧
      renderRSS2WithExtensions lib G =
        [Token.StartElement "rss" attrs, Token.StartElement "channel" []]
          ++ (head ++ items.flatMap fun it => renderRSS2WithExtensions_item lib (some it))
          ++ [Token.EndElement "channel", Token.EndElement "rss"] ∧
      (∀ t ∈ head, Token.isStartOf "item" t = false) ∧
      (∀ it ∈ items, ∃ titlePart linkPart mid guidPart tail : List Token,
        renderRSS2WithExtensions_item lib (some it) =
          [Token.StartElement "item" []] ++ titlePart ++ linkPart ++ mid ++ guidPart ++ tail
            ++ [Token.EndElement "item"] ∧
        (TrimSpace it.Title ≠ "" → titlePart =
          [Token.StartElement "title" [], Token.CharData it.Title, Token.EndElement "title"]) ∧
        (TrimSpace it.Title = "" → titlePart = []) ∧
        (TrimSpace it.Link ≠ "" → linkPart =
          [Token.StartElement "link" [], Token.CharData it.Link, Token.EndElement "link"]) ∧
        (TrimSpace it.Link = "" → linkPart = []) ∧
        (TrimSpace it.GUID ≠ "" → ∃ as, guidPart =
          [Token.StartElement "guid" as, Token.CharData it.GUID, Token.EndElement "guid"]) ∧
        (TrimSpace it.GUID = "" → guidPart = []) ∧
        (∀ t ∈ mid ++ tail, Token.isStartOf "title" t = false ∧
          Token.isStartOf "link" t = false ∧ Token.isStartOf "guid" t = false ∧
          Token.isStartOf "item" t = false)) ∧
      readItems [] (renderRSS2WithExtensions lib G) = items.map fun it =>
        ((if TrimSpace it.Title = "" then "" else it.Title),
          (if TrimSpace it.Link = "" then "" else it.Link),
          (if TrimSpace it.GUID = "" then "" else it.GUID))) ∧
    ((∀ it : Item, some it ∈ G.Items →
        (TrimSpace it.Title = "" → it.Title = "") ∧ (TrimSpace it.Link = "" → it.Link = "") ∧
        (TrimSpace it.GUID = "" → it.GUID = "")) →
      readItems [] (renderRSS2WithExtensions lib G) = itemFields G) := by
  have hsome := filterFeedGF_items_some F C G hG
  have hitems := eq_map_some_of_ne_none G.Items hsome
  obtain ⟨head, hdoc, hbal, hn⟩ := render_document_shape lib G hsome
  have hread : readItems [] (renderRSS2WithExtensions lib G) =
      (G.Items.filterMap id).map fun it =>
        ((if TrimSpace it.Title = "" then "" else it.Title),
          (if TrimSpace it.Link = "" then "" else it.Link),
          (if TrimSpace it.GUID = "" then "" else it.GUID)) := by
    rw [hdoc]
    exact readItems_document lib _ head _ hbal hn
  refine ⟨⟨G.Items.filterMap id, _, head, hitems, hdoc, hn, ?_, hread⟩, ?_⟩
  · intro it _
    obtain ⟨mid, hparts, hmid⟩ := item_block_parts lib it
    refine ⟨encodeEl "title" it.Title, encodeEl "link" it.Link, mid,
      renderRSS2WithExtensions_guid lib it,
      renderRSS2WithExtensions_enclosure it ++ writeExtensions it.Extensions, ?_,
      encodeEl_of_nonBlank _ _, encodeEl_of_blank _ _, encodeEl_of_nonBlank _ _,
      encodeEl_of_blank _ _, ?_, ?_, ?_⟩
    · rw [hparts]
      simp only [List.append_assoc]
    · intro h
      rw [renderRSS2WithExtensions_guid, if_pos ((nonBlank_eq_true_iff _).2 h)]
      exact ⟨_, rfl⟩
    · intro h
      rw [renderRSS2WithExtensions_guid, if_neg]
      rw [(nonBlank_eq_false_iff_trim _).2 h]
      exact Bool.false_ne_true
    · intro t ht
      have hin : Token.nameIn ["description", "pubDate", "enclosure"] t = true := by
        rcases List.mem_append.1 ht with h | h
        · exact nameIn_mono (by decide) (hmid t h)
        · rcases List.mem_append.1 h with h2 | h2
          · exact nameIn_mono (by decide) (enclosure_part_nameIn it t h2)
          · exact nameIn_of_hasColon _ (writeExtensions_hasColon _ t h2)
      exact ⟨isStartOf_of_nameIn (by decide) (by decide) hin,
        isStartOf_of_nameIn (by decide) (by decide) hin,
        isStartOf_of_nameIn (by decide) (by decide) hin,
        isStartOf_of_nameIn (by decide) (by decide) hin⟩
  · intro hclean
    rw [hread, itemFields_of_map_some G _ hitems]
    apply List.map_congr_left
    intro it hit
    have hmem : some it ∈ G.Items := by
      rw [hitems]
      exact List.mem_map_of_mem some hit
    obtain ⟨h1, h2, h3⟩ := hclean it hmem
    have keep : ∀ s : String, (TrimSpace s = "" → s = "") →
        (if TrimSpace s = "" then "" else s) = s := by
      intro s hs
      by_cases h : TrimSpace s = ""
      · rw [if_pos h, hs h]
      · rw [if_neg h]
    rw [keep _ h1, keep _ h2, keep _ h3]

/-- C11 (amended) on two feeds.  `noGuidFeed`, whose item has an empty GUID, passes the filter
unchanged and reads back with the titles, links and GUIDs of the model.  `sdzFeed` filtered
for "sdz" gives one item block, whose title and GUID are written and whose empty link is
not, and reads back with the fields of the model as well. -/
theorem render_item_fields_witness :
    (filterFeedGF noGuidFeed "zavtracast" = some noGuidFeed ∧
      itemFields noGuidFeed = [("Выпуск 1", "https://example.org/1", "")] ∧
      readItems [] (renderRSS2WithExtensions sampleLib noGuidFeed) = itemFields noGuidFeed) ∧
    (filterFeedGF sdzFeed "sdz" = some sdzFeed ∧
      renderRSS2WithExtensions_channel sampleLib sdzFeed =
        [Token.StartElement "title" [], Token.CharData "Podcast", Token.EndElement "title",
          Token.StartElement "link" [], Token.CharData "https://example.org/",
          Token.EndElement "link",
          Token.StartElement "description" [], Token.CharData "Podcast",
          Token.EndElement "description",
          Token.StartElement "item" [],
          Token.StartElement "title" [], Token.CharData "СДЗ: Episode 1",
          Token.EndElement "title",
          Token.StartElement "guid" [("isPermaLink", "false")], Token.CharData "ep-1",
          Token.EndElement "guid",
          Token.EndElement "item"] ∧
      readItems [] (renderRSS2WithExtensions sampleLib sdzFeed) = itemFields sdzFeed) :=
  ⟨⟨rfl, rfl,
      (render_item_fields sampleLib noGuidFeed "zavtracast" noGuidFeed rfl).2 fun it h => by
        have hit := Option.some.inj (List.mem_singleton.1 h)
        subst hit
        exact ⟨by decide, by decide, by decide⟩⟩,
    ⟨rfl, rfl,
      (render_item_fields sampleLib sdzFeed "sdz" sdzFeed rfl).2 fun it h => by
        have hit := Option.some.inj (List.mem_singleton.1 h)
        subst hit
        exact ⟨by decide, by decide, by decide⟩⟩⟩

/-! ## Blank values -/

theorem FieldsFilled_nil (names : List String) : FieldsFilled names [] := by
  intro pre n as post h
  simp at h

theorem FieldsFilled_append {names : List String} {a b : List Token}
    (ha : FieldsFilled names a) (hb : FieldsFilled names b) : FieldsFilled names (a ++ b) := by
  intro pre n as post h hn
  rcases List.append_eq_append_iff.1 h with ⟨a2, h1, h2⟩ | ⟨c2, h1, h2⟩
  · -- `pre = a ++ a2`, the start tag lies in `b`
    exact hb a2 n as post h2 hn
  · -- `a = pre ++ c2`
    cases c2 with
    | nil =>
      simp only [List.nil_append] at h2
      exact hb [] n as post (by simpa using h2.symm) hn
    | cons c cs =>
      simp only [List.cons_append, List.cons.injEq] at h2
      obtain ⟨hc, hpost⟩ := h2
      subst hc
      obtain ⟨v, post2, hp, hv⟩ := ha pre n as cs h1 hn
      subst hp
      exact ⟨v, post2 ++ b, by simpa using hpost, hv⟩

theorem FieldsFilled_flatMap {α : Type} {names : List String} (f : α → List Token) :
    ∀ l : List α, (∀ x ∈ l, FieldsFilled names (f x)) → FieldsFilled names (l.flatMap f)
  | [], _ => FieldsFilled_nil names
  | x :: xs, h => by
    rw [List.flatMap_cons]
    exact FieldsFilled_append (h x (List.mem_cons_self _ _))
      (FieldsFilled_flatMap f xs fun y hy => h y (List.mem_cons_of_mem _ hy))

/-- A sequence without start tags of the given names has nothing to check. -/
theorem FieldsFilled_of_no_start {names : List String} {l : List Token}
    (h : ∀ t ∈ l, ∀ n ∈ names, Token.isStartOf n t = false) : FieldsFilled names l := by
  intro pre n as post hl hn
  have hmem : Token.StartElement n as ∈ l := by
    rw [hl]
    simp
  have := h _ hmem n hn
  simp [Token.isStartOf] at this

theorem FieldsFilled_encodeEl (names : List String) (name value : String) :
    FieldsFilled names (encodeEl name value) := by
  by_cases hv : TrimSpace value = ""
  · rw [encodeEl_of_blank _ _ hv]
    exact FieldsFilled_nil names
  · rw [encodeEl_of_nonBlank _ _ hv]
    intro pre n as post h _
    cases pre with
    | nil =>
      simp only [List.nil_append, List.cons.injEq, Token.StartElement.injEq] at h
      obtain ⟨⟨hn, _⟩, hpost⟩ := h
      subst hn
      exact ⟨value, [], hpost.symm, hv⟩
    | cons p ps =>
      exfalso
      simp only [List.cons_append, List.cons.injEq] at h
      obtain ⟨_, h2⟩ := h
      cases ps with
      | nil => simp at h2
      | cons q qs =>
        simp only [List.cons_append, List.cons.injEq] at h2
        obtain ⟨_, h3⟩ := h2
        cases qs with
        | nil => simp at h3
        | cons r rs => simp at h3

theorem FieldsFilled_of_nameIn {names ns : List String} {l : List Token}
    (hdisj : ∀ n ∈ names, n ∉ ns ∧ ':' ∉ n.data)
    (h : ∀ t ∈ l, Token.nameIn ns t = true) : FieldsFilled names l :=
  FieldsFilled_of_no_start fun t ht n hn =>
    isStartOf_of_nameIn (hdisj n hn).1 (hdisj n hn).2 (h t ht)

theorem FieldsFilled_singleton_other {names : List String} (t : Token)
    (h : ∀ n ∈ names, Token.isStartOf n t = false) : FieldsFilled names [t] :=
  FieldsFilled_of_no_start fun u hu n hn => by
    rw [List.mem_singleton.1 hu]
    exact h n hn

theorem FieldsFilled_item (lib : Lib) (it : Option Item) :
    FieldsFilled ["title", "link", "description", "language", "pubDate", "lastBuildDate", "url"]
      (renderRSS2WithExtensions_item lib it) := by
  cases it with
  | none => exact FieldsFilled_nil _
  | some it =>
    unfold renderRSS2WithExtensions_item
    refine FieldsFilled_append (FieldsFilled_append (FieldsFilled_append (FieldsFilled_append
      (FieldsFilled_append (FieldsFilled_append (FieldsFilled_append (FieldsFilled_append
        ?_ (FieldsFilled_encodeEl _ _ _)) (FieldsFilled_encodeEl _ _ _))
        (FieldsFilled_encodeEl _ _ _)) ?_) ?_) ?_) ?_) ?_
    · exact FieldsFilled_singleton_other _ (by decide)
    · split
      · exact FieldsFilled_encodeEl _ _ _
      · exact FieldsFilled_encodeEl _ _ _
      · exact FieldsFilled_nil _
    · exact @FieldsFilled_of_nameIn _ ["guid"] _ (by decide) (guid_part_nameIn lib it)
    · exact @FieldsFilled_of_nameIn _ ["enclosure"] _ (by decide) (enclosure_part_nameIn it)
    · exact @FieldsFilled_of_nameIn _ [] _ (by decide)
        fun t ht => nameIn_of_hasColon _ (writeExtensions_hasColon _ t ht)
    · exact FieldsFilled_singleton_other _ (by decide)

theorem FieldsFilled_channel (lib : Lib) (f : Feed) :
    FieldsFilled ["title", "link", "description", "language", "pubDate", "lastBuildDate", "url"]
      (renderRSS2WithExtensions_channel lib f) := by
  unfold renderRSS2WithExtensions_channel
  refine FieldsFilled_append (FieldsFilled_append (FieldsFilled_append (FieldsFilled_append
    (FieldsFilled_append (FieldsFilled_append (FieldsFilled_append (FieldsFilled_append
      (FieldsFilled_encodeEl _ _ _) (FieldsFilled_encodeEl _ _ _))
      (FieldsFilled_encodeEl _ _ _)) ?_) ?_) ?_) ?_) ?_)
    (FieldsFilled_flatMap _ _ fun it _ => FieldsFilled_item lib it)
  · split
    · exact FieldsFilled_encodeEl _ _ _
    · exact FieldsFilled_nil _
  · split
    · exact FieldsFilled_encodeEl _ _ _
    · exact FieldsFilled_nil _
  · split
    · exact FieldsFilled_encodeEl _ _ _
    · exact FieldsFilled_nil _
  · split
    · split
      · exact FieldsFilled_append (FieldsFilled_append (FieldsFilled_append
          (FieldsFilled_append (FieldsFilled_singleton_other _ (by decide))
            (FieldsFilled_encodeEl _ _ _)) (FieldsFilled_encodeEl _ _ _))
          (FieldsFilled_encodeEl _ _ _)) (FieldsFilled_singleton_other _ (by decide))
      · exact FieldsFilled_nil _
    · exact FieldsFilled_nil _
  · exact @FieldsFilled_of_nameIn _ [] _ (by decide)
      fun t ht => nameIn_of_hasColon _ (writeExtensions_hasColon _ t ht)

/-- C12 (as stated). The output for `sdzFeed` with the "sdz" image override holds the element
`itunes:image`, whose start tag is directly followed by its end tag: an element other than
guid and enclosure with neither children nor text.  The output for the zero feed holds
`<channel>` directly followed by `</channel>`. -/
theorem render_empty_elements :
    [Token.StartElement "itunes:image" [("href", "https://example.org/sdz.png")],
        Token.EndElement "itunes:image"]
      <:+: renderRSS2WithExtensions sampleLib (applyTypeMetaGF sdzFeed "sdz" sampleCfg) ∧
    renderRSS2WithExtensions sampleLib Feed.zero =
      [Token.StartElement "rss" [("version", "2.0")], Token.StartElement "channel" [],
        Token.EndElement "channel", Token.EndElement "rss"] := by
  constructor
  · refine ⟨List.take 22 (renderRSS2WithExtensions sampleLib
      (applyTypeMetaGF sdzFeed "sdz" sampleCfg)), List.drop 24 (renderRSS2WithExtensions sampleLib
      (applyTypeMetaGF sdzFeed "sdz" sampleCfg)), ?_⟩
    rfl
  · rfl

/-- C12 (amended). A channel or item field written by `encodeEl` with a blank value produces
no token at all and with a non-blank value its start tag, the value as text and its end tag;
in every output each start tag named title, link, description, language, pubDate,
lastBuildDate or url is directly followed by non-blank text and its end tag.  Extension
elements are written whatever their content: one with a blank value and no children is its
start tag directly followed by its end tag. -/
theorem render_blank_values (lib : Lib) (f : Feed) :
    (∀ name value : String, TrimSpace value = "" → encodeEl name value = []) ∧
    (∀ name value : String, TrimSpace value ≠ "" → encodeEl name value =
      [Token.StartElement name [], Token.CharData value, Token.EndElement name]) ∧
    (∀ (pre : List Token) (n : String) (as : List (String × String)) (post : List Token),
      renderRSS2WithExtensions lib f = pre ++ Token.StartElement n as :: post →
      n ∈ ["title", "link", "description", "language", "pubDate", "lastBuildDate", "url"] →
      ∃ (v : String) (post2 : List Token),
        post = Token.CharData v :: Token.EndElement n :: post2 ∧ TrimSpace v ≠ "") ∧
    (∀ (pfx name value : String) (as : List (String × String)), TrimSpace value = "" →
      writeExtension pfx (Extension.mk name value as []) =
        [Token.StartElement (pfx ++ ":" ++ name) as, Token.EndElement (pfx ++ ":" ++ name)]) := by
  refine ⟨fun name value h => encodeEl_of_blank name value h,
    fun name value h => encodeEl_of_nonBlank name value h, ?_, ?_⟩
  · have h : FieldsFilled
        ["title", "link", "description", "language", "pubDate", "lastBuildDate", "url"]
        (renderRSS2WithExtensions lib f) := by
      unfold renderRSS2WithExtensions
      refine FieldsFilled_append (FieldsFilled_append ?_ (FieldsFilled_channel lib f)) ?_
      · exact @FieldsFilled_of_nameIn _ ["rss", "channel"] _ (by decide) (by
          intro t ht
          simp only [renderRSS2WithExtensions_rssStart, List.mem_cons, List.mem_singleton,
            List.not_mem_nil, or_false] at ht
          rcases ht with rfl | rfl <;> simp [Token.nameIn])
      · exact @FieldsFilled_of_nameIn _ ["rss", "channel"] _ (by decide) (by
          intro t ht
          simp only [List.mem_cons, List.mem_singleton, List.not_mem_nil, or_false] at ht
          rcases ht with rfl | rfl <;> simp [Token.nameIn])
    exact h
  · intro pfx name value as hv
    rw [writeExtension_eq]
    simp [(nonBlank_eq_false_iff_trim value).2 hv, sortStrings]

/-! ## The GUID element -/

theorem isPrefixOf_map_lower (lib : Lib)
    (hlib : ∀ c : Char, 0x80 ≤ c.toNat →
      lib.toLowerTable c ∉ ['h', 't', 'p', 's', ':', '/']) :
    ∀ (p l : List Char), (∀ a ∈ p, a ∈ ['h', 't', 'p', 's', ':', '/']) →
      p.isPrefixOf (l.map fun c =>
        if c.toNat < 0x80 then
          if 0x41 ≤ c.toNat ∧ c.toNat ≤ 0x5A then Char.ofNat (c.toNat + 0x20) else c
        else lib.toLowerTable c)
      = p.isPrefixOf (l.map foldASCII)
  | [], l, _ => by simp
  | _ :: _, [], _ => by simp [List.isPrefixOf]
  | a :: p, c :: l, hp => by
    have ha := hp a (List.mem_cons_self _ _)
    have ih := isPrefixOf_map_lower lib hlib p l fun b hb => hp b (List.mem_cons_of_mem _ hb)
    simp only [List.map_cons, List.isPrefixOf, ih]
    congr 1
    by_cases hc : c.toNat < 0x80
    · simp [hc, foldASCII]
    · have hge : 0x80 ≤ c.toNat := Nat.le_of_not_lt hc
      have h1 : a ≠ lib.toLowerTable c := fun e => hlib c hge (e ▸ ha)
      have h2 : foldASCII c = c := by
        unfold foldASCII
        rw [if_neg]
        omega
      have h3 : a ≠ c := by
        rintro rfl
        simp only [List.mem_cons, List.mem_singleton, List.not_mem_nil, or_false] at ha
        rcases ha with rfl | rfl | rfl | rfl | rfl | rfl <;> exact absurd hge (by decide)
      simp [hc, h1, h2, h3]

/-- The prefix tests of the GUID step are case-insensitive prefix tests, provided the case
table sends no rune above ASCII to a letter or sign of "https://". -/
theorem hasPrefix_ToLower (lib : Lib)
    (hlib : ∀ c : Char, 0x80 ≤ c.toNat →
      lib.toLowerTable c ∉ ['h', 't', 'p', 's', ':', '/'])
    (s : String) :
    hasPrefix (ToLower lib s) "http://" = hasPrefixFold s "http://" ∧
    hasPrefix (ToLower lib s) "https://" = hasPrefixFold s "https://" := by
  constructor
  · exact isPrefixOf_map_lower lib hlib "http://".data s.data (by decide)
  · exact isPrefixOf_map_lower lib hlib "https://".data s.data (by decide)

/-- C13. The item block holds a `<guid>` element exactly when the GUID is non-blank; the
element is written once, its text is the GUID unchanged, and its attributes are
`isPermaLink="false"` when the GUID, compared without regard to case, starts with neither
"http://" nor "https://", and none otherwise.  The case table of the library is assumed to
send no rune above ASCII to a letter or sign of "https://", as Unicode does. -/
theorem guid_element (lib : Lib) (it : Item)
    (hlib : ∀ c : Char, 0x80 ≤ c.toNat →
      lib.toLowerTable c ∉ ['h', 't', 'p', 's', ':', '/']) :
    (∃ pre post : List Token,
      renderRSS2WithExtensions_item lib (some it)
        = pre ++ renderRSS2WithExtensions_guid lib it ++ post ∧
      ∀ t ∈ pre ++ post, Token.isStartOf "guid" t = false) ∧
    ((∃ t ∈ renderRSS2WithExtensions_item lib (some it), Token.isStartOf "guid" t = true)
      ↔ TrimSpace it.GUID ≠ "") ∧
    (TrimSpace it.GUID = "" → renderRSS2WithExtensions_guid lib it = []) ∧
    (TrimSpace it.GUID ≠ "" →
      ∃ as : List (String × String),
        renderRSS2WithExtensions_guid lib it =
          [Token.StartElement "guid" as, Token.CharData it.GUID, Token.EndElement "guid"] ∧
        (hasPrefixFold it.GUID "http://" = false ∧ hasPrefixFold it.GUID "https://" = false →
          as = [("isPermaLink", "false")]) ∧
        (hasPrefixFold it.GUID "http://" = true ∨ hasPrefixFold it.GUID "https://" = true →
          as = [])) := by
  obtain ⟨h1, h2⟩ := hasPrefix_ToLower lib hlib it.GUID
  obtain ⟨mid, hparts, hmid⟩ := item_block_parts lib it
  have hblank : TrimSpace it.GUID = "" → renderRSS2WithExtensions_guid lib it = [] := by
    intro h
    simp [renderRSS2WithExtensions_guid, (nonBlank_eq_false_iff_trim _).2 h]
  have hfull : TrimSpace it.GUID ≠ "" →
      ∃ as : List (String × String),
        renderRSS2WithExtensions_guid lib it =
          [Token.StartElement "guid" as, Token.CharData it.GUID, Token.EndElement "guid"] ∧
        (hasPrefixFold it.GUID "http://" = false ∧ hasPrefixFold it.GUID "https://" = false →
          as = [("isPermaLink", "false")]) ∧
        (hasPrefixFold it.GUID "http://" = true ∨ hasPrefixFold it.GUID "https://" = true →
          as = []) := by
    intro h
    refine ⟨_, by rw [renderRSS2WithExtensions_guid, if_pos ((nonBlank_eq_true_iff _).2 h)],
      ?_, ?_⟩
    · rintro ⟨e1, e2⟩
      simp [h1, h2, e1, e2]
    · rintro (e1 | e2)
      · simp [h1, e1]
      · simp [h2, e2]
  have hrest : ∀ t ∈ ([Token.StartElement "item" []] ++ encodeEl "title" it.Title
        ++ encodeEl "link" it.Link ++ mid)
        ++ (renderRSS2WithExtensions_enclosure it ++ writeExtensions it.Extensions
          ++ [Token.EndElement "item"]), Token.isStartOf "guid" t = false := by
    intro t ht
    have hin : Token.nameIn ["item", "title", "link", "description", "pubDate", "enclosure"] t
        = true := by
      simp only [List.mem_append, List.mem_singleton] at ht
      rcases ht with (((h | h) | h) | h) | ((h | h) | h)
      · subst h; rfl
      · exact encodeEl_nameIn (by simp) _ t h
      · exact encodeEl_nameIn (by simp) _ t h
      · exact nameIn_mono (by decide) (hmid t h)
      · exact nameIn_mono (by decide) (enclosure_part_nameIn it t h)
      · exact nameIn_of_hasColon _ (writeExtensions_hasColon _ t h)
      · subst h; rfl
    exact isStartOf_of_nameIn (by decide) (by decide) hin
  refine ⟨⟨_, _, ?_, hrest⟩, ?_, hblank, hfull⟩
  · rw [hparts]
    simp only [List.append_assoc]
  · constructor
    · rintro ⟨t, ht, hs⟩
      intro hb
      rw [hparts, hblank hb] at ht
      have : t ∈ ([Token.StartElement "item" []] ++ encodeEl "title" it.Title
          ++ encodeEl "link" it.Link ++ mid)
          ++ (renderRSS2WithExtensions_enclosure it ++ writeExtensions it.Extensions
            ++ [Token.EndElement "item"]) := by
        simpa [List.append_assoc] using ht
      rw [hrest t this] at hs
      exact Bool.false_ne_true hs
    · intro hb
      obtain ⟨as, hg, _⟩ := hfull hb
      refine ⟨Token.StartElement "guid" as, ?_, by simp [Token.isStartOf]⟩
      rw [hparts, hg]
      simp

/-- C13 on an item whose GUID is "HTTPS://x": the `<guid>` element carries no attribute. -/
theorem guid_element_witness :
    (∀ c : Char, 0x80 ≤ c.toNat →
      sampleLib.toLowerTable c ∉ ['h', 't', 'p', 's', ':', '/']) ∧
    renderRSS2WithExtensions_guid sampleLib upperGuidItem =
      [Token.StartElement "guid" [], Token.CharData "HTTPS://x", Token.EndElement "guid"] ∧
    ((∃ t ∈ renderRSS2WithExtensions_item sampleLib (some upperGuidItem),
        Token.isStartOf "guid" t = true) ↔ TrimSpace upperGuidItem.GUID ≠ "") := by
  have hlib : ∀ c : Char, 0x80 ≤ c.toNat →
      sampleLib.toLowerTable c ∉ ['h', 't', 'p', 's', ':', '/'] := by
    intro c hc hmem
    simp only [sampleLib, List.mem_cons, List.mem_singleton, List.not_mem_nil, or_false] at hmem
    rcases hmem with rfl | rfl | rfl | rfl | rfl | rfl <;> exact absurd hc (by decide)
  exact ⟨hlib, rfl, (guid_element sampleLib upperGuidItem hlib).2.1⟩

/-! ## The enclosure element -/

/-- C14 (as stated). The first enclosure of `blankLengthItem` has a length of one space and a
type of one tab, both blank after trimming, and the `<enclosure>` element written for the item
carries the `length` and the `type` attribute all the same. -/
theorem enclosure_blank_length :
    TrimSpace " " = "" ∧ TrimSpace "\t" = "" ∧
    renderRSS2WithExtensions_item sampleLib (some blankLengthItem) =
      [Token.StartElement "item" [],
        Token.StartElement "title" [], Token.CharData "Episode", Token.EndElement "title",
        Token.StartElement "enclosure"
          [("url", "https://example.org/a.mp3"), ("length", " "), ("type", "\t")],
        Token.EndElement "enclosure",
        Token.EndElement "item"] := by
  refine ⟨by decide, by decide, rfl⟩

/-- C14 (amended). The item block holds at most one `<enclosure>` element, built from the
first enclosure only, and none when the item has no enclosure or its first entry is nil.  The
element always carries the `url` attribute; it carries the `length` attribute exactly when the
length of the enclosure is not the empty string, and the `type` attribute exactly when its
type is not the empty string, so a whitespace-only length or type is written. -/
theorem enclosure_element (lib : Lib) (it : Item) :
    (∃ pre post : List Token,
      renderRSS2WithExtensions_item lib (some it)
        = pre ++ renderRSS2WithExtensions_enclosure it ++ post ∧
      ∀ t ∈ pre ++ post, Token.isStartOf "enclosure" t = false) ∧
    (it.Enclosures = [] → renderRSS2WithExtensions_enclosure it = []) ∧
    (∀ rest, it.Enclosures = none :: rest → renderRSS2WithExtensions_enclosure it = []) ∧
    (∀ (e : Enclosure) (rest : List (Option Enclosure)), it.Enclosures = some e :: rest →
      ∃ as : List (String × String),
        renderRSS2WithExtensions_enclosure it =
          [Token.StartElement "enclosure" as, Token.EndElement "enclosure"] ∧
        as.head? = some ("url", e.URL) ∧
        (∀ k v, (k, v) ∈ as → k = "url" ∨ k = "length" ∨ k = "type") ∧
        (∀ v, ("url", v) ∈ as ↔ v = e.URL) ∧
        (∀ v, ("length", v) ∈ as ↔ v = e.Length ∧ e.Length ≠ "") ∧
        (∀ v, ("type", v) ∈ as ↔ v = e.Type_ ∧ e.Type_ ≠ "")) := by
  obtain ⟨mid, hparts, hmid⟩ := item_block_parts lib it
  refine ⟨⟨[Token.StartElement "item" []] ++ encodeEl "title" it.Title
      ++ encodeEl "link" it.Link ++ mid ++ renderRSS2WithExtensions_guid lib it,
    writeExtensions it.Extensions ++ [Token.EndElement "item"], ?_, ?_⟩, ?_, ?_, ?_⟩
  · rw [hparts]
    simp only [List.append_assoc]
  · intro t ht
    have hin : Token.nameIn ["item", "title", "link", "description", "pubDate", "guid"] t
        = true := by
      simp only [List.mem_append, List.mem_singleton] at ht
      rcases ht with ((((h | h) | h) | h) | h) | (h | h)
      · subst h; rfl
      · exact encodeEl_nameIn (by simp) _ t h
      · exact encodeEl_nameIn (by simp) _ t h
      · exact nameIn_mono (by decide) (hmid t h)
      · exact nameIn_mono (by decide) (guid_part_nameIn lib it t h)
      · exact nameIn_of_hasColon _ (writeExtensions_hasColon _ t h)
      · subst h; rfl
    exact isStartOf_of_nameIn (by decide) (by decide) hin
  · intro h
    simp [renderRSS2WithExtensions_enclosure, h]
  · intro rest h
    simp [renderRSS2WithExtensions_enclosure, h]
  · intro e rest h
    refine ⟨[("url", e.URL)]
        ++ (if e.Length ≠ "" then [("length", e.Length)] else [])
        ++ (if e.Type_ ≠ "" then [("type", e.Type_)] else []),
      by simp only [renderRSS2WithExtensions_enclosure, h], by simp, ?_, ?_, ?_, ?_⟩
    · intro k v hkv
      by_cases hl : e.Length = "" <;> by_cases ht : e.Type_ = "" <;>
        simp [hl, ht] at hkv <;> tauto
    · intro v
      by_cases hl : e.Length = "" <;> by_cases ht : e.Type_ = "" <;> simp [hl, ht]
    · intro v
      by_cases hl : e.Length = "" <;> by_cases ht : e.Type_ = "" <;> simp [hl, ht]
    · intro v
      by_cases hl : e.Length = "" <;> by_cases ht : e.Type_ = "" <;> simp [hl, ht]

/-! ## Conversion for the Atom output -/

/-- Result of `firstNonZeroTime`: the first entry that is non-nil and non-zero, or the zero
time. -/
theorem firstNonZeroTime_eq :
    ∀ ts : List (Option Time),
      firstNonZeroTime ts = ((ts.filterMap nonZeroTime?).head?).getD { sec := 0, nsec := 0 }
  | [] => rfl
  | none :: ts => by
    simp [firstNonZeroTime, nonZeroTime?, firstNonZeroTime_eq ts]
  | some t :: ts => by
    cases hz : t.IsZero <;>
      simp [firstNonZeroTime, nonZeroTime?, hz, firstNonZeroTime_eq ts]

/-- Result of `coalesce`: the first argument that is non-blank, or the empty string. -/
theorem coalesce_eq :
    ∀ ss : List String, coalesce ss = ((ss.filter nonBlank).head?).getD ""
  | [] => rfl
  | s :: ss => by
    cases hb : nonBlank s <;> simp [coalesce, hb, List.filter_cons, coalesce_eq ss]

theorem toGorilla_items_eq (inp : Feed) :
    ∀ items : List Item,
      toGorilla_items inp (items.map some)
        = some (items.map fun it => some (toGorilla_item inp it))
  | [] => rfl
  | it :: rest => by
    simp [toGorilla_items, toGorilla_items_eq inp rest]

theorem coalesce_pair (a b : String) :
    (TrimSpace a ≠ "" → coalesce [a, b] = a) ∧
    (TrimSpace a = "" → TrimSpace b ≠ "" → coalesce [a, b] = b) ∧
    (TrimSpace a = "" → TrimSpace b = "" → coalesce [a, b] = "") := by
  refine ⟨?_, ?_, ?_⟩
  · intro h
    simp [coalesce, (nonBlank_eq_true_iff a).2 h]
  · intro h1 h2
    simp [coalesce, (nonBlank_eq_false_iff_trim a).2 h1, (nonBlank_eq_true_iff b).2 h2]
  · intro h1 h2
    simp [coalesce, (nonBlank_eq_false_iff_trim a).2 h1, (nonBlank_eq_false_iff_trim b).2 h2]

theorem toGorilla_fields (inp : Feed) (fis : List (Option feeds.Item))
    (hrun : toGorilla_items inp inp.Items = some fis) :
    ∃ g : feeds.Feed, toGorilla inp = some g ∧ g.Items = fis ∧ g.Title = inp.Title ∧
      g.Description = coalesce [inp.Description, inp.Title] ∧
      g.Created = firstNonZeroTime [inp.PublishedParsed, inp.UpdatedParsed] ∧
      g.Updated = firstNonZeroTime [inp.UpdatedParsed, inp.PublishedParsed] := by
  simp only [toGorilla, hrun]
  exact ⟨_, rfl, rfl, rfl, rfl, rfl, rfl⟩

/-- C19. For a feed without nil item pointers `toGorilla` returns a feed with one item per
input item, in the same order.  The channel's Created is the first non-nil, non-zero time of
[published, updated], its Updated the first of [updated, published], the zero time when there
is none; an item's Created is the first of [item published, item updated, channel published],
its Updated the first of [item updated, item published]; an item's Id is the GUID when
non-blank, otherwise the link when non-blank, otherwise empty; a blank description is
replaced by the title (channel) or the content (item) when that is non-blank, and by the empty
string otherwise; and the enclosure of an item is its first enclosure only. -/
theorem toGorilla_spec (inp : Feed) (hnil : ∀ x ∈ inp.Items, x ≠ none) :
    ∃ (items : List Item) (g : feeds.Feed),
      inp.Items = items.map some ∧
      toGorilla inp = some g ∧
      g.Items = items.map (fun it => some (toGorilla_item inp it)) ∧
      g.Items.length = inp.Items.length ∧
      g.Title = inp.Title ∧
      g.Created = (([inp.PublishedParsed, inp.UpdatedParsed].filterMap nonZeroTime?).head?).getD
        { sec := 0, nsec := 0 } ∧
      g.Updated = (([inp.UpdatedParsed, inp.PublishedParsed].filterMap nonZeroTime?).head?).getD
        { sec := 0, nsec := 0 } ∧
      (TrimSpace inp.Description ≠ "" → g.Description = inp.Description) ∧
      (TrimSpace inp.Description = "" → TrimSpace inp.Title ≠ "" →
        g.Description = inp.Title) ∧
      (TrimSpace inp.Description = "" → TrimSpace inp.Title = "" → g.Description = "") ∧
      ∀ it ∈ items,
        (toGorilla_item inp it).Title = it.Title ∧
        (toGorilla_item inp it).Created =
          (([it.PublishedParsed, it.UpdatedParsed, inp.PublishedParsed].filterMap
            nonZeroTime?).head?).getD { sec := 0, nsec := 0 } ∧
        (toGorilla_item inp it).Updated =
          (([it.UpdatedParsed, it.PublishedParsed].filterMap nonZeroTime?).head?).getD
            { sec := 0, nsec := 0 } ∧
        (TrimSpace it.GUID ≠ "" → (toGorilla_item inp it).Id = it.GUID) ∧
        (TrimSpace it.GUID = "" → TrimSpace it.Link ≠ "" →
          (toGorilla_item inp it).Id = it.Link) ∧
        (TrimSpace it.GUID = "" → TrimSpace it.Link = "" → (toGorilla_item inp it).Id = "") ∧
        (TrimSpace it.Description ≠ "" →
          (toGorilla_item inp it).Description = it.Description) ∧
        (TrimSpace it.Description = "" → TrimSpace it.Content ≠ "" →
          (toGorilla_item inp it).Description = it.Content) ∧
        (TrimSpace it.Description = "" → TrimSpace it.Content = "" →
          (toGorilla_item inp it).Description = "") ∧
        (it.Enclosures = [] → (toGorilla_item inp it).Enclosure = none) ∧
        (∀ (e : Enclosure) (rest : List (Option Enclosure)), it.Enclosures = some e :: rest →
          (toGorilla_item inp it).Enclosure
            = some { Url := e.URL, Length := e.Length, Type_ := e.Type_ }) := by
  have hitems := eq_map_some_of_ne_none inp.Items hnil
  have hrun : toGorilla_items inp inp.Items
      = some ((inp.Items.filterMap id).map fun it => some (toGorilla_item inp it)) := by
    conv_lhs => rw [hitems]
    exact toGorilla_items_eq inp _
  have hd := coalesce_pair inp.Description inp.Title
  obtain ⟨g, hg, g1, g2, g3, g4, g5⟩ := toGorilla_fields inp _ hrun
  refine ⟨inp.Items.filterMap id, g, hitems, hg, g1, ?_, g2, ?_, ?_, ?_, ?_, ?_, ?_⟩
  · rw [g1]
    conv_rhs => rw [hitems]
    simp
  · rw [g4]; exact firstNonZeroTime_eq _
  · rw [g5]; exact firstNonZeroTime_eq _
  · rw [g3]; exact hd.1
  · rw [g3]; exact hd.2.1
  · rw [g3]; exact hd.2.2
  · intro it _
    have h1 := coalesce_pair it.GUID it.Link
    have h2 := coalesce_pair it.Description it.Content
    refine ⟨rfl, firstNonZeroTime_eq _, firstNonZeroTime_eq _, h1.1, h1.2.1, h1.2.2,
      h2.1, h2.2.1, h2.2.2, ?_, ?_⟩
    · intro h
      simp [toGorilla_item, h]
    · intro e rest h
      simp [toGorilla_item, h]

/-- C19 on `sdzFeed`: one output item, whose Id is the GUID "ep-1" and whose times are the
zero time. -/
theorem toGorilla_spec_witness :
    (∀ x ∈ sdzFeed.Items, x ≠ none) ∧
    (∃ (items : List Item) (g : feeds.Feed),
      sdzFeed.Items = items.map some ∧ toGorilla sdzFeed = some g ∧
      g.Items = items.map (fun it => some (toGorilla_item sdzFeed it))) ∧
    (toGorilla sdzFeed).map (fun g => g.Items.map (Option.map fun fi => (fi.Title, fi.Id)))
      = some [some ("СДЗ: Episode 1", "ep-1")] := by
  have hF : ∀ x ∈ sdzFeed.Items, x ≠ none := by
    intro x hx
    simp only [sdzFeed, List.mem_singleton] at hx
    subst hx
    exact Option.some_ne_none _
  refine ⟨hF, ?_, rfl⟩
  obtain ⟨items, g, h1, h2, h3, _⟩ := toGorilla_spec sdzFeed hF
  exact ⟨items, g, h1, h2, h3⟩

/-! ## Source cache -/

theorem copyBytes_of_ne_nil {b : Bytes} (h : b ≠ []) : copyBytes b = some b := by
  cases b with
  | nil => exact absurd rfl h
  | cons x xs => simp [copyBytes]

/-- C15. With a positive refresh interval and non-empty cached data, `Get` returns exactly the
cached bytes with status 200 and no error, performs no upstream request and no file read, and
leaves the cache as it was, whatever the world would answer; so a second `Get` returns the
same result. -/
theorem Get_cached (w : World) (c : SourceCache) (hr : 0 < c.cfg.Refresh) (hd : c.data ≠ []) :
    c.Get w = ({ body := some c.data, status := 200, err := none }, c, []) ∧
    (c.Get w).2.1.data = c.data ∧ (c.Get w).2.1.etag = c.etag ∧
    (c.Get w).2.1.lastMod = c.lastMod ∧
    ∀ w2 : World, (c.Get w).2.1.Get w2 = c.Get w := by
  have hlen : c.data.length > 0 := List.length_pos.2 hd
  have hnr : ¬ c.cfg.Refresh ≤ 0 := not_le.2 hr
  have hget : ∀ w1 : World,
      c.Get w1 = ({ body := some c.data, status := 200, err := none }, c, []) := by
    intro w1
    simp only [SourceCache.Get, hnr, if_false, hlen, if_true, copyBytes_of_ne_nil hd]
  refine ⟨hget w, by rw [hget w], by rw [hget w], by rw [hget w], ?_⟩
  intro w2
  rw [hget w]
  exact hget w2

/-- C15 on `warmCache`, against a world that would answer 200 with other headers. -/
theorem Get_cached_witness :
    0 < warmCache.cfg.Refresh ∧ warmCache.data ≠ [] ∧
    (warmCache.Get world200).1 = { body := some [60, 97, 62], status := 200, err := none } ∧
    (warmCache.Get world200).2.2 = [] :=
  ⟨by decide, by decide,
    congrArg Prod.fst (Get_cached world200 warmCache (by decide) (by decide)).1,
    congrArg (fun r => r.2.2) (Get_cached world200 warmCache (by decide) (by decide)).1⟩

/-- C16. For an HTTP(S) source whose upstream answers 304 Not Modified: with empty cached
data `fetch` returns a nil body, status 502 and an error; with non-empty cached data it
returns exactly the cached bytes, status 200 and no error; in both cases the cache, and so
data, etag and lastMod, is unchanged. -/
theorem fetch_not_modified (w : World) (c : SourceCache) (resp : Response)
    (hsrc : hasPrefix c.cfg.Source "http://" = true ∨ hasPrefix c.cfg.Source "https://" = true)
    (hreq : w.newRequest c.cfg.Source = none)
    (hdo : w.roundTrip
      { URL := c.cfg.Source, UserAgent := c.cfg.UserAgent, IfNoneMatch := c.etag,
        IfModifiedSince := c.lastMod } = .ok resp)
    (h304 : resp.StatusCode = 304) :
    (c.data = [] →
      (c.fetch w).1.body = none ∧ (c.fetch w).1.status = 502 ∧ (c.fetch w).1.err ≠ none) ∧
    (c.data ≠ [] → (c.fetch w).1 = { body := some c.data, status := 200, err := none }) ∧
    (c.fetch w).2.1 = c ∧
    (c.fetch w).2.1.data = c.data ∧ (c.fetch w).2.1.etag = c.etag ∧
    (c.fetch w).2.1.lastMod = c.lastMod := by
  have hp : (hasPrefix c.cfg.Source "http://" || hasPrefix c.cfg.Source "https://") = true := by
    simpa using hsrc
  have hstate : (c.fetch w).2.1 = c := by
    simp only [SourceCache.fetch, hp, if_true, hreq, hdo, h304]
    split <;> rfl
  refine ⟨?_, ?_, hstate, by rw [hstate], by rw [hstate], by rw [hstate]⟩
  · intro hd
    simp [SourceCache.fetch, hp, hreq, hdo, h304, hd]
  · intro hd
    have hlen : ¬ c.data.length = 0 := fun h => hd (List.length_eq_zero.1 h)
    simp only [SourceCache.fetch, hp, if_true, hreq, hdo, h304, hlen, if_false,
      copyBytes_of_ne_nil hd]

/-- C16 on `world304`: the empty cache of `httpCfg` gets 502 and an error, `warmCache` gets
its three bytes back with 200 and keeps its ETag. -/
theorem fetch_not_modified_witness :
    ((NewSourceCache httpCfg).fetch world304).1.status = 502 ∧
    ((NewSourceCache httpCfg).fetch world304).1.err = some "304 but no cached body yet" ∧
    (warmCache.fetch world304).1 = { body := some [60, 97, 62], status := 200, err := none } ∧
    (warmCache.fetch world304).2.1.etag = warmCache.etag :=
  ⟨((fetch_not_modified world304 (NewSourceCache httpCfg)
      { StatusCode := 304, ETag := "", LastModified := "", Body := .ok [] }
      (Or.inr (by decide)) rfl rfl rfl).1 rfl).2.1,
    rfl,
    (fetch_not_modified world304 warmCache
      { StatusCode := 304, ETag := "", LastModified := "", Body := .ok [] }
      (Or.inr (by decide)) rfl rfl rfl).2.1 (by decide),
    (fetch_not_modified world304 warmCache
      { StatusCode := 304, ETag := "", LastModified := "", Body := .ok [] }
      (Or.inr (by decide)) rfl rfl rfl).2.2.2.2.1⟩

/-- One `fetch` either leaves the cache as it was, or stores the body of the 2xx response to
its request together with both validators of that response, or stores the content of the file
and clears both validators. -/
theorem fetch_step (w : World) (c : SourceCache) :
    (c.fetch w).2.1 = c ∨
    (∃ (resp : Response) (body : Bytes),
      w.roundTrip
        { URL := c.cfg.Source, UserAgent := c.cfg.UserAgent, IfNoneMatch := c.etag,
          IfModifiedSince := c.lastMod } = .ok resp ∧
      200 ≤ resp.StatusCode ∧ resp.StatusCode ≤ 299 ∧ resp.Body = .ok body ∧
      (c.fetch w).2.1 =
        { c with data := body, etag := resp.ETag, lastMod := resp.LastModified }) ∨
    (∃ b : Bytes, w.readFile (TrimPrefix c.cfg.Source "file://") = .ok b ∧
      (c.fetch w).2.1 = { c with data := b, etag := "", lastMod := "" }) := by
  unfold SourceCache.fetch
  by_cases hp : (hasPrefix c.cfg.Source "http://" || hasPrefix c.cfg.Source "https://") = true
  · simp only [hp, if_true]
    cases hreq : w.newRequest c.cfg.Source with
    | some err => exact Or.inl rfl
    | none =>
      cases hdo : w.roundTrip
          { URL := c.cfg.Source, UserAgent := c.cfg.UserAgent, IfNoneMatch := c.etag,
            IfModifiedSince := c.lastMod } with
      | error err => exact Or.inl rfl
      | ok resp =>
        dsimp only
        by_cases h304 : resp.StatusCode = 304
        · left
          rw [if_pos h304]
          split <;> rfl
        · by_cases hbad : resp.StatusCode < 200 ∨ resp.StatusCode > 299
          · left
            rw [if_neg h304, if_pos hbad]
          · cases hbody : resp.Body with
            | error err =>
              left
              rw [if_neg h304, if_neg hbad]
            | ok body =>
              right; left
              refine ⟨resp, body, rfl, by omega, by omega, hbody, ?_⟩
              rw [if_neg h304, if_neg hbad]
  · simp only [hp, if_false]
    cases hread : w.readFile (TrimPrefix c.cfg.Source "file://") with
    | error err => exact Or.inl rfl
    | ok b => exact Or.inr (Or.inr ⟨b, rfl, rfl⟩)

theorem Supplier.occursIn_append (s : Supplier) (pre ws : List World)
    (h : s.occursIn pre) : s.occursIn (pre ++ ws) := by
  cases s with
  | initial => trivial
  | http resp body =>
    obtain ⟨w, hw, rest⟩ := h
    exact ⟨w, List.mem_append_left _ hw, rest⟩
  | file b =>
    obtain ⟨w, hw, rest⟩ := h
    exact ⟨w, List.mem_append_left _ hw, rest⟩

theorem explains_congr (s : Supplier) (c c2 : SourceCache) (hd : c2.data = c.data)
    (he : c2.etag = c.etag) (hl : c2.lastMod = c.lastMod) (h : s.explains c) :
    s.explains c2 := by
  cases s <;> simp_all [Supplier.explains]

theorem runFetches_explained :
    ∀ (ws pre : List World) (c : SourceCache) (s : Supplier),
      s.occursIn pre → s.explains c →
      ∃ s2 : Supplier, s2.occursIn (pre ++ ws) ∧ s2.explains (runFetches ws c)
  | [], pre, c, s, ho, he => ⟨s, by simpa using ho, he⟩
  | w :: ws, pre, c, s, ho, he => by
    have hstep : ∃ s1 : Supplier, s1.occursIn (pre ++ [w]) ∧ s1.explains (c.fetch w).2.1 := by
      rcases fetch_step w c with h | ⟨resp, body, hdo, h1, h2, hb, h⟩ | ⟨b, hr, h⟩
      · rw [h]
        exact ⟨s, s.occursIn_append pre [w] ho, he⟩
      · rw [h]
        exact ⟨Supplier.http resp body, ⟨w, by simp, _, hdo, h1, h2⟩, hb, rfl, rfl, rfl⟩
      · rw [h]
        exact ⟨Supplier.file b, ⟨w, by simp, _, hr⟩, rfl, rfl, rfl⟩
    obtain ⟨s1, ho1, he1⟩ := hstep
    have := runFetches_explained ws (pre ++ [w]) _ s1 ho1 he1
    simpa [runFetches] using this

/-- C17. In every cache state reached from the empty cache by a sequence of `fetch` calls the
cached etag and lastMod are the ETag and Last-Modified values of the very 2xx response whose
body is the cached data, or both empty when the data is the content of a local file or
nothing was stored yet; and each single `fetch` either changes nothing, or replaces data and
both validators from one response, or replaces data from a file and clears both
validators. -/
theorem cache_validators (cfg : Config) (ws : List World) :
    (∃ s : Supplier, s.occursIn ws ∧ s.explains (runFetches ws (NewSourceCache cfg))) ∧
    (∀ (w : World) (c : SourceCache),
      (c.fetch w).2.1 = c ∨
      (∃ (resp : Response) (body : Bytes),
        w.roundTrip
          { URL := c.cfg.Source, UserAgent := c.cfg.UserAgent, IfNoneMatch := c.etag,
            IfModifiedSince := c.lastMod } = .ok resp ∧
        200 ≤ resp.StatusCode ∧ resp.StatusCode ≤ 299 ∧ resp.Body = .ok body ∧
        (c.fetch w).2.1 =
          { c with data := body, etag := resp.ETag, lastMod := resp.LastModified }) ∨
      (∃ b : Bytes, w.readFile (TrimPrefix c.cfg.Source "file://") = .ok b ∧
        (c.fetch w).2.1 = { c with data := b, etag := "", lastMod := "" })) := by
  refine ⟨?_, fetch_step⟩
  have h := runFetches_explained ws [] (NewSourceCache cfg) Supplier.initial trivial
    ⟨rfl, rfl, rfl⟩
  simpa using h

/-! ## Failed fetches -/

/-- Each listed failure makes `fetch` return an error: a request that cannot be built (400),
a failed round trip (502), 304 with empty cached data (502), a status outside 200-299 other
than 304 (that status), a body that cannot be read (502), a file that cannot be read (400). -/
theorem fetch_error_of_cause (w : World) (c : SourceCache) :
    (∀ e, (hasPrefix c.cfg.Source "http://" || hasPrefix c.cfg.Source "https://") = true →
      w.newRequest c.cfg.Source = some e →
      (c.fetch w).1 = { body := none, status := 400, err := some e }) ∧
    (∀ e, (hasPrefix c.cfg.Source "http://" || hasPrefix c.cfg.Source "https://") = true →
      w.newRequest c.cfg.Source = none →
      w.roundTrip
        { URL := c.cfg.Source, UserAgent := c.cfg.UserAgent, IfNoneMatch := c.etag,
          IfModifiedSince := c.lastMod } = .error e →
      (c.fetch w).1 = { body := none, status := 502, err := some e }) ∧
    (∀ resp, (hasPrefix c.cfg.Source "http://" || hasPrefix c.cfg.Source "https://") = true →
      w.newRequest c.cfg.Source = none →
      w.roundTrip
        { URL := c.cfg.Source, UserAgent := c.cfg.UserAgent, IfNoneMatch := c.etag,
          IfModifiedSince := c.lastMod } = .ok resp →
      (resp.StatusCode = 304 → c.data = [] →
        (c.fetch w).1 =
          { body := none, status := 502, err := some "304 but no cached body yet" }) ∧
      (resp.StatusCode ≠ 304 → resp.StatusCode < 200 ∨ resp.StatusCode > 299 →
        (c.fetch w).1 =
          { body := none, status := resp.StatusCode,
            err := some ("upstream HTTP " ++ toString resp.StatusCode) }) ∧
      (∀ e, 200 ≤ resp.StatusCode → resp.StatusCode ≤ 299 → resp.Body = .error e →
        (c.fetch w).1 = { body := none, status := 502, err := some e })) ∧
    (∀ e, (hasPrefix c.cfg.Source "http://" || hasPrefix c.cfg.Source "https://") = false →
      w.readFile (TrimPrefix c.cfg.Source "file://") = .error e →
      (c.fetch w).1 = { body := none, status := 400, err := some e }) := by
  refine ⟨?_, ?_, ?_, ?_⟩
  · intro e hp hreq
    simp only [SourceCache.fetch, hp, if_true, hreq]
  · intro e hp hreq hdo
    simp only [SourceCache.fetch, hp, if_true, hreq, hdo]
  · intro resp hp hreq hdo
    refine ⟨?_, ?_, ?_⟩
    · intro h304 hd
      simp [SourceCache.fetch, hp, hreq, hdo, h304, hd]
    · intro h304 hbad
      simp only [SourceCache.fetch, hp, if_true, hreq, hdo]
      rw [if_neg h304, if_pos hbad]
    · intro e h1 h2 hbody
      have h304 : resp.StatusCode ≠ 304 := by omega
      have hbad : ¬ (resp.StatusCode < 200 ∨ resp.StatusCode > 299) := by omega
      simp only [SourceCache.fetch, hp, if_true, hreq, hdo]
      rw [if_neg h304, if_neg hbad]
      simp only [hbody]
  · intro e hp hread
    simp [SourceCache.fetch, hp, hread]

/-- C21. When `fetch` returns a non-nil error the cache is exactly what it was before the
call, so data, etag and lastMod are neither cleared nor partly updated, the returned byte
slice is nil, and the error is one of: request construction failure, network failure, 304 with
empty cached data, an upstream status outside 200-299 other than 304, body read failure, or
local file read failure. -/
theorem fetch_error_keeps_cache (w : World) (c : SourceCache)
    (herr : (c.fetch w).1.err ≠ none) :
    (c.fetch w).2.1 = c ∧
    (c.fetch w).2.1.data = c.data ∧ (c.fetch w).2.1.etag = c.etag ∧
    (c.fetch w).2.1.lastMod = c.lastMod ∧
    (c.fetch w).1.body = none ∧
    (((hasPrefix c.cfg.Source "http://" || hasPrefix c.cfg.Source "https://") = true ∧
        ((∃ e, w.newRequest c.cfg.Source = some e ∧ (c.fetch w).1.status = 400) ∨
         (w.newRequest c.cfg.Source = none ∧
          ((∃ e, w.roundTrip
              { URL := c.cfg.Source, UserAgent := c.cfg.UserAgent, IfNoneMatch := c.etag,
                IfModifiedSince := c.lastMod } = .error e ∧ (c.fetch w).1.status = 502) ∨
           (∃ resp, w.roundTrip
              { URL := c.cfg.Source, UserAgent := c.cfg.UserAgent, IfNoneMatch := c.etag,
                IfModifiedSince := c.lastMod } = .ok resp ∧
              ((resp.StatusCode = 304 ∧ c.data = [] ∧ (c.fetch w).1.status = 502) ∨
               (resp.StatusCode ≠ 304 ∧ (resp.StatusCode < 200 ∨ resp.StatusCode > 299) ∧
                (c.fetch w).1.status = resp.StatusCode) ∨
               (200 ≤ resp.StatusCode ∧ resp.StatusCode ≤ 299 ∧
                (∃ e, resp.Body = .error e) ∧ (c.fetch w).1.status = 502))))))) ∨
     ((hasPrefix c.cfg.Source "http://" || hasPrefix c.cfg.Source "https://") = false ∧
        ∃ e, w.readFile (TrimPrefix c.cfg.Source "file://") = .error e ∧
          (c.fetch w).1.status = 400)) := by
  have hcauses := fetch_error_of_cause w c
  have key : (c.fetch w).2.1 = c ∧ (c.fetch w).1.body = none ∧
      (((hasPrefix c.cfg.Source "http://" || hasPrefix c.cfg.Source "https://") = true ∧
        ((∃ e, w.newRequest c.cfg.Source = some e ∧ (c.fetch w).1.status = 400) ∨
         (w.newRequest c.cfg.Source = none ∧
          ((∃ e, w.roundTrip
              { URL := c.cfg.Source, UserAgent := c.cfg.UserAgent, IfNoneMatch := c.etag,
                IfModifiedSince := c.lastMod } = .error e ∧ (c.fetch w).1.status = 502) ∨
           (∃ resp, w.roundTrip
              { URL := c.cfg.Source, UserAgent := c.cfg.UserAgent, IfNoneMatch := c.etag,
                IfModifiedSince := c.lastMod } = .ok resp ∧
              ((resp.StatusCode = 304 ∧ c.data = [] ∧ (c.fetch w).1.status = 502) ∨
               (resp.StatusCode ≠ 304 ∧ (resp.StatusCode < 200 ∨ resp.StatusCode > 299) ∧
                (c.fetch w).1.status = resp.StatusCode) ∨
               (200 ≤ resp.StatusCode ∧ resp.StatusCode ≤ 299 ∧
                (∃ e, resp.Body = .error e) ∧ (c.fetch w).1.status = 502))))))) ∨
       ((hasPrefix c.cfg.Source "http://" || hasPrefix c.cfg.Source "https://") = false ∧
        ∃ e, w.readFile (TrimPrefix c.cfg.Source "file://") = .error e ∧
          (c.fetch w).1.status = 400)) := by
    cases hp : (hasPrefix c.cfg.Source "http://" || hasPrefix c.cfg.Source "https://") with
    | false =>
      cases hread : w.readFile (TrimPrefix c.cfg.Source "file://") with
      | error e =>
        have hres := hcauses.2.2.2 e hp hread
        have hst : (c.fetch w).2.1 = c := by
          simp [SourceCache.fetch, hp, hread]
        exact ⟨hst, by rw [hres], Or.inr ⟨rfl, e, rfl, by rw [hres]⟩⟩
      | ok b =>
        exfalso
        apply herr
        simp [SourceCache.fetch, hp, hread]
    | true =>
      cases hreq : w.newRequest c.cfg.Source with
      | some e =>
        have hres := hcauses.1 e hp hreq
        have hst : (c.fetch w).2.1 = c := by
          simp only [SourceCache.fetch, hp, if_true, hreq]
        exact ⟨hst, by rw [hres], Or.inl ⟨rfl, Or.inl ⟨e, rfl, by rw [hres]⟩⟩⟩
      | none =>
        cases hdo : w.roundTrip
            { URL := c.cfg.Source, UserAgent := c.cfg.UserAgent, IfNoneMatch := c.etag,
              IfModifiedSince := c.lastMod } with
        | error e =>
          have hres := hcauses.2.1 e hp hreq hdo
          have hst : (c.fetch w).2.1 = c := by
            simp only [SourceCache.fetch, hp, if_true, hreq, hdo]
          exact ⟨hst, by rw [hres],
            Or.inl ⟨rfl, Or.inr ⟨rfl, Or.inl ⟨e, rfl, by rw [hres]⟩⟩⟩⟩
        | ok resp =>
          obtain ⟨c304, cbad, cbody⟩ := hcauses.2.2.1 resp hp hreq hdo
          by_cases h304 : resp.StatusCode = 304
          · have hst : (c.fetch w).2.1 = c := by
              simp only [SourceCache.fetch, hp, if_true, hreq, hdo]
              rw [if_pos h304]
              split <;> rfl
            by_cases hd : c.data = []
            · have hres := c304 h304 hd
              exact ⟨hst, by rw [hres],
                Or.inl ⟨rfl, Or.inr ⟨rfl, Or.inr ⟨resp, rfl,
                  Or.inl ⟨h304, hd, by rw [hres]⟩⟩⟩⟩⟩
            · exfalso
              apply herr
              have hlen : ¬ c.data.length = 0 := fun h => hd (List.length_eq_zero.1 h)
              simp only [SourceCache.fetch, hp, if_true, hreq, hdo]
              rw [if_pos h304, if_neg hlen]
          · by_cases hbad : resp.StatusCode < 200 ∨ resp.StatusCode > 299
            · have hres := cbad h304 hbad
              have hst : (c.fetch w).2.1 = c := by
                simp only [SourceCache.fetch, hp, if_true, hreq, hdo]
                rw [if_neg h304, if_pos hbad]
              exact ⟨hst, by rw [hres],
                Or.inl ⟨rfl, Or.inr ⟨rfl, Or.inr ⟨resp, rfl,
                  Or.inr (Or.inl ⟨h304, hbad, by rw [hres]⟩)⟩⟩⟩⟩
            · cases hbody : resp.Body with
              | error e =>
                have hres := cbody e (by omega) (by omega) hbody
                have hst : (c.fetch w).2.1 = c := by
                  simp only [SourceCache.fetch, hp, if_true, hreq, hdo]
                  rw [if_neg h304, if_neg hbad]
                  simp only [hbody]
                exact ⟨hst, by rw [hres],
                  Or.inl ⟨rfl, Or.inr ⟨rfl, Or.inr ⟨resp, rfl,
                    Or.inr (Or.inr ⟨by omega, by omega, ⟨e, hbody⟩, by rw [hres]⟩)⟩⟩⟩⟩
              | ok body =>
                exfalso
                apply herr
                simp only [SourceCache.fetch, hp, if_true, hreq, hdo]
                rw [if_neg h304, if_neg hbad]
                simp only [hbody]
  obtain ⟨hst, hbody, hcase⟩ := key
  exact ⟨hst, by rw [hst], by rw [hst], by rw [hst], hbody, hcase⟩

/-- C21 on `warmCache`: against an upstream that answers 404 with another ETag, and against
an upstream that cannot be reached, `fetch` fails with a nil body and the three cached bytes
and their ETag stay in place. -/
theorem fetch_error_keeps_cache_witness :
    (warmCache.fetch world404).1.err ≠ none ∧
    (warmCache.fetch world404).1.status = 404 ∧
    (warmCache.fetch world404).1.body = none ∧
    (warmCache.fetch world404).2.1.data = warmCache.data ∧
    (warmCache.fetch world404).2.1.etag = warmCache.etag ∧
    (warmCache.fetch world404).2.1.lastMod = warmCache.lastMod ∧
    (warmCache.fetch worldFile).1.err = some "dial tcp: connection refused" ∧
    (warmCache.fetch worldFile).1.body = none ∧
    (warmCache.fetch worldFile).2.1.data = warmCache.data ∧
    (warmCache.fetch worldFile).2.1.etag = warmCache.etag :=
  ⟨by decide, rfl,
    (fetch_error_keeps_cache world404 warmCache (by decide)).2.2.2.2.1,
    (fetch_error_keeps_cache world404 warmCache (by decide)).2.1,
    (fetch_error_keeps_cache world404 warmCache (by decide)).2.2.1,
    (fetch_error_keeps_cache world404 warmCache (by decide)).2.2.2.1,
    rfl,
    (fetch_error_keeps_cache worldFile warmCache (by decide)).2.2.2.2.1,
    (fetch_error_keeps_cache worldFile warmCache (by decide)).2.1,
    (fetch_error_keeps_cache worldFile warmCache (by decide)).2.2.1⟩

end RssSplit
